import Mathlib

/-!
# Verification of the binaryen Dead Code Elimination pass and module I/O dispatch

This file is a shallow embedding of `src/passes/DeadCodeElimination.cpp` and
`src/wasm/wasm-io.cpp` from the binaryen repository, together with proofs of
properties of the embedded code.

The AST (`Expr`), its result types (`Typ`), and the per-node visitors
(`visitBlock`, `visitLoop`, `visitIf`, `visitBreak`, `visitSwitch`, …) are
translated directly from the source.  The traversal (`dceE`) mirrors the
task-scheduler walk of `PostWalker` specialized by `DeadCodeElimination::scan`:
the `reachable` pre-check kills nodes in place, children are processed
left-to-right before the node's visitor runs, and `If` uses the custom
condition / push / ifTrue / swap-restore / ifFalse / join schedule.

Helpers of the repository that are not part of the given sources
(`wasm.h` finalize methods, `Builder::makeDrop`, `BlockUtils`, `BreakSeeker`,
the `TypeUpdater` interface) are modelled from the specification; each such
definition carries a doc comment saying so.  Calls into the `TypeUpdater`
interface are recorded as an event trace rather than interpreted, since only
the fact of notification is specified.
-/

/-- Wasm result types, from `wasm.h` (modelled from the spec §3: result types
are drawn from `{i32, i64, f32, f64, none, unreachable}`). -/
inductive Typ where
  | i32
  | i64
  | f32
  | f64
  | none
  | unreachable
deriving DecidableEq, Repr

/-- Labels (binaryen `Name`). -/
abbrev Name := String

mutual

/-- The expression AST of the wasm IR, one constructor per node kind that
`DeadCodeElimination::scan` dispatches on.  Every node that carries a type in
the C++ class carries one here; `nop` has type `none` and `unreachable` /
`ret` have type `unreachable` (fixed in the C++ classes).  Optional labelsary
(`Block::name`, `Loop::name`) are `Option Name`: `Name.is()` is `isSome`. -/
inductive Expr where
  | block (name : Option Name) (list : ExprList) (type : Typ)
  | if_ (condition : Expr) (ifTrue : Expr) (ifFalse : ExprOpt) (type : Typ)
  | loop (name : Option Name) (body : Expr) (type : Typ)
  | br (name : Name) (value : ExprOpt) (condition : ExprOpt) (type : Typ)
  | switch_ (targets : List Name) (default_ : Name) (value : ExprOpt)
      (condition : Expr) (type : Typ)
  | call (target : Name) (operands : ExprList) (type : Typ)
  | callImport (target : Name) (operands : ExprList) (type : Typ)
  | callIndirect (operands : ExprList) (target : Expr) (type : Typ)
  | getLocal (index : Nat) (type : Typ)
  | setLocal (index : Nat) (value : Expr) (type : Typ)
  | getGlobal (name : Name) (type : Typ)
  | setGlobal (name : Name) (value : Expr) (type : Typ)
  | load (ptr : Expr) (type : Typ)
  | store (ptr : Expr) (value : Expr) (type : Typ)
  | const (type : Typ)
  | unary (value : Expr) (type : Typ)
  | binary (left : Expr) (right : Expr) (type : Typ)
  | select (ifTrue : Expr) (ifFalse : Expr) (condition : Expr) (type : Typ)
  | drop (value : Expr) (type : Typ)
  | ret (value : ExprOpt)
  | host (operands : ExprList) (type : Typ)
  | nop
  | unreachable

/-- Lists of expressions (`ExpressionList`), as a mutual inductive so that the
walker is structurally recursive. -/
inductive ExprList where
  | nil
  | cons (head : Expr) (tail : ExprList)

/-- Optional child expressions (a nullable `Expression*` field). -/
inductive ExprOpt where
  | none
  | some (e : Expr)

end

/-- The declared result type of a node (the `type` member of `Expression`). -/
def typeOf : Expr → Typ
  | .block _ _ ty => ty
  | .if_ _ _ _ ty => ty
  | .loop _ _ ty => ty
  | .br _ _ _ ty => ty
  | .switch_ _ _ _ _ ty => ty
  | .call _ _ ty => ty
  | .callImport _ _ ty => ty
  | .callIndirect _ _ ty => ty
  | .getLocal _ ty => ty
  | .setLocal _ _ ty => ty
  | .getGlobal _ ty => ty
  | .setGlobal _ _ ty => ty
  | .load _ ty => ty
  | .store _ _ ty => ty
  | .const ty => ty
  | .unary _ ty => ty
  | .binary _ _ ty => ty
  | .select _ _ _ ty => ty
  | .drop _ ty => ty
  | .ret _ => .unreachable
  | .host _ ty => ty
  | .nop => .none
  | .unreachable => .unreachable

/-- Length of an `ExprList`. -/
def elength : ExprList → Nat
  | .nil => 0
  | .cons _ tl => elength tl + 1

/-- `List.take` on `ExprList` (`resize` to a smaller size). -/
def etake : Nat → ExprList → ExprList
  | 0, _ => .nil
  | _, .nil => .nil
  | n + 1, .cons hd tl => .cons hd (etake n tl)

/-- `List.map` on `ExprList`. -/
def emap (f : Expr → Expr) : ExprList → ExprList
  | .nil => .nil
  | .cons hd tl => .cons (f hd) (emap f tl)

/-- `List.append` on `ExprList`. -/
def eappend : ExprList → ExprList → ExprList
  | .nil, l => l
  | .cons hd tl, l => .cons hd (eappend tl l)

/-- Element access with default (`operands[i]`). -/
def egetD : ExprList → Nat → Expr → Expr
  | .nil, _, d => d
  | .cons hd _, 0, _ => hd
  | .cons _ tl, n + 1, d => egetD tl n d

/-- Index of the first element of type `unreachable`
(the search of the `for` loop in `handleCall`). -/
def firstUnreachableIdx : ExprList → Option Nat
  | .nil => Option.none
  | .cons hd tl =>
      if typeOf hd = Typ.unreachable then Option.some 0
      else (firstUnreachableIdx tl).map (· + 1)

/-- Events sent to the `TypeUpdater` collaborator.  Its interface is modelled
from the spec (§6): `note_replacement`, `note_recursive_removal`, and
`maybe_update_type_to_unreachable` are recorded, not interpreted. -/
inductive Event where
  | noteRecursiveRemoval (e : Expr)
  | noteReplacement (old new : Expr)
  | maybeUpdateTypeToUnreachable (e : Expr)

/-- The mutable traversal state of `DeadCodeElimination`:
`reachable`, `reachableBreaks` (a `std::set<Name>`), and `ifStack`. -/
structure St where
  reachable : Bool
  reachableBreaks : List Name
  ifStack : List Bool

/-- `std::set<Name>::insert` on the duplicate-free list model. -/
def rbInsert (n : Name) (l : List Name) : List Name :=
  if l.contains n then l else n :: l

/-- `std::set<Name>::erase`, as a filter (the list never holds duplicates
because `rbInsert` guards insertion, so removing every occurrence coincides
with set erasure). -/
def rbErase (l : List Name) (n : Name) : List Name :=
  l.filter (fun m => m ≠ n)

/-- `addBreak`: record a reachable break target. -/
def addBreak (s : St) (n : Name) : St :=
  if s.reachable then { s with reachableBreaks := rbInsert n s.reachableBreaks }
  else s

/-- `isDead`: a child exists and is unreachable. -/
def isDead : ExprOpt → Bool
  | .none => false
  | .some c => typeOf c = Typ.unreachable

/-- `isUnreachable`: the same check when the child surely exists. -/
def isUnreachable (c : Expr) : Bool :=
  typeOf c = Typ.unreachable

/-- `Option.getD` for `ExprOpt`. -/
def egetO : ExprOpt → Expr → Expr
  | .none, d => d
  | .some e, _ => e

/-- Modelled from the spec: `Builder::makeDrop` (from `wasm-builder.h`, not in
the given sources).  It allocates a `Drop` whose finalized type is `none`
unless the value is unreachable (glossary entry "Drop" and §4.2). -/
def makeDrop (value : Expr) : Expr :=
  .drop value (if typeOf value = Typ.unreachable then Typ.unreachable else Typ.none)

/-- The `drop` helper of the pass: unreachable nodes need no `Drop`. -/
def dropOf (toDrop : Expr) : Expr :=
  if typeOf toDrop = Typ.unreachable then toDrop else makeDrop toDrop

mutual

/-- Modelled from the spec: `BreakSeeker::has` (from `ast_utils.h`, not in the
given sources): a structural scan for any `Break` or `Switch` targeting the
label within the subtree (§6). -/
def hasBreakTo : Expr → Name → Bool
  | .block _ list _, n => hasBreakToL list n
  | .if_ c t f _, n => hasBreakTo c n || hasBreakTo t n || hasBreakToO f n
  | .loop _ body _, n => hasBreakTo body n
  | .br name value condition _, n =>
      name = n || hasBreakToO value n || hasBreakToO condition n
  | .switch_ targets default_ value condition _, n =>
      targets.contains n || default_ = n || hasBreakToO value n || hasBreakTo condition n
  | .call _ operands _, n => hasBreakToL operands n
  | .callImport _ operands _, n => hasBreakToL operands n
  | .callIndirect operands target _, n => hasBreakToL operands n || hasBreakTo target n
  | .getLocal _ _, _ => false
  | .setLocal _ value _, n => hasBreakTo value n
  | .getGlobal _ _, _ => false
  | .setGlobal _ value _, n => hasBreakTo value n
  | .load ptr _, n => hasBreakTo ptr n
  | .store ptr value _, n => hasBreakTo ptr n || hasBreakTo value n
  | .const _, _ => false
  | .unary value _, n => hasBreakTo value n
  | .binary l r _, n => hasBreakTo l n || hasBreakTo r n
  | .select t f c _, n => hasBreakTo t n || hasBreakTo f n || hasBreakTo c n
  | .drop value _, n => hasBreakTo value n
  | .ret value, n => hasBreakToO value n
  | .host operands _, n => hasBreakToL operands n
  | .nop, _ => false
  | .unreachable, _ => false

/-- `hasBreakTo` over an expression list. -/
def hasBreakToL : ExprList → Name → Bool
  | .nil, _ => false
  | .cons hd tl, n => hasBreakTo hd n || hasBreakToL tl n

/-- `hasBreakTo` over an optional expression. -/
def hasBreakToO : ExprOpt → Name → Bool
  | .none, _ => false
  | .some e, n => hasBreakTo e n

end

/-- `BreakSeeker::has(body, curr->name)` where the loop's name may be null. -/
def hasBreakToOpt (e : Expr) : Option Name → Bool
  | Option.none => false
  | Option.some n => hasBreakTo e n

/-- Modelled from the spec:
`BlockUtils::simplifyToContentsWithPossibleTypeChange` (from
`ast/block-utils.h`, not in the given sources).  Per §6 it turns a block whose
single child is unreachable into that child; per the label-hygiene property P6
(§8) the replacement may only happen when the child holds no branch to the
block's own label, since otherwise the output would contain a break to a label
that no longer encloses it. -/
def simplifyToContentsWithPossibleTypeChange (blk : Expr) : Expr :=
  match blk with
  | .block name (.cons x .nil) _ =>
      if hasBreakToOpt x name then blk else x
  | _ => blk

/-- Modelled from the spec: `If::finalize` (from `wasm.h`, not in the given
sources): recompute the result type from the arm types; an `If` without an
else has type `none`, and the node "may become unreachable if both arms do"
(§4.2, glossary "Finalize"). -/
def ifFinalize (tTrue : Typ) : Option Typ → Typ
  | Option.none => Typ.none
  | Option.some tFalse =>
      if tTrue = tFalse then tTrue
      else if tTrue = Typ.unreachable then tFalse
      else if tFalse = Typ.unreachable then tTrue
      else Typ.none

/-- The type of an optional arm. -/
def typeOfO : ExprOpt → Option Typ
  | .none => Option.none
  | .some e => Option.some (typeOf e)

/-- The truncation loop of `visitBlock`: cut the list at (and including) the
first element of type `unreachable`, looking only at positions before the
last (`for (Index i = 0; i < list.size() - 1; i++) … list.resize(i + 1)`). -/
def shorten : ExprList → ExprList
  | .nil => .nil
  | .cons hd .nil => .cons hd .nil
  | .cons hd tl =>
      if typeOf hd = Typ.unreachable then .cons hd .nil
      else .cons hd (shorten tl)

/-- `handleCall`: the rewrite shared by `Call`, `CallImport`, `Host` and the
operand phase of `CallIndirect`.  Returns `some` replacement, or `none` when
no operand is unreachable (the C++ returns `curr` unchanged). -/
def handleCall (operands : ExprList) (ty : Typ) : Option Expr :=
  match firstUnreachableIdx operands with
  | Option.none => Option.none
  | Option.some i =>
      if i = 0 then Option.some (egetD operands 0 Expr.nop)
      else Option.some (.block Option.none (emap dropOf (etake (i + 1) operands)) ty)

/-- `visitBreak`. -/
def visitBreak (s : St) (name : Name) (value condition : ExprOpt) (ty : Typ) :
    St × Expr × List Event :=
  let curr := Expr.br name value condition ty
  if isDead value then
    let v := egetO value Expr.nop
    (s, v, [.noteReplacement curr v])
  else if isDead condition then
    let c := egetO condition Expr.nop
    match value with
    | .some v =>
        let b := Expr.block Option.none (.cons (dropOf v) (.cons c .nil)) ty
        (s, b, [.noteReplacement curr b])
    | .none => (s, c, [.noteReplacement curr c])
  else
    let s1 := addBreak s name
    let s2 := match condition with
      | .none => { s1 with reachable := false }
      | .some _ => s1
    (s2, curr, [])

/-- `visitSwitch`. -/
def visitSwitch (s : St) (targets : List Name) (default_ : Name)
    (value : ExprOpt) (condition : Expr) (ty : Typ) : St × Expr × List Event :=
  let curr := Expr.switch_ targets default_ value condition ty
  if isDead value then
    let v := egetO value Expr.nop
    (s, v, [.noteReplacement curr v])
  else if isUnreachable condition then
    match value with
    | .some v =>
        let b := Expr.block Option.none (.cons (dropOf v) (.cons condition .nil)) ty
        (s, b, [.noteReplacement curr b])
    | .none => (s, condition, [.noteReplacement curr condition])
  else
    let s1 := targets.foldl addBreak s
    let s2 := addBreak s1 default_
    ({ s2 with reachable := false }, curr, [])

/-- `visitReturn`. -/
def visitReturn (s : St) (value : ExprOpt) : St × Expr × List Event :=
  let curr := Expr.ret value
  if isDead value then
    let v := egetO value Expr.nop
    (s, v, [.noteReplacement curr v])
  else
    ({ s with reachable := false }, curr, [])

/-- `visitBlock`.  The `typeUpdater.maybeUpdateTypeToUnreachable` call is
recorded as an event only: the `TypeUpdater` itself is not under the given
sources, and the retype it performs per spec §6/§4.2 (a concrete-typed block
ending in an unreachable child becomes unreachable-typed) is NOT applied to
the tree here.  Per-visitor properties that phrase the call as a request are
unaffected; whole-pass properties that depend on the retype feeding back into
parent visitors cannot be read off this walk. -/
def visitBlock (s : St) (name : Option Name) (list : ExprList) (ty : Typ) :
    St × Expr × List Event :=
  let list1 := if s.reachable = false ∧ elength list > 1 then shorten list else list
  let s1 := match name with
    | Option.some n =>
        { s with reachable := s.reachable || s.reachableBreaks.contains n,
                 reachableBreaks := rbErase s.reachableBreaks n }
    | Option.none => s
  let curr := Expr.block name list1 ty
  match list1 with
  | .cons x .nil =>
      if isUnreachable x then
        let r := simplifyToContentsWithPossibleTypeChange curr
        (s1, r, [.noteReplacement curr r])
      else (s1, curr, [.maybeUpdateTypeToUnreachable curr])
  | _ => (s1, curr, [.maybeUpdateTypeToUnreachable curr])

/-- `visitLoop`. -/
def visitLoop (s : St) (name : Option Name) (body : Expr) (ty : Typ) :
    St × Expr × List Event :=
  let s1 := match name with
    | Option.some n => { s with reachableBreaks := rbErase s.reachableBreaks n }
    | Option.none => s
  let curr := Expr.loop name body ty
  if isUnreachable body ∧ hasBreakToOpt body name = false then
    (s1, body, [.noteReplacement curr body])
  else (s1, curr, [])

/-- `visitIf` (the join; `doAfterIfCondition` / `doAfterIfElseTrue` are inlined
in the walker).  The top of `ifStack` joins with logical OR, the condition
hoists when unreachable, and otherwise the node is re-finalized. -/
def visitIf (s : St) (c t : Expr) (f : ExprOpt) (ty : Typ) : St × Expr × List Event :=
  let top := s.ifStack.headD false
  let s1 := { s with reachable := s.reachable || top, ifStack := s.ifStack.tail }
  let curr := Expr.if_ c t f ty
  if isUnreachable c then (s1, c, [.noteReplacement curr c])
  else (s1, Expr.if_ c t f (ifFinalize (typeOf t) (typeOfO f)), [])

/-- `visitCall` / `visitCallImport` / `visitHost` via `handleCall`. -/
def visitCallLike (s : St) (curr : Expr) (operands : ExprList) (ty : Typ) :
    St × Expr × List Event :=
  match handleCall operands ty with
  | Option.some r => (s, r, [.noteReplacement curr r])
  | Option.none => (s, curr, [])

/-- `visitCallIndirect`: the operand rule first; if unchanged and the target
is unreachable, drop every operand and append the target. -/
def visitCallIndirect (s : St) (operands : ExprList) (target : Expr) (ty : Typ) :
    St × Expr × List Event :=
  let curr := Expr.callIndirect operands target ty
  match handleCall operands ty with
  | Option.some r => (s, r, [.noteReplacement curr r])
  | Option.none =>
      if isUnreachable target then
        let b := Expr.block Option.none (eappend (emap dropOf operands) (.cons target .nil)) ty
        (s, b, [.noteReplacement curr b])
      else (s, curr, [])

/-- `visitSetLocal`. -/
def visitSetLocal (s : St) (index : Nat) (value : Expr) (ty : Typ) :
    St × Expr × List Event :=
  let curr := Expr.setLocal index value ty
  if isUnreachable value then (s, value, [.noteReplacement curr value])
  else (s, curr, [])

/-- `visitLoad`. -/
def visitLoad (s : St) (ptr : Expr) (ty : Typ) : St × Expr × List Event :=
  let curr := Expr.load ptr ty
  if isUnreachable ptr then (s, ptr, [.noteReplacement curr ptr])
  else (s, curr, [])

/-- `visitStore`. -/
def visitStore (s : St) (ptr value : Expr) (ty : Typ) : St × Expr × List Event :=
  let curr := Expr.store ptr value ty
  if isUnreachable ptr then (s, ptr, [.noteReplacement curr ptr])
  else if isUnreachable value then
    let b := Expr.block Option.none (.cons (dropOf ptr) (.cons value .nil)) ty
    (s, b, [.noteReplacement curr b])
  else (s, curr, [])

/-- `visitUnary`. -/
def visitUnary (s : St) (value : Expr) (ty : Typ) : St × Expr × List Event :=
  let curr := Expr.unary value ty
  if isUnreachable value then (s, value, [.noteReplacement curr value])
  else (s, curr, [])

/-- `visitBinary`. -/
def visitBinary (s : St) (l r : Expr) (ty : Typ) : St × Expr × List Event :=
  let curr := Expr.binary l r ty
  if isUnreachable l then (s, l, [.noteReplacement curr l])
  else if isUnreachable r then
    let b := Expr.block Option.none (.cons (dropOf l) (.cons r .nil)) ty
    (s, b, [.noteReplacement curr b])
  else (s, curr, [])

/-- `visitSelect`. -/
def visitSelect (s : St) (t f c : Expr) (ty : Typ) : St × Expr × List Event :=
  let curr := Expr.select t f c ty
  if isUnreachable t then (s, t, [.noteReplacement curr t])
  else if isUnreachable f then
    let b := Expr.block Option.none (.cons (dropOf t) (.cons f .nil)) ty
    (s, b, [.noteReplacement curr b])
  else if isUnreachable c then
    let b := Expr.block Option.none
      (.cons (dropOf t) (.cons (dropOf f) (.cons c .nil))) ty
    (s, b, [.noteReplacement curr b])
  else (s, curr, [])

/-- `visitDrop`. -/
def visitDrop (s : St) (value : Expr) (ty : Typ) : St × Expr × List Event :=
  let curr := Expr.drop value ty
  if isUnreachable value then (s, value, [.noteReplacement curr value])
  else (s, curr, [])

mutual

/-- The walk: `DeadCodeElimination::scan` plus the per-node visitors.  When
`reachable` is false the node is converted in place to `Unreachable` (with a
`noteRecursiveRemoval` notification) and its children are not descended into;
an `Unreachable` node is left untouched.  Otherwise children are processed
left-to-right (post-order) and the node's visitor runs on the result; `If`
uses the custom schedule with `ifStack`. -/
def dceE (s : St) (e : Expr) : St × Expr × List Event :=
  if s.reachable then
    match e with
    | .block name list ty =>
        let r1 := dceL s list
        let r2 := visitBlock r1.1 name r1.2.1 ty
        (r2.1, r2.2.1, r1.2.2 ++ r2.2.2)
    | .if_ c t f ty =>
        let rc := dceE s c
        let s2 := { rc.1 with ifStack := rc.1.reachable :: rc.1.ifStack }
        let rt := dceE s2 t
        match f with
        | .none =>
            let rv := visitIf rt.1 rc.2.1 rt.2.1 .none ty
            (rv.1, rv.2.1, rc.2.2 ++ rt.2.2 ++ rv.2.2)
        | .some fe =>
            let s4 := { rt.1 with
              reachable := rt.1.ifStack.headD false,
              ifStack := rt.1.reachable :: rt.1.ifStack.tail }
            let rf := dceE s4 fe
            let rv := visitIf rf.1 rc.2.1 rt.2.1 (.some rf.2.1) ty
            (rv.1, rv.2.1, rc.2.2 ++ rt.2.2 ++ rf.2.2 ++ rv.2.2)
    | .loop name body ty =>
        let rb := dceE s body
        let rv := visitLoop rb.1 name rb.2.1 ty
        (rv.1, rv.2.1, rb.2.2 ++ rv.2.2)
    | .br name value condition ty =>
        let rv := dceO s value
        let rc := dceO rv.1 condition
        let rr := visitBreak rc.1 name rv.2.1 rc.2.1 ty
        (rr.1, rr.2.1, rv.2.2 ++ rc.2.2 ++ rr.2.2)
    | .switch_ targets default_ value condition ty =>
        let rv := dceO s value
        let rc := dceE rv.1 condition
        let rr := visitSwitch rc.1 targets default_ rv.2.1 rc.2.1 ty
        (rr.1, rr.2.1, rv.2.2 ++ rc.2.2 ++ rr.2.2)
    | .call target operands ty =>
        let ro := dceL s operands
        let rv := visitCallLike ro.1 (.call target ro.2.1 ty) ro.2.1 ty
        (rv.1, rv.2.1, ro.2.2 ++ rv.2.2)
    | .callImport target operands ty =>
        let ro := dceL s operands
        let rv := visitCallLike ro.1 (.callImport target ro.2.1 ty) ro.2.1 ty
        (rv.1, rv.2.1, ro.2.2 ++ rv.2.2)
    | .callIndirect operands target ty =>
        let ro := dceL s operands
        let rt := dceE ro.1 target
        let rv := visitCallIndirect rt.1 ro.2.1 rt.2.1 ty
        (rv.1, rv.2.1, ro.2.2 ++ rt.2.2 ++ rv.2.2)
    | .getLocal index ty => (s, .getLocal index ty, [])
    | .setLocal index value ty =>
        let r1 := dceE s value
        let rv := visitSetLocal r1.1 index r1.2.1 ty
        (rv.1, rv.2.1, r1.2.2 ++ rv.2.2)
    | .getGlobal n ty => (s, .getGlobal n ty, [])
    | .setGlobal n value ty =>
        let r1 := dceE s value
        (r1.1, .setGlobal n r1.2.1 ty, r1.2.2)
    | .load ptr ty =>
        let r1 := dceE s ptr
        let rv := visitLoad r1.1 r1.2.1 ty
        (rv.1, rv.2.1, r1.2.2 ++ rv.2.2)
    | .store ptr value ty =>
        let r1 := dceE s ptr
        let r2 := dceE r1.1 value
        let rv := visitStore r2.1 r1.2.1 r2.2.1 ty
        (rv.1, rv.2.1, r1.2.2 ++ r2.2.2 ++ rv.2.2)
    | .const ty => (s, .const ty, [])
    | .unary value ty =>
        let r1 := dceE s value
        let rv := visitUnary r1.1 r1.2.1 ty
        (rv.1, rv.2.1, r1.2.2 ++ rv.2.2)
    | .binary l r ty =>
        let r1 := dceE s l
        let r2 := dceE r1.1 r
        let rv := visitBinary r2.1 r1.2.1 r2.2.1 ty
        (rv.1, rv.2.1, r1.2.2 ++ r2.2.2 ++ rv.2.2)
    | .select t f c ty =>
        let r1 := dceE s t
        let r2 := dceE r1.1 f
        let r3 := dceE r2.1 c
        let rv := visitSelect r3.1 r1.2.1 r2.2.1 r3.2.1 ty
        (rv.1, rv.2.1, r1.2.2 ++ r2.2.2 ++ r3.2.2 ++ rv.2.2)
    | .drop value ty =>
        let r1 := dceE s value
        let rv := visitDrop r1.1 r1.2.1 ty
        (rv.1, rv.2.1, r1.2.2 ++ rv.2.2)
    | .ret value =>
        let r1 := dceO s value
        let rv := visitReturn r1.1 r1.2.1
        (rv.1, rv.2.1, r1.2.2 ++ rv.2.2)
    | .host operands ty =>
        let ro := dceL s operands
        let rv := visitCallLike ro.1 (.host ro.2.1 ty) ro.2.1 ty
        (rv.1, rv.2.1, ro.2.2 ++ rv.2.2)
    | .nop => (s, .nop, [])
    | .unreachable => ({ s with reachable := false }, .unreachable, [])
  else
    match e with
    | .unreachable => (s, .unreachable, [])
    | _ => (s, .unreachable, [.noteRecursiveRemoval e])
termination_by sizeOf e

/-- The walk over a child list, left to right, threading the state. -/
def dceL (s : St) (l : ExprList) : St × ExprList × List Event :=
  match l with
  | .nil => (s, .nil, [])
  | .cons hd tl =>
      let r1 := dceE s hd
      let r2 := dceL r1.1 tl
      (r2.1, .cons r1.2.1 r2.2.1, r1.2.2 ++ r2.2.2)
termination_by sizeOf l

/-- The walk over an optional child. -/
def dceO (s : St) (o : ExprOpt) : St × ExprOpt × List Event :=
  match o with
  | .none => (s, .none, [])
  | .some e =>
      let r := dceE s e
      (r.1, .some r.2.1, r.2.2)
termination_by sizeOf o

end

/-- `doWalkFunction`: the pass starts with `reachable = true` and empty
`reachableBreaks` / `ifStack`. -/
def initSt : St := { reachable := true, reachableBreaks := [], ifStack := [] }

/-- Running the pass on a function body (`doWalkFunction` after the type
updater's initial scan, which does not change the tree). -/
def runDCE (body : Expr) : Expr :=
  (dceE initSt body).2.1

/-!
## Module I/O (`src/wasm/wasm-io.cpp`)

Only the dispatch between the text and binary paths is relevant; file contents
are byte lists and filenames are character lists.
-/

/-- Which serialization path `ModuleReader::read` / `ModuleWriter::write`
dispatches to. -/
inductive Format where
  | text
  | binary
deriving DecidableEq, Repr

/-- `getSuffix`: the substring after the last `'.'`, or `""` when the filename
contains no dot. -/
def getSuffix (filename : List Char) : List Char :=
  if filename.contains '.' then
    (filename.reverse.takeWhile (fun c => c != '.')).reverse
  else []

/-- The magic-number predicate of `ModuleReader::read`, transcribed exactly:
`contents.size() >= 4 && contents[0] == '\0' && contents[0] == 'a' &&
contents[0] == 's' && contents[0] == 'm'`. -/
def isBinaryMagic (contents : List Char) : Bool :=
  decide (contents.length ≥ 4)
    && (contents.headD ' ' == Char.ofNat 0)
    && (contents.headD ' ' == 'a')
    && (contents.headD ' ' == 's')
    && (contents.headD ' ' == 'm')

/-- `ModuleReader::read`: dispatch on the suffix, then on the magic number. -/
def ModuleReader.read (filename contents : List Char) : Format :=
  let suffix := getSuffix filename
  if suffix = "wast".toList then Format.text
  else if suffix = "wasm".toList then Format.binary
  else if isBinaryMagic contents then Format.binary
  else Format.text

/-- `ModuleWriter::write`: binary only for the exact suffix `"wasm"`. -/
def ModuleWriter.write (filename : List Char) : Format :=
  if getSuffix filename = "wasm".toList then Format.binary
  else Format.text

/-!
## Free break targets

`freeB e` collects the labels targeted by some `Break` or `Switch` in `e`
that are not bound by an enclosing `Block` or `Loop` within `e`.  A
well-formed function body (every branch targets an enclosing label) has
`freeB body = []`.
-/

mutual

/-- Break/switch targets of `e` not bound within `e`. -/
def freeB : Expr → List Name
  | .block name list _ =>
      (match name with
       | Option.some n => (freeBL list).filter (fun m => m != n)
       | Option.none => freeBL list)
  | .if_ c t f _ => freeB c ++ freeB t ++ freeBO f
  | .loop name body _ =>
      (match name with
       | Option.some n => (freeB body).filter (fun m => m != n)
       | Option.none => freeB body)
  | .br name value condition _ => name :: (freeBO value ++ freeBO condition)
  | .switch_ targets default_ value condition _ =>
      targets ++ default_ :: (freeBO value ++ freeB condition)
  | .call _ operands _ => freeBL operands
  | .callImport _ operands _ => freeBL operands
  | .callIndirect operands target _ => freeBL operands ++ freeB target
  | .getLocal _ _ => []
  | .setLocal _ value _ => freeB value
  | .getGlobal _ _ => []
  | .setGlobal _ value _ => freeB value
  | .load ptr _ => freeB ptr
  | .store ptr value _ => freeB ptr ++ freeB value
  | .const _ => []
  | .unary value _ => freeB value
  | .binary l r _ => freeB l ++ freeB r
  | .select t f c _ => freeB t ++ freeB f ++ freeB c
  | .drop value _ => freeB value
  | .ret value => freeBO value
  | .host operands _ => freeBL operands
  | .nop => []
  | .unreachable => []

/-- `freeB` over an expression list. -/
def freeBL : ExprList → List Name
  | .nil => []
  | .cons hd tl => freeB hd ++ freeBL tl

/-- `freeB` over an optional expression. -/
def freeBO : ExprOpt → List Name
  | .none => []
  | .some e => freeB e

end


/-!
## Well-formed input bodies

`wfE e env` models the Wasm validity assumptions the pass makes of its input
(spec §3 invariant 1 and §7: "It assumes the input passes Wasm validation";
the validator itself is not among the given sources, so validity is modelled
from the spec): every branch targets an enclosing label (`env` lists the
labels in scope), binders do not shadow a label they are nested in, and a
node's declared type is `unreachable` only in the positions Wasm validation
allows (a child in a hoisting position is unreachable, an unreachable block
ends in an unreachable element and is not a break target, an unreachable `If`
has an unreachable condition or two unreachable arms, …).
-/

/-- The label list extended by an optional binder. -/
def envPush : Option Name → List Name → List Name
  | Option.some n, env => n :: env
  | Option.none, env => env

/-- Does some element of the list have type `unreachable`? -/
def hasUnrElem : ExprList → Bool
  | .nil => false
  | .cons hd tl => (typeOf hd == Typ.unreachable) || hasUnrElem tl

/-- The list whose elements have all been converted in place to
`Unreachable` (what a walk in unreachable state leaves behind). -/
def killAll : ExprList → ExprList
  | .nil => .nil
  | .cons _ tl => .cons Expr.unreachable (killAll tl)

/-- No element of the list other than possibly the last has type
`unreachable` (what `shorten` guarantees of its output). -/
def noEarlyUnr : ExprList → Bool
  | .nil => true
  | .cons _ .nil => true
  | .cons hd tl => (typeOf hd != Typ.unreachable) && noEarlyUnr tl

mutual

/-- Labels bound by a `Block` or `Loop` anywhere inside the expression. -/
def boundBE : Expr → List Name
  | .block name l _ => envPush name [] ++ boundBL l
  | .if_ c t f _ => boundBE c ++ boundBE t ++ boundBO f
  | .loop name b _ => envPush name [] ++ boundBE b
  | .br _ v c _ => boundBO v ++ boundBO c
  | .switch_ _ _ v c _ => boundBO v ++ boundBE c
  | .call _ ops _ => boundBL ops
  | .callImport _ ops _ => boundBL ops
  | .callIndirect ops t _ => boundBL ops ++ boundBE t
  | .getLocal _ _ => []
  | .setLocal _ v _ => boundBE v
  | .getGlobal _ _ => []
  | .setGlobal _ v _ => boundBE v
  | .load p _ => boundBE p
  | .store p v _ => boundBE p ++ boundBE v
  | .const _ => []
  | .unary v _ => boundBE v
  | .binary l r _ => boundBE l ++ boundBE r
  | .select t f c _ => boundBE t ++ boundBE f ++ boundBE c
  | .drop v _ => boundBE v
  | .ret v => boundBO v
  | .host ops _ => boundBL ops
  | .nop => []
  | .unreachable => []

/-- `boundBE` over a list. -/
def boundBL : ExprList → List Name
  | .nil => []
  | .cons hd tl => boundBE hd ++ boundBL tl

/-- `boundBE` over an optional expression. -/
def boundBO : ExprOpt → List Name
  | .none => []
  | .some e => boundBE e

end

mutual

/-- Modelled from the spec: validity of an input body (§3, §7).  Combines
scoping (every branch targets a label in `env`), no shadowing of a binder by
an inner binder of the same name, and the typing discipline for declared
`unreachable` types. -/
def wfE : Expr → List Name → Bool
  | .block name l ty, env =>
      wfL l (envPush name env)
      && (match name with
          | Option.some n => !(boundBL l).contains n
          | Option.none => true)
      && (!(ty == Typ.unreachable)
          || (hasUnrElem l
              && (match name with
                  | Option.some n => !hasBreakToL l n
                  | Option.none => true)))
  | .if_ c t f ty, env =>
      wfE c env && wfE t env && wfO f env
      && (!(ty == Typ.unreachable)
          || (typeOf c == Typ.unreachable
              || ((typeOf t == Typ.unreachable)
                  && (match f with
                      | .some fe => typeOf fe == Typ.unreachable
                      | .none => false))))
  | .loop name b ty, env =>
      wfE b (envPush name env)
      && (match name with
          | Option.some n => !(boundBE b).contains n
          | Option.none => true)
      && (!(ty == Typ.unreachable) || (typeOf b == Typ.unreachable))
  | .br n v c ty, env =>
      env.contains n && wfO v env && wfO c env
      && (match c with
          | .some _ => !(ty == Typ.unreachable) || (isDead v || isDead c)
          | .none => true)
  | .switch_ ts d v c _, env =>
      ts.all env.contains && env.contains d && wfO v env && wfE c env
  | .call _ ops ty, env =>
      wfL ops env && (!(ty == Typ.unreachable) || hasUnrElem ops)
  | .callImport _ ops ty, env =>
      wfL ops env && (!(ty == Typ.unreachable) || hasUnrElem ops)
  | .callIndirect ops t ty, env =>
      wfL ops env && wfE t env
      && (!(ty == Typ.unreachable)
          || (hasUnrElem ops || typeOf t == Typ.unreachable))
  | .getLocal _ ty, _ => !(ty == Typ.unreachable)
  | .setLocal _ v ty, env =>
      wfE v env && (!(ty == Typ.unreachable) || typeOf v == Typ.unreachable)
  | .getGlobal _ ty, _ => !(ty == Typ.unreachable)
  | .setGlobal _ v ty, env =>
      wfE v env && (!(ty == Typ.unreachable) || typeOf v == Typ.unreachable)
  | .load p ty, env =>
      wfE p env && (!(ty == Typ.unreachable) || typeOf p == Typ.unreachable)
  | .store p v ty, env =>
      wfE p env && wfE v env
      && (!(ty == Typ.unreachable)
          || (typeOf p == Typ.unreachable || typeOf v == Typ.unreachable))
  | .const ty, _ => !(ty == Typ.unreachable)
  | .unary v ty, env =>
      wfE v env && (!(ty == Typ.unreachable) || typeOf v == Typ.unreachable)
  | .binary l r ty, env =>
      wfE l env && wfE r env
      && (!(ty == Typ.unreachable)
          || (typeOf l == Typ.unreachable || typeOf r == Typ.unreachable))
  | .select t f c ty, env =>
      wfE t env && wfE f env && wfE c env
      && (!(ty == Typ.unreachable)
          || (typeOf t == Typ.unreachable || typeOf f == Typ.unreachable
              || typeOf c == Typ.unreachable))
  | .drop v ty, env =>
      wfE v env && (!(ty == Typ.unreachable) || typeOf v == Typ.unreachable)
  | .ret v, env => wfO v env
  | .host ops ty, env =>
      wfL ops env && (!(ty == Typ.unreachable) || hasUnrElem ops)
  | .nop, _ => true
  | .unreachable, _ => true

/-- `wfE` over a list. -/
def wfL : ExprList → List Name → Bool
  | .nil, _ => true
  | .cons hd tl, env => wfE hd env && wfL tl env

/-- `wfE` over an optional expression. -/
def wfO : ExprOpt → List Name → Bool
  | .none, _ => true
  | .some e, env => wfE e env

end

mutual

/-- Every `CallIndirect` anywhere in the expression has at least one operand
(the shape on which the pass keeps its rewrites stable). -/
def ciOKE : Expr → Bool
  | .block _ l _ => ciOKL l
  | .if_ c t f _ => ciOKE c && ciOKE t && ciOKO f
  | .loop _ b _ => ciOKE b
  | .br _ v c _ => ciOKO v && ciOKO c
  | .switch_ _ _ v c _ => ciOKO v && ciOKE c
  | .call _ ops _ => ciOKL ops
  | .callImport _ ops _ => ciOKL ops
  | .callIndirect ops t _ => decide (0 < elength ops) && ciOKL ops && ciOKE t
  | .getLocal _ _ => true
  | .setLocal _ v _ => ciOKE v
  | .getGlobal _ _ => true
  | .setGlobal _ v _ => ciOKE v
  | .load p _ => ciOKE p
  | .store p v _ => ciOKE p && ciOKE v
  | .const _ => true
  | .unary v _ => ciOKE v
  | .binary l r _ => ciOKE l && ciOKE r
  | .select t f c _ => ciOKE t && ciOKE f && ciOKE c
  | .drop v _ => ciOKE v
  | .ret v => ciOKO v
  | .host ops _ => ciOKL ops
  | .nop => true
  | .unreachable => true

/-- `ciOKE` over a list. -/
def ciOKL : ExprList → Bool
  | .nil => true
  | .cons hd tl => ciOKE hd && ciOKL tl

/-- `ciOKE` over an optional expression. -/
def ciOKO : ExprOpt → Bool
  | .none => true
  | .some e => ciOKE e

end

/-!
## Basic lemmas about the state helpers and visitors
-/

theorem contains_true_iff_mem (l : List Name) (n : Name) : l.contains n = true ↔ n ∈ l :=
  ⟨List.mem_of_elem_eq_true, List.elem_eq_true_of_mem⟩

theorem mem_rbInsert (x n : Name) (l : List Name) :
    x ∈ rbInsert n l ↔ x = n ∨ x ∈ l := by
  unfold rbInsert
  split
  · rename_i h
    constructor
    · exact fun hx => Or.inr hx
    · rintro (rfl | hx)
      · exact (contains_true_iff_mem l x).mp h
      · exact hx
  · simp [List.mem_cons]

theorem mem_rbErase (x n : Name) (l : List Name) :
    x ∈ rbErase l n ↔ x ∈ l ∧ x ≠ n := by
  unfold rbErase
  simp [List.mem_filter]

theorem addBreak_ifStack (s : St) (n : Name) : (addBreak s n).ifStack = s.ifStack := by
  unfold addBreak
  split <;> rfl

theorem addBreak_reachable (s : St) (n : Name) : (addBreak s n).reachable = s.reachable := by
  unfold addBreak
  split <;> rfl

theorem mem_addBreak (s : St) (n x : Name)
    (hx : x ∈ (addBreak s n).reachableBreaks) : x = n ∨ x ∈ s.reachableBreaks := by
  unfold addBreak at hx
  split at hx
  · exact (mem_rbInsert x n _).mp hx
  · exact Or.inr hx

theorem foldl_addBreak_ifStack (targets : List Name) (s : St) :
    (targets.foldl addBreak s).ifStack = s.ifStack := by
  induction targets generalizing s with
  | nil => rfl
  | cons hd tl ih => rw [List.foldl_cons, ih, addBreak_ifStack]

theorem mem_foldl_addBreak (targets : List Name) (s : St) (x : Name)
    (hx : x ∈ (targets.foldl addBreak s).reachableBreaks) :
    x ∈ targets ∨ x ∈ s.reachableBreaks := by
  induction targets generalizing s with
  | nil => exact Or.inr hx
  | cons hd tl ih =>
    rw [List.foldl_cons] at hx
    rcases ih (addBreak s hd) hx with h | h
    · exact Or.inl (List.mem_cons_of_mem _ h)
    · rcases mem_addBreak s hd x h with rfl | h2
      · exact Or.inl (List.mem_cons_self _ _)
      · exact Or.inr h2

theorem visitCallLike_state (s : St) (curr : Expr) (ops : ExprList) (ty : Typ) :
    (visitCallLike s curr ops ty).1 = s := by
  unfold visitCallLike
  cases handleCall ops ty <;> rfl

theorem visitCallIndirect_state (s : St) (ops : ExprList) (t : Expr) (ty : Typ) :
    (visitCallIndirect s ops t ty).1 = s := by
  unfold visitCallIndirect
  cases handleCall ops ty
  · dsimp only
    split <;> rfl
  · rfl

theorem visitSetLocal_state (s : St) (i : Nat) (v : Expr) (ty : Typ) :
    (visitSetLocal s i v ty).1 = s := by
  unfold visitSetLocal
  split <;> rfl

theorem visitLoad_state (s : St) (p : Expr) (ty : Typ) :
    (visitLoad s p ty).1 = s := by
  unfold visitLoad
  split <;> rfl

theorem visitStore_state (s : St) (p v : Expr) (ty : Typ) :
    (visitStore s p v ty).1 = s := by
  unfold visitStore
  (repeat' split) <;> rfl

theorem visitUnary_state (s : St) (v : Expr) (ty : Typ) :
    (visitUnary s v ty).1 = s := by
  unfold visitUnary
  split <;> rfl

theorem visitBinary_state (s : St) (l r : Expr) (ty : Typ) :
    (visitBinary s l r ty).1 = s := by
  unfold visitBinary
  (repeat' split) <;> rfl

theorem visitSelect_state (s : St) (t f c : Expr) (ty : Typ) :
    (visitSelect s t f c ty).1 = s := by
  unfold visitSelect
  (repeat' split) <;> rfl

theorem visitDrop_state (s : St) (v : Expr) (ty : Typ) :
    (visitDrop s v ty).1 = s := by
  unfold visitDrop
  split <;> rfl

theorem visitReturn_ifStack (s : St) (v : ExprOpt) :
    (visitReturn s v).1.ifStack = s.ifStack := by
  unfold visitReturn
  split <;> rfl

theorem visitReturn_rb (s : St) (v : ExprOpt) :
    (visitReturn s v).1.reachableBreaks = s.reachableBreaks := by
  unfold visitReturn
  split <;> rfl

theorem visitBreak_ifStack (s : St) (nm : Name) (v c : ExprOpt) (ty : Typ) :
    (visitBreak s nm v c ty).1.ifStack = s.ifStack := by
  unfold visitBreak
  (repeat' split) <;> simp [addBreak_ifStack]

theorem visitBreak_rb (s : St) (nm : Name) (v c : ExprOpt) (ty : Typ) (x : Name)
    (hx : x ∈ (visitBreak s nm v c ty).1.reachableBreaks) :
    x = nm ∨ x ∈ s.reachableBreaks := by
  unfold visitBreak at hx
  split at hx
  · exact Or.inr hx
  · split at hx
    · split at hx <;> exact Or.inr hx
    · dsimp only at hx
      split at hx <;> exact mem_addBreak s nm x hx

theorem visitSwitch_ifStack (s : St) (ts : List Name) (d : Name) (v : ExprOpt)
    (c : Expr) (ty : Typ) : (visitSwitch s ts d v c ty).1.ifStack = s.ifStack := by
  unfold visitSwitch
  (repeat' split) <;> simp [addBreak_ifStack, foldl_addBreak_ifStack]

theorem visitSwitch_rb (s : St) (ts : List Name) (d : Name) (v : ExprOpt)
    (c : Expr) (ty : Typ) (x : Name)
    (hx : x ∈ (visitSwitch s ts d v c ty).1.reachableBreaks) :
    x ∈ ts ∨ x = d ∨ x ∈ s.reachableBreaks := by
  unfold visitSwitch at hx
  split at hx
  · exact Or.inr (Or.inr hx)
  · split at hx
    · split at hx <;> exact Or.inr (Or.inr hx)
    · dsimp only at hx
      rcases mem_addBreak _ d x hx with rfl | h2
      · exact Or.inr (Or.inl rfl)
      · rcases mem_foldl_addBreak ts s x h2 with h3 | h3
        · exact Or.inl h3
        · exact Or.inr (Or.inr h3)

theorem visitBlock_state (s : St) (name : Option Name) (l : ExprList) (ty : Typ) :
    (visitBlock s name l ty).1 =
      (match name with
       | Option.some n =>
           { s with reachable := s.reachable || s.reachableBreaks.contains n,
                    reachableBreaks := rbErase s.reachableBreaks n }
       | Option.none => s) := by
  unfold visitBlock
  cases name <;> dsimp only <;> (repeat' split) <;> rfl

theorem visitLoop_state (s : St) (name : Option Name) (b : Expr) (ty : Typ) :
    (visitLoop s name b ty).1 =
      (match name with
       | Option.some n => { s with reachableBreaks := rbErase s.reachableBreaks n }
       | Option.none => s) := by
  unfold visitLoop
  cases name <;> dsimp only <;> (repeat' split) <;> rfl

theorem visitIf_state (s : St) (c t : Expr) (f : ExprOpt) (ty : Typ) :
    (visitIf s c t f ty).1 =
      { s with reachable := s.reachable || s.ifStack.headD false,
               ifStack := s.ifStack.tail } := by
  unfold visitIf
  split <;> rfl

theorem visitBreak_live (s : St) (nm : Name) (v c : ExprOpt) (ty : Typ)
    (dv : isDead v = false) (dc : isDead c = false) :
    visitBreak s nm v c ty =
      ((match c with
        | ExprOpt.none => { addBreak s nm with reachable := false }
        | ExprOpt.some _ => addBreak s nm), Expr.br nm v c ty, []) := by
  unfold visitBreak
  simp only [dv, dc, Bool.false_eq_true, if_false]
  cases c <;> rfl

theorem visitSwitch_live (s : St) (ts : List Name) (d : Name) (v : ExprOpt)
    (c : Expr) (ty : Typ) (dv : isDead v = false) (dc : isUnreachable c = false) :
    visitSwitch s ts d v c ty =
      ({ addBreak (ts.foldl addBreak s) d with reachable := false },
       Expr.switch_ ts d v c ty, []) := by
  unfold visitSwitch
  simp only [dv, dc, Bool.false_eq_true, if_false]

theorem isBinaryMagic_false (contents : List Char) : isBinaryMagic contents = false := by
  unfold isBinaryMagic
  cases hz : (contents.headD ' ' == Char.ofNat 0)
  · simp [hz]
  · simp [hz]
    intro _ hA hS
    rw [hA] at hS
    exact absurd hS (by decide)

/-- **C9.** For every filename whose suffix is neither `"wast"` nor `"wasm"`,
the magic-number predicate of `ModuleReader::read` — which compares
`contents[0]` against `'\0'`, `'a'`, `'s'`, `'m'` simultaneously — is false for
every possible file contents, so the reader always dispatches to `readText`. -/
theorem reader_unknown_suffix_reads_text (filename contents : List Char)
    (h1 : getSuffix filename ≠ "wast".toList)
    (h2 : getSuffix filename ≠ "wasm".toList) :
    isBinaryMagic contents = false ∧
    ModuleReader.read filename contents = Format.text := by
  refine ⟨isBinaryMagic_false contents, ?_⟩
  unfold ModuleReader.read
  simp at h1 h2
  simp [h1, h2, isBinaryMagic_false]

theorem reader_unknown_suffix_reads_text_witness :
    getSuffix ['m', 'o', 'd', '.', 't', 'x', 't'] ≠ "wast".toList ∧
    getSuffix ['m', 'o', 'd', '.', 't', 'x', 't'] ≠ "wasm".toList ∧
    (isBinaryMagic [Char.ofNat 0, 'a', 's', 'm'] = false ∧
     ModuleReader.read ['m', 'o', 'd', '.', 't', 'x', 't']
       [Char.ofNat 0, 'a', 's', 'm'] = Format.text) :=
  ⟨by decide, by decide,
   reader_unknown_suffix_reads_text _ _ (by decide) (by decide)⟩

/-- **C10.** `ModuleWriter::write` emits the binary format exactly when the
suffix is `"wasm"`, and the text format for every other filename (suffix
`"wast"`, unknown suffixes, and names with no dot included). -/
theorem writer_binary_iff_wasm_suffix (filename : List Char) :
    (ModuleWriter.write filename = Format.binary ↔
      getSuffix filename = "wasm".toList) ∧
    (ModuleWriter.write filename = Format.text ↔
      getSuffix filename ≠ "wasm".toList) := by
  unfold ModuleWriter.write
  by_cases h : getSuffix filename = "wasm".toList <;> simp [h]

/-- **C3.** A node reached while `reachable` is false is converted in place to
`Unreachable` with a `noteRecursiveRemoval` notification to the type updater;
the state is unchanged and no child is descended into or visited (no other
state change or event occurs); an `Unreachable` node is left untouched. -/
theorem unreachable_state_kills_node (s : St) (e : Expr) (h : s.reachable = false) :
    (e ≠ Expr.unreachable →
      dceE s e = (s, Expr.unreachable, [Event.noteRecursiveRemoval e])) ∧
    dceE s Expr.unreachable = (s, Expr.unreachable, []) := by
  constructor
  · intro hne
    cases e <;> first
      | exact absurd rfl hne
      | simp [dceE, h]
  · simp [dceE, h]

theorem unreachable_state_kills_node_witness :
    (⟨false, [], []⟩ : St).reachable = false ∧
    Expr.nop ≠ Expr.unreachable ∧
    dceE ⟨false, [], []⟩ Expr.nop =
      (⟨false, [], []⟩, Expr.unreachable, [Event.noteRecursiveRemoval Expr.nop]) :=
  ⟨rfl, fun h => Expr.noConfusion h,
   (unreachable_state_kills_node ⟨false, [], []⟩ Expr.nop rfl).1
     (fun h => Expr.noConfusion h)⟩

theorem loop_ne_body (name : Option Name) (body : Expr) (ty : Typ) :
    Expr.loop name body ty ≠ body := by
  intro h
  have h2 : sizeOf (Expr.loop name body ty) = sizeOf body := congrArg sizeOf h
  simp at h2
  omega

/-- **C5.** `visitLoop` erases the loop's label from `reachableBreaks`, and
replaces the loop by its (already processed) body exactly when the body's type
is `unreachable` and no break inside the body targets the loop's label; when a
break to the label remains, the loop is retained even for an unreachable
body. -/
theorem loop_label_erased_and_replaced_iff (s : St) (name : Option Name)
    (body : Expr) (ty : Typ) :
    (∀ n, name = Option.some n →
      (visitLoop s name body ty).1.reachableBreaks = rbErase s.reachableBreaks n) ∧
    (name = Option.none → (visitLoop s name body ty).1 = s) ∧
    ((visitLoop s name body ty).2.1 = body ↔
      (typeOf body = Typ.unreachable ∧ hasBreakToOpt body name = false)) := by
  refine ⟨?_, ?_, ?_⟩
  · intro n hn
    subst hn
    rw [visitLoop_state]
  · intro hn
    subst hn
    rw [visitLoop_state]
  · unfold visitLoop
    by_cases h1 : typeOf body = Typ.unreachable
    · by_cases h2 : hasBreakToOpt body name = false
      · simp [isUnreachable, h1, h2]
      · rw [Bool.not_eq_false] at h2
        simp [isUnreachable, h1, h2, loop_ne_body]
    · simp [isUnreachable, h1, loop_ne_body]

theorem loop_label_erased_and_replaced_iff_witness :
    ((Option.some "L" : Option Name) = Option.some "L") ∧
    (visitLoop ⟨true, ["L", "x"], []⟩ (Option.some "L") Expr.unreachable Typ.i32).1.reachableBreaks
      = rbErase ["L", "x"] "L" ∧
    ((visitLoop ⟨true, ["L", "x"], []⟩ (Option.some "L") Expr.unreachable Typ.i32).2.1
      = Expr.unreachable ↔
      (typeOf Expr.unreachable = Typ.unreachable ∧
       hasBreakToOpt Expr.unreachable (Option.some "L") = false)) :=
  ⟨rfl,
   (loop_label_erased_and_replaced_iff ⟨true, ["L", "x"], []⟩ (Option.some "L")
     Expr.unreachable Typ.i32).1 "L" rfl,
   (loop_label_erased_and_replaced_iff ⟨true, ["L", "x"], []⟩ (Option.some "L")
     Expr.unreachable Typ.i32).2.2⟩

theorem firstUnreachableIdx_at : ∀ (ops : ExprList) (k : Nat),
    k < elength ops →
    typeOf (egetD ops k Expr.nop) = Typ.unreachable →
    (∀ j, j < k → typeOf (egetD ops j Expr.nop) ≠ Typ.unreachable) →
    firstUnreachableIdx ops = Option.some k
  | .nil, k, hk, _, _ => by simp [elength] at hk
  | .cons hd tl, 0, hk, hdead, _ => by
      simp only [egetD] at hdead
      simp [firstUnreachableIdx, hdead]
  | .cons hd tl, k + 1, hk, hdead, hfirst => by
      have hhd : typeOf hd ≠ Typ.unreachable := by
        have h0 := hfirst 0 (Nat.succ_pos k)
        simpa only [egetD] using h0
      have hk2 : k < elength tl := by
        simp only [elength] at hk
        omega
      have ih := firstUnreachableIdx_at tl k hk2
        (by simpa only [egetD] using hdead)
        (fun j hj => by
          have hj2 := hfirst (j + 1) (Nat.succ_lt_succ hj)
          simpa only [egetD] using hj2)
      simp [firstUnreachableIdx, hhd, ih]

theorem firstUnreachableIdx_none : ∀ (ops : ExprList),
    (∀ j, j < elength ops → typeOf (egetD ops j Expr.nop) ≠ Typ.unreachable) →
    firstUnreachableIdx ops = Option.none
  | .nil, _ => rfl
  | .cons hd tl, h => by
      have hhd : typeOf hd ≠ Typ.unreachable := by
        have h0 := h 0 (by simp [elength])
        simpa only [egetD] using h0
      have ih := firstUnreachableIdx_none tl (fun j hj => by
        have hj2 := h (j + 1) (by simp only [elength]; omega)
        simpa only [egetD] using hj2)
      simp [firstUnreachableIdx, hhd, ih]

theorem emap_dropOf_take : ∀ (ops : ExprList) (k : Nat),
    k < elength ops →
    typeOf (egetD ops k Expr.nop) = Typ.unreachable →
    (∀ j, j < k → typeOf (egetD ops j Expr.nop) ≠ Typ.unreachable) →
    emap dropOf (etake (k + 1) ops) =
      eappend (emap makeDrop (etake k ops))
        (ExprList.cons (egetD ops k Expr.nop) ExprList.nil)
  | .nil, k, hk, _, _ => by simp [elength] at hk
  | .cons hd tl, 0, hk, hdead, _ => by
      simp only [egetD] at hdead
      simp [etake, emap, eappend, egetD, dropOf, hdead]
  | .cons hd tl, k + 1, hk, hdead, hfirst => by
      have hhd : typeOf hd ≠ Typ.unreachable := by
        have h0 := hfirst 0 (Nat.succ_pos k)
        simpa only [egetD] using h0
      have hk2 : k < elength tl := by
        simp only [elength] at hk
        omega
      have ih := emap_dropOf_take tl k hk2
        (by simpa only [egetD] using hdead)
        (fun j hj => by
          have hj2 := hfirst (j + 1) (Nat.succ_lt_succ hj)
          simpa only [egetD] using hj2)
      simp [etake, emap, eappend, egetD, dropOf, hhd, ih]

theorem handleCall_at (ops : ExprList) (ty : Typ) (k : Nat)
    (hk : k < elength ops)
    (hdead : typeOf (egetD ops k Expr.nop) = Typ.unreachable)
    (hfirst : ∀ j, j < k → typeOf (egetD ops j Expr.nop) ≠ Typ.unreachable) :
    handleCall ops ty =
      Option.some (if k = 0 then egetD ops 0 Expr.nop
        else Expr.block Option.none
          (eappend (emap makeDrop (etake k ops))
            (ExprList.cons (egetD ops k Expr.nop) ExprList.nil)) ty) := by
  unfold handleCall
  rw [firstUnreachableIdx_at ops k hk hdead hfirst]
  cases k with
  | zero => simp
  | succ m =>
      simp only [Nat.succ_ne_zero, if_false]
      rw [emap_dropOf_take ops (m + 1) hk hdead hfirst]

theorem handleCall_none (ops : ExprList) (ty : Typ)
    (h : ∀ j, j < elength ops → typeOf (egetD ops j Expr.nop) ≠ Typ.unreachable) :
    handleCall ops ty = Option.none := by
  unfold handleCall
  rw [firstUnreachableIdx_none ops h]

/-- **C1.** For a `Call`, `CallImport` or `Host` node whose `k`-th operand is
the first operand of type `unreachable` (operands here are the node's children
as seen by the visitor, i.e. already processed): when `k = 0` the node is
replaced by that operand itself; when `k > 0` it is replaced by a `Block` of
exactly `k + 1` elements — operands `0..k-1` each wrapped in a `Drop` (none of
them can itself be unreachable, `k` being the first such index), followed by
the dead `k`-th operand unwrapped — the block being finalized to the original
node's result type.  A node with no unreachable operand is left unchanged. -/
theorem call_like_first_unreachable_rewrite :
    (∀ (s : St) (tgt : Name) (ops : ExprList) (ty : Typ) (k : Nat),
      k < elength ops →
      typeOf (egetD ops k Expr.nop) = Typ.unreachable →
      (∀ j, j < k → typeOf (egetD ops j Expr.nop) ≠ Typ.unreachable) →
      ((visitCallLike s (Expr.call tgt ops ty) ops ty).2.1 =
          (if k = 0 then egetD ops 0 Expr.nop
           else Expr.block Option.none
             (eappend (emap makeDrop (etake k ops))
               (ExprList.cons (egetD ops k Expr.nop) ExprList.nil)) ty) ∧
       (visitCallLike s (Expr.callImport tgt ops ty) ops ty).2.1 =
          (if k = 0 then egetD ops 0 Expr.nop
           else Expr.block Option.none
             (eappend (emap makeDrop (etake k ops))
               (ExprList.cons (egetD ops k Expr.nop) ExprList.nil)) ty) ∧
       (visitCallLike s (Expr.host ops ty) ops ty).2.1 =
          (if k = 0 then egetD ops 0 Expr.nop
           else Expr.block Option.none
             (eappend (emap makeDrop (etake k ops))
               (ExprList.cons (egetD ops k Expr.nop) ExprList.nil)) ty))) ∧
    (∀ (s : St) (tgt : Name) (ops : ExprList) (ty : Typ),
      (∀ j, j < elength ops → typeOf (egetD ops j Expr.nop) ≠ Typ.unreachable) →
      ((visitCallLike s (Expr.call tgt ops ty) ops ty).2.1 = Expr.call tgt ops ty ∧
       (visitCallLike s (Expr.callImport tgt ops ty) ops ty).2.1 = Expr.callImport tgt ops ty ∧
       (visitCallLike s (Expr.host ops ty) ops ty).2.1 = Expr.host ops ty)) := by
  constructor
  · intro s tgt ops ty k hk hdead hfirst
    have h := handleCall_at ops ty k hk hdead hfirst
    refine ⟨?_, ?_, ?_⟩ <;> simp [visitCallLike, h]
  · intro s tgt ops ty h
    have h2 := handleCall_none ops ty h
    refine ⟨?_, ?_, ?_⟩ <;> simp [visitCallLike, h2]

theorem call_like_first_unreachable_rewrite_witness :
    (1 < elength (ExprList.cons (Expr.const Typ.i32)
        (ExprList.cons Expr.unreachable ExprList.nil)) ∧
     typeOf (egetD (ExprList.cons (Expr.const Typ.i32)
        (ExprList.cons Expr.unreachable ExprList.nil)) 1 Expr.nop) = Typ.unreachable ∧
     (visitCallLike initSt
        (Expr.call "f" (ExprList.cons (Expr.const Typ.i32)
          (ExprList.cons Expr.unreachable ExprList.nil)) Typ.i32)
        (ExprList.cons (Expr.const Typ.i32)
          (ExprList.cons Expr.unreachable ExprList.nil)) Typ.i32).2.1 =
       Expr.block Option.none
         (ExprList.cons (Expr.drop (Expr.const Typ.i32) Typ.none)
           (ExprList.cons Expr.unreachable ExprList.nil)) Typ.i32) ∧
    (visitCallLike initSt
        (Expr.host (ExprList.cons Expr.nop ExprList.nil) Typ.none)
        (ExprList.cons Expr.nop ExprList.nil) Typ.none).2.1 =
      Expr.host (ExprList.cons Expr.nop ExprList.nil) Typ.none := by
  refine ⟨⟨by decide, by decide, ?_⟩, ?_⟩
  · have h := (call_like_first_unreachable_rewrite.1 initSt "f"
      (ExprList.cons (Expr.const Typ.i32) (ExprList.cons Expr.unreachable ExprList.nil))
      Typ.i32 1 (by decide) (by decide)
      (fun j hj => by
        have hj0 : j = 0 := by omega
        subst hj0
        decide)).1
    simpa [makeDrop, etake, emap, eappend, egetD, typeOf] using h
  · exact (call_like_first_unreachable_rewrite.2 initSt "f"
      (ExprList.cons Expr.nop ExprList.nil) Typ.none
      (fun j hj => by
        simp only [elength] at hj
        have hj0 : j = 0 := by omega
        subst hj0
        decide)).2.2

theorem etake_one : ∀ (l : ExprList), 0 < elength l →
    etake 1 l = ExprList.cons (egetD l 0 Expr.nop) ExprList.nil
  | .nil, h => by simp [elength] at h
  | .cons hd tl, _ => by simp [etake, egetD]

theorem etake_pos_shape : ∀ (l : ExprList) (n : Nat), 0 < n → 0 < elength l →
    ∃ a rest, etake n l = ExprList.cons a rest
  | .nil, n, _, hl => by simp [elength] at hl
  | .cons hd tl, n + 1, _, _ => ⟨hd, etake n tl, by simp [etake]⟩

theorem etake_two_shape : ∀ (l : ExprList) (i : Nat), 1 ≤ i → i < elength l →
    ∃ a b rest, etake (i + 1) l = ExprList.cons a (ExprList.cons b rest)
  | .nil, i, _, hl => by simp [elength] at hl
  | .cons hd tl, i, hi, hl => by
      have htl : 0 < elength tl := by
        simp only [elength] at hl
        omega
      obtain ⟨a, rest, ha⟩ := etake_pos_shape tl i hi htl
      exact ⟨hd, a, rest, by simp [etake, ha]⟩

theorem shorten_eq_etake : ∀ (l : ExprList) (i : Nat),
    i < elength l →
    typeOf (egetD l i Expr.nop) = Typ.unreachable →
    (∀ j, j < i → typeOf (egetD l j Expr.nop) ≠ Typ.unreachable) →
    shorten l = etake (i + 1) l
  | .nil, i, hi, _, _ => by simp [elength] at hi
  | .cons hd .nil, i, hi, _, _ => by
      have hi0 : i = 0 := by
        simp only [elength] at hi
        omega
      subst hi0
      simp [shorten, etake]
  | .cons hd (.cons a b), 0, _, hdead, _ => by
      simp only [egetD] at hdead
      simp [shorten, etake, hdead]
  | .cons hd (.cons a b), i + 1, hi, hdead, hfirst => by
      have hhd : typeOf hd ≠ Typ.unreachable := by
        have h0 := hfirst 0 (Nat.succ_pos i)
        simpa only [egetD] using h0
      have ih := shorten_eq_etake (.cons a b) i
        (by simp only [elength] at hi ⊢; omega)
        (by simpa only [egetD] using hdead)
        (fun j hj => by
          have hj2 := hfirst (j + 1) (Nat.succ_lt_succ hj)
          simpa only [egetD] using hj2)
      simp [shorten, etake, hhd]
      exact ih

/-- **C4.** When `visitBlock` runs with `reachable = false` and a list of more
than one element whose first `unreachable`-typed element sits at index `i`
(looking at all positions: an `unreachable` element at the last position
leaves the list unchanged, matching the `resize` loop that stops before the
last index), the kept list is `list[0..i]`; then a labeled block restores
`reachable |= (name ∈ reachableBreaks)` and erases its label; if the kept list
is a single `unreachable` element the block is replaced via the
simplify-to-contents helper, and otherwise the type updater is asked to
possibly retype the block to unreachable. -/
theorem block_visitor_dead_truncation (s : St) (name : Option Name)
    (list : ExprList) (ty : Typ) (i : Nat)
    (hre : s.reachable = false) (hlen : 1 < elength list)
    (hi : i < elength list)
    (hdead : typeOf (egetD list i Expr.nop) = Typ.unreachable)
    (hfirst : ∀ j, j < i → typeOf (egetD list j Expr.nop) ≠ Typ.unreachable) :
    (∀ n, name = Option.some n →
      (visitBlock s name list ty).1 =
        { s with reachable := s.reachable || s.reachableBreaks.contains n,
                 reachableBreaks := rbErase s.reachableBreaks n }) ∧
    (name = Option.none → (visitBlock s name list ty).1 = s) ∧
    (i = 0 →
      (visitBlock s name list ty).2 =
        (simplifyToContentsWithPossibleTypeChange (Expr.block name (etake 1 list) ty),
         [Event.noteReplacement (Expr.block name (etake 1 list) ty)
            (simplifyToContentsWithPossibleTypeChange (Expr.block name (etake 1 list) ty))])) ∧
    (0 < i →
      (visitBlock s name list ty).2 =
        (Expr.block name (etake (i + 1) list) ty,
         [Event.maybeUpdateTypeToUnreachable (Expr.block name (etake (i + 1) list) ty)])) := by
  have hsh : shorten list = etake (i + 1) list := shorten_eq_etake list i hi hdead hfirst
  refine ⟨?_, ?_, ?_, ?_⟩
  · intro n hn
    subst hn
    rw [visitBlock_state]
  · intro hn
    subst hn
    rw [visitBlock_state]
  · intro hi0
    subst hi0
    have h1 : etake 1 list = ExprList.cons (egetD list 0 Expr.nop) ExprList.nil :=
      etake_one list (by omega)
    have hu : isUnreachable (egetD list 0 Expr.nop) = true := by
      simp [isUnreachable, hdead]
    unfold visitBlock
    rw [if_pos ⟨hre, hlen⟩, hsh, h1]
    dsimp only
    rw [if_pos hu]
  · intro hip
    obtain ⟨a, b, rest, hshape⟩ := etake_two_shape list i hip hi
    unfold visitBlock
    rw [if_pos ⟨hre, hlen⟩, hsh, hshape]

theorem block_visitor_dead_truncation_witness :
    (⟨false, ["b"], []⟩ : St).reachable = false ∧
    1 < elength (ExprList.cons Expr.nop
      (ExprList.cons Expr.unreachable (ExprList.cons Expr.nop ExprList.nil))) ∧
    typeOf (egetD (ExprList.cons Expr.nop
      (ExprList.cons Expr.unreachable (ExprList.cons Expr.nop ExprList.nil)))
      1 Expr.nop) = Typ.unreachable ∧
    (visitBlock ⟨false, ["b"], []⟩ (Option.some "b")
        (ExprList.cons Expr.nop
          (ExprList.cons Expr.unreachable (ExprList.cons Expr.nop ExprList.nil)))
        Typ.none).2 =
      (Expr.block (Option.some "b")
         (etake 2 (ExprList.cons Expr.nop
           (ExprList.cons Expr.unreachable (ExprList.cons Expr.nop ExprList.nil))))
         Typ.none,
       [Event.maybeUpdateTypeToUnreachable
          (Expr.block (Option.some "b")
            (etake 2 (ExprList.cons Expr.nop
              (ExprList.cons Expr.unreachable (ExprList.cons Expr.nop ExprList.nil))))
            Typ.none)]) :=
  ⟨rfl, by decide, by decide,
   (block_visitor_dead_truncation ⟨false, ["b"], []⟩ (Option.some "b")
      (ExprList.cons Expr.nop
        (ExprList.cons Expr.unreachable (ExprList.cons Expr.nop ExprList.nil)))
      Typ.none 1 rfl (by decide) (by decide) (by decide)
      (fun j hj => by
        have hj0 : j = 0 := by omega
        subst hj0
        decide)).2.2.2 (by decide)⟩

mutual

theorem dceE_ifStack (s : St) (e : Expr) : (dceE s e).1.ifStack = s.ifStack := by
  by_cases hr : s.reachable = true
  · cases e with
    | block name list ty =>
        simp only [dceE, hr, if_true]
        rw [visitBlock_state]
        have hL := dceL_ifStack s list
        cases name <;> simpa using hL
    | if_ c t f ty =>
        cases f with
        | none =>
            simp only [dceE, hr, if_true]
            rw [visitIf_state]
            dsimp only
            rw [dceE_ifStack _ t]
            dsimp only
            rw [List.tail_cons, dceE_ifStack s c]
        | some fe =>
            simp only [dceE, hr, if_true]
            rw [visitIf_state]
            dsimp only
            rw [dceE_ifStack _ fe]
            dsimp only
            rw [List.tail_cons, dceE_ifStack _ t]
            dsimp only
            rw [List.tail_cons, dceE_ifStack s c]
    | loop name body ty =>
        simp only [dceE, hr, if_true]
        rw [visitLoop_state]
        have hB := dceE_ifStack s body
        cases name <;> simpa using hB
    | br name value condition ty =>
        simp only [dceE, hr, if_true]
        rw [visitBreak_ifStack, dceO_ifStack, dceO_ifStack]
    | switch_ ts d value condition ty =>
        simp only [dceE, hr, if_true]
        rw [visitSwitch_ifStack, dceE_ifStack, dceO_ifStack]
    | call tgt ops ty =>
        simp only [dceE, hr, if_true]
        rw [visitCallLike_state, dceL_ifStack]
    | callImport tgt ops ty =>
        simp only [dceE, hr, if_true]
        rw [visitCallLike_state, dceL_ifStack]
    | callIndirect ops tgt ty =>
        simp only [dceE, hr, if_true]
        rw [visitCallIndirect_state, dceE_ifStack, dceL_ifStack]
    | getLocal i ty => simp [dceE, hr]
    | setLocal i v ty =>
        simp only [dceE, hr, if_true]
        rw [visitSetLocal_state, dceE_ifStack]
    | getGlobal n ty => simp [dceE, hr]
    | setGlobal n v ty =>
        simp only [dceE, hr, if_true]
        rw [dceE_ifStack]
    | load p ty =>
        simp only [dceE, hr, if_true]
        rw [visitLoad_state, dceE_ifStack]
    | store p v ty =>
        simp only [dceE, hr, if_true]
        rw [visitStore_state, dceE_ifStack, dceE_ifStack]
    | const ty => simp [dceE, hr]
    | unary v ty =>
        simp only [dceE, hr, if_true]
        rw [visitUnary_state, dceE_ifStack]
    | binary l r ty =>
        simp only [dceE, hr, if_true]
        rw [visitBinary_state, dceE_ifStack, dceE_ifStack]
    | select t f c ty =>
        simp only [dceE, hr, if_true]
        rw [visitSelect_state, dceE_ifStack, dceE_ifStack, dceE_ifStack]
    | drop v ty =>
        simp only [dceE, hr, if_true]
        rw [visitDrop_state, dceE_ifStack]
    | ret v =>
        simp only [dceE, hr, if_true]
        rw [visitReturn_ifStack, dceO_ifStack]
    | host ops ty =>
        simp only [dceE, hr, if_true]
        rw [visitCallLike_state, dceL_ifStack]
    | nop => simp [dceE, hr]
    | unreachable => simp [dceE, hr]
  · have hr2 : s.reachable = false := by simpa using hr
    cases e <;> simp [dceE, hr2]
termination_by sizeOf e

theorem dceL_ifStack (s : St) (l : ExprList) : (dceL s l).1.ifStack = s.ifStack := by
  cases l with
  | nil => simp [dceL]
  | cons hd tl =>
      simp only [dceL]
      rw [dceL_ifStack, dceE_ifStack]
termination_by sizeOf l

theorem dceO_ifStack (s : St) (o : ExprOpt) : (dceO s o).1.ifStack = s.ifStack := by
  cases o with
  | none => simp [dceO]
  | some e =>
      simp only [dceO]
      rw [dceE_ifStack]
termination_by sizeOf o

end

/-- **C2, counterexample.** For `(if (unreachable) (nop))` — an `If` with no
else whose condition is an `Unreachable` node — processed from the initial
(reachable) state, the snapshot pushed onto `ifStack` is the post-condition
reachability `false`, not the reachability on entry to the `If` (`true`), so
the join `reachable := reachable_after_arm || top` yields `false`: contrary to
the claim, an `If` without an else can leave the code after it unreachable. -/
theorem if_without_else_kills_code_after_cex :
    initSt.reachable = true ∧
    (dceE initSt (Expr.if_ Expr.unreachable Expr.nop ExprOpt.none Typ.none)).1.reachable
      = false := by
  constructor
  · rfl
  · simp [dceE, visitIf, initSt, isUnreachable, typeOf]

/-- **C2 (amended).** `visitIf` sets `reachable` to the logical OR of the
reachability after the last-scanned arm and the top of `ifStack`, where the
top is the post-ifTrue reachability when an else arm exists and the
post-condition reachability (the snapshot pushed by `doAfterIfCondition`
after the condition was scanned) when there is no else; consequently an `If`
without an else leaves the code after it reachable whenever the code just
after its condition was reachable. -/
theorem if_join_reachability (s : St) (c t fe : Expr) (ty : Typ)
    (hre : s.reachable = true) :
    ((dceE s (Expr.if_ c t ExprOpt.none ty)).1.reachable =
      ((dceE ⟨(dceE s c).1.reachable, (dceE s c).1.reachableBreaks,
          (dceE s c).1.reachable :: (dceE s c).1.ifStack⟩ t).1.reachable
        || (dceE s c).1.reachable)) ∧
    ((dceE s c).1.reachable = true →
      (dceE s (Expr.if_ c t ExprOpt.none ty)).1.reachable = true) ∧
    ((dceE s (Expr.if_ c t (ExprOpt.some fe) ty)).1.reachable =
      ((dceE ⟨(dceE ⟨(dceE s c).1.reachable, (dceE s c).1.reachableBreaks,
            (dceE s c).1.reachable :: (dceE s c).1.ifStack⟩ t).1.ifStack.headD false,
          (dceE ⟨(dceE s c).1.reachable, (dceE s c).1.reachableBreaks,
            (dceE s c).1.reachable :: (dceE s c).1.ifStack⟩ t).1.reachableBreaks,
          (dceE ⟨(dceE s c).1.reachable, (dceE s c).1.reachableBreaks,
            (dceE s c).1.reachable :: (dceE s c).1.ifStack⟩ t).1.reachable ::
            (dceE ⟨(dceE s c).1.reachable, (dceE s c).1.reachableBreaks,
              (dceE s c).1.reachable :: (dceE s c).1.ifStack⟩ t).1.ifStack.tail⟩ fe).1.reachable
        || (dceE ⟨(dceE s c).1.reachable, (dceE s c).1.reachableBreaks,
            (dceE s c).1.reachable :: (dceE s c).1.ifStack⟩ t).1.reachable)) := by
  have hmain : (dceE s (Expr.if_ c t ExprOpt.none ty)).1.reachable =
      ((dceE ⟨(dceE s c).1.reachable, (dceE s c).1.reachableBreaks,
          (dceE s c).1.reachable :: (dceE s c).1.ifStack⟩ t).1.reachable
        || (dceE s c).1.reachable) := by
    simp only [dceE, hre, if_true]
    rw [visitIf_state]
    dsimp only
    rw [dceE_ifStack _ t]
    dsimp only
    rw [List.headD_cons]
  refine ⟨hmain, ?_, ?_⟩
  · intro hcr
    rw [hmain, hcr, Bool.or_true]
  · simp only [dceE, hre, if_true]
    rw [visitIf_state]
    dsimp only
    rw [dceE_ifStack _ fe]
    dsimp only
    rw [List.headD_cons]

theorem if_join_reachability_witness :
    initSt.reachable = true ∧
    (dceE initSt (Expr.if_ Expr.nop Expr.nop ExprOpt.none Typ.none)).1.reachable =
      ((dceE ⟨(dceE initSt Expr.nop).1.reachable, (dceE initSt Expr.nop).1.reachableBreaks,
          (dceE initSt Expr.nop).1.reachable :: (dceE initSt Expr.nop).1.ifStack⟩
          Expr.nop).1.reachable
        || (dceE initSt Expr.nop).1.reachable) :=
  ⟨rfl, (if_join_reachability initSt Expr.nop Expr.nop Expr.nop Typ.none rfl).1⟩

theorem mem_addBreak_of_mem (s : St) (n x : Name) (hx : x ∈ s.reachableBreaks) :
    x ∈ (addBreak s n).reachableBreaks := by
  unfold addBreak
  split
  · exact (mem_rbInsert x n _).mpr (Or.inr hx)
  · exact hx

theorem self_mem_addBreak (s : St) (n : Name) (hs : s.reachable = true) :
    n ∈ (addBreak s n).reachableBreaks := by
  unfold addBreak
  rw [if_pos hs]
  exact (mem_rbInsert n n _).mpr (Or.inl rfl)

theorem foldl_addBreak_reachable (ts : List Name) (s : St) :
    (ts.foldl addBreak s).reachable = s.reachable := by
  induction ts generalizing s with
  | nil => rfl
  | cons hd tl ih => rw [List.foldl_cons, ih, addBreak_reachable]

theorem mem_foldl_addBreak_pres (ts : List Name) (s : St) (x : Name)
    (hx : x ∈ s.reachableBreaks) : x ∈ (ts.foldl addBreak s).reachableBreaks := by
  induction ts generalizing s with
  | nil => exact hx
  | cons hd tl ih =>
    rw [List.foldl_cons]
    exact ih (addBreak s hd) (mem_addBreak_of_mem s hd x hx)

theorem mem_foldl_addBreak_of_mem (ts : List Name) (s : St) (hs : s.reachable = true)
    (x : Name) (hx : x ∈ ts) : x ∈ (ts.foldl addBreak s).reachableBreaks := by
  induction ts generalizing s with
  | nil => cases hx
  | cons hd tl ih =>
    rw [List.foldl_cons]
    rcases List.mem_cons.mp hx with rfl | h2
    · exact mem_foldl_addBreak_pres tl (addBreak s x) x (self_mem_addBreak s x hs)
    · exact ih (addBreak s hd) (by rw [addBreak_reachable]; exact hs) h2

/-- **C6, counterexample.** Take the outer break
`(br $out (loop $L (result i32) (br $L)))`: scanning the value records `"L"`,
clears `reachable` (the inner break is unconditional), and `visitLoop` erases
`"L"` but keeps the loop (a break targets it), so the loop's declared type
stays `i32`.  The outer break's visitor then runs with a non-dead value and no
condition, yet — `reachable` being `false` — `addBreak`'s guard skips the
recording: `"out"` is never recorded in `reachableBreaks`, refuting the
claim.  The unchanged result expression shows the visitor took the
record-target branch, not a dead-operand rewrite. -/
theorem break_target_not_recorded_cex :
    typeOf (Expr.loop (Option.some "L")
      (Expr.br "L" ExprOpt.none ExprOpt.none Typ.unreachable) Typ.i32) = Typ.i32 ∧
    (dceE initSt (Expr.br "out"
       (ExprOpt.some (Expr.loop (Option.some "L")
         (Expr.br "L" ExprOpt.none ExprOpt.none Typ.unreachable) Typ.i32))
       ExprOpt.none Typ.i32)).1.reachableBreaks = [] ∧
    (dceE initSt (Expr.br "out"
       (ExprOpt.some (Expr.loop (Option.some "L")
         (Expr.br "L" ExprOpt.none ExprOpt.none Typ.unreachable) Typ.i32))
       ExprOpt.none Typ.i32)).2.1 =
      Expr.br "out"
       (ExprOpt.some (Expr.loop (Option.some "L")
         (Expr.br "L" ExprOpt.none ExprOpt.none Typ.unreachable) Typ.i32))
       ExprOpt.none Typ.i32 := by
  refine ⟨rfl, ?_, ?_⟩ <;>
    simp [dceE, dceO, visitBreak, visitLoop, addBreak, rbInsert, rbErase, isDead,
      isUnreachable, typeOf, egetO, hasBreakToOpt, hasBreakTo, hasBreakToO, initSt]

/-- **C6 (amended).** When the visitor of a `Break` whose value and condition
are not dead runs while `reachable` is true, the break's target label is
recorded in `reachableBreaks` (and `reachable` is cleared exactly when the
break is unconditional); when the visitor of a `Switch` whose value and
condition are not dead runs while `reachable` is true, all targets and the
default label are recorded (and `reachable` is always cleared).  The
`reachable` proviso is `addBreak`'s guard: a visitor can run with `reachable`
false when a child's scan killed reachability while the child's type stayed
concrete, and then nothing is recorded. -/
theorem break_switch_record_targets_when_reachable :
    (∀ (s : St) (nm : Name) (v c : ExprOpt) (ty : Typ),
      s.reachable = true → isDead v = false → isDead c = false →
      (nm ∈ (visitBreak s nm v c ty).1.reachableBreaks ∧
       (c = ExprOpt.none → (visitBreak s nm v c ty).1.reachable = false) ∧
       (∀ ce, c = ExprOpt.some ce → (visitBreak s nm v c ty).1.reachable = true))) ∧
    (∀ (s : St) (ts : List Name) (d : Name) (v : ExprOpt) (cond : Expr) (ty : Typ),
      s.reachable = true → isDead v = false → isUnreachable cond = false →
      ((∀ x, x ∈ ts → x ∈ (visitSwitch s ts d v cond ty).1.reachableBreaks) ∧
       d ∈ (visitSwitch s ts d v cond ty).1.reachableBreaks ∧
       (visitSwitch s ts d v cond ty).1.reachable = false)) := by
  constructor
  · intro s nm v c ty hs dv dc
    rw [visitBreak_live s nm v c ty dv dc]
    refine ⟨?_, ?_, ?_⟩
    · cases c <;> exact self_mem_addBreak s nm hs
    · intro hc
      subst hc
      rfl
    · intro ce hc
      subst hc
      dsimp only
      rw [addBreak_reachable]
      exact hs
  · intro s ts d v cond ty hs dv dc
    rw [visitSwitch_live s ts d v cond ty dv dc]
    refine ⟨?_, ?_, rfl⟩
    · intro x hx
      exact mem_addBreak_of_mem _ d x (mem_foldl_addBreak_of_mem ts s hs x hx)
    · exact self_mem_addBreak _ d (by rw [foldl_addBreak_reachable]; exact hs)

theorem break_switch_record_targets_when_reachable_witness :
    (initSt.reachable = true ∧ isDead ExprOpt.none = false ∧
     "b" ∈ (visitBreak initSt "b" ExprOpt.none ExprOpt.none Typ.none).1.reachableBreaks ∧
     (visitBreak initSt "b" ExprOpt.none ExprOpt.none Typ.none).1.reachable = false) ∧
    ("t" ∈ (visitSwitch initSt ["t"] "d" ExprOpt.none (Expr.const Typ.i32)
        Typ.none).1.reachableBreaks ∧
     "d" ∈ (visitSwitch initSt ["t"] "d" ExprOpt.none (Expr.const Typ.i32)
        Typ.none).1.reachableBreaks ∧
     (visitSwitch initSt ["t"] "d" ExprOpt.none (Expr.const Typ.i32)
        Typ.none).1.reachable = false) :=
  ⟨⟨rfl, rfl,
    (break_switch_record_targets_when_reachable.1 initSt "b" ExprOpt.none ExprOpt.none
      Typ.none rfl rfl rfl).1,
    (break_switch_record_targets_when_reachable.1 initSt "b" ExprOpt.none ExprOpt.none
      Typ.none rfl rfl rfl).2.1 rfl⟩,
   ⟨(break_switch_record_targets_when_reachable.2 initSt ["t"] "d" ExprOpt.none
      (Expr.const Typ.i32) Typ.none rfl rfl rfl).1 "t" (by decide),
    (break_switch_record_targets_when_reachable.2 initSt ["t"] "d" ExprOpt.none
      (Expr.const Typ.i32) Typ.none rfl rfl rfl).2.1,
    (break_switch_record_targets_when_reachable.2 initSt ["t"] "d" ExprOpt.none
      (Expr.const Typ.i32) Typ.none rfl rfl rfl).2.2⟩⟩

mutual

theorem dceE_rb_sub (s : St) (e : Expr) (x : Name)
    (hx : x ∈ (dceE s e).1.reachableBreaks) :
    x ∈ s.reachableBreaks ∨ x ∈ freeB e := by
  by_cases hr : s.reachable = true
  · cases e with
    | block name list ty =>
        simp only [dceE, hr, if_true] at hx
        rw [visitBlock_state] at hx
        cases name with
        | none =>
            rcases dceL_rb_sub s list x hx with h | h
            · exact Or.inl h
            · right
              simpa [freeB] using h
        | some n =>
            dsimp only at hx
            obtain ⟨h1, hne⟩ := (mem_rbErase x n _).mp hx
            rcases dceL_rb_sub s list x h1 with h | h
            · exact Or.inl h
            · right
              simp [freeB, List.mem_filter]
              exact ⟨h, hne⟩
    | if_ c t f ty =>
        cases f with
        | none =>
            simp only [dceE, hr, if_true] at hx
            rw [visitIf_state] at hx
            dsimp only at hx
            rcases dceE_rb_sub _ t x hx with h2 | h2
            · dsimp only at h2
              rcases dceE_rb_sub s c x h2 with h3 | h3
              · exact Or.inl h3
              · right
                simp [freeB, List.mem_append]
                tauto
            · right
              simp [freeB, List.mem_append]
              tauto
        | some fe =>
            simp only [dceE, hr, if_true] at hx
            rw [visitIf_state] at hx
            dsimp only at hx
            rcases dceE_rb_sub _ fe x hx with h2 | h2
            · dsimp only at h2
              rcases dceE_rb_sub _ t x h2 with h3 | h3
              · dsimp only at h3
                rcases dceE_rb_sub s c x h3 with h4 | h4
                · exact Or.inl h4
                · right
                  simp [freeB, freeBO, List.mem_append]
                  tauto
              · right
                simp [freeB, freeBO, List.mem_append]
                tauto
            · right
              simp [freeB, freeBO, List.mem_append]
              tauto
    | loop name body ty =>
        simp only [dceE, hr, if_true] at hx
        rw [visitLoop_state] at hx
        cases name with
        | none =>
            rcases dceE_rb_sub s body x hx with h | h
            · exact Or.inl h
            · right
              simpa [freeB] using h
        | some n =>
            dsimp only at hx
            obtain ⟨h1, hne⟩ := (mem_rbErase x n _).mp hx
            rcases dceE_rb_sub s body x h1 with h | h
            · exact Or.inl h
            · right
              simp [freeB, List.mem_filter]
              exact ⟨h, hne⟩
    | br name value condition ty =>
        simp only [dceE, hr, if_true] at hx
        rcases visitBreak_rb _ name _ _ ty x hx with rfl | h2
        · right
          simp [freeB]
        · rcases dceO_rb_sub _ condition x h2 with h3 | h3
          · rcases dceO_rb_sub s value x h3 with h4 | h4
            · exact Or.inl h4
            · right
              simp [freeB, List.mem_append]
              tauto
          · right
            simp [freeB, List.mem_append]
            tauto
    | switch_ ts d value condition ty =>
        simp only [dceE, hr, if_true] at hx
        rcases visitSwitch_rb _ ts d _ _ ty x hx with h2 | h2 | h2
        · right
          simp [freeB, List.mem_append]
          tauto
        · subst h2
          right
          simp [freeB, List.mem_append]
        · rcases dceE_rb_sub _ condition x h2 with h3 | h3
          · rcases dceO_rb_sub s value x h3 with h4 | h4
            · exact Or.inl h4
            · right
              simp [freeB, List.mem_append]
              tauto
          · right
            simp [freeB, List.mem_append]
            tauto
    | call tgt ops ty =>
        simp only [dceE, hr, if_true] at hx
        rw [visitCallLike_state] at hx
        rcases dceL_rb_sub s ops x hx with h | h
        · exact Or.inl h
        · right
          simpa [freeB] using h
    | callImport tgt ops ty =>
        simp only [dceE, hr, if_true] at hx
        rw [visitCallLike_state] at hx
        rcases dceL_rb_sub s ops x hx with h | h
        · exact Or.inl h
        · right
          simpa [freeB] using h
    | callIndirect ops tgt ty =>
        simp only [dceE, hr, if_true] at hx
        rw [visitCallIndirect_state] at hx
        rcases dceE_rb_sub _ tgt x hx with h2 | h2
        · rcases dceL_rb_sub s ops x h2 with h3 | h3
          · exact Or.inl h3
          · right
            simp [freeB, List.mem_append]
            tauto
        · right
          simp [freeB, List.mem_append]
          tauto
    | getLocal i ty =>
        simp only [dceE, hr, if_true] at hx
        exact Or.inl hx
    | setLocal i v ty =>
        simp only [dceE, hr, if_true] at hx
        rw [visitSetLocal_state] at hx
        rcases dceE_rb_sub s v x hx with h | h
        · exact Or.inl h
        · right
          simpa [freeB] using h
    | getGlobal n ty =>
        simp only [dceE, hr, if_true] at hx
        exact Or.inl hx
    | setGlobal n v ty =>
        simp only [dceE, hr, if_true] at hx
        rcases dceE_rb_sub s v x hx with h | h
        · exact Or.inl h
        · right
          simpa [freeB] using h
    | load p ty =>
        simp only [dceE, hr, if_true] at hx
        rw [visitLoad_state] at hx
        rcases dceE_rb_sub s p x hx with h | h
        · exact Or.inl h
        · right
          simpa [freeB] using h
    | store p v ty =>
        simp only [dceE, hr, if_true] at hx
        rw [visitStore_state] at hx
        rcases dceE_rb_sub _ v x hx with h2 | h2
        · rcases dceE_rb_sub s p x h2 with h3 | h3
          · exact Or.inl h3
          · right
            simp [freeB, List.mem_append]
            tauto
        · right
          simp [freeB, List.mem_append]
          tauto
    | const ty =>
        simp only [dceE, hr, if_true] at hx
        exact Or.inl hx
    | unary v ty =>
        simp only [dceE, hr, if_true] at hx
        rw [visitUnary_state] at hx
        rcases dceE_rb_sub s v x hx with h | h
        · exact Or.inl h
        · right
          simpa [freeB] using h
    | binary l r ty =>
        simp only [dceE, hr, if_true] at hx
        rw [visitBinary_state] at hx
        rcases dceE_rb_sub _ r x hx with h2 | h2
        · rcases dceE_rb_sub s l x h2 with h3 | h3
          · exact Or.inl h3
          · right
            simp [freeB, List.mem_append]
            tauto
        · right
          simp [freeB, List.mem_append]
          tauto
    | select t f c ty =>
        simp only [dceE, hr, if_true] at hx
        rw [visitSelect_state] at hx
        rcases dceE_rb_sub _ c x hx with h2 | h2
        · rcases dceE_rb_sub _ f x h2 with h3 | h3
          · rcases dceE_rb_sub s t x h3 with h4 | h4
            · exact Or.inl h4
            · right
              simp [freeB, List.mem_append]
              tauto
          · right
            simp [freeB, List.mem_append]
            tauto
        · right
          simp [freeB, List.mem_append]
          tauto
    | drop v ty =>
        simp only [dceE, hr, if_true] at hx
        rw [visitDrop_state] at hx
        rcases dceE_rb_sub s v x hx with h | h
        · exact Or.inl h
        · right
          simpa [freeB] using h
    | ret v =>
        simp only [dceE, hr, if_true] at hx
        rw [visitReturn_rb] at hx
        rcases dceO_rb_sub s v x hx with h | h
        · exact Or.inl h
        · right
          simpa [freeB] using h
    | host ops ty =>
        simp only [dceE, hr, if_true] at hx
        rw [visitCallLike_state] at hx
        rcases dceL_rb_sub s ops x hx with h | h
        · exact Or.inl h
        · right
          simpa [freeB] using h
    | nop =>
        simp only [dceE, hr, if_true] at hx
        exact Or.inl hx
    | unreachable =>
        simp only [dceE, hr, if_true] at hx
        exact Or.inl hx
  · have hr2 : s.reachable = false := by simpa using hr
    cases e <;> simp only [dceE, hr2, Bool.false_eq_true, if_false] at hx <;> exact Or.inl hx
termination_by sizeOf e

theorem dceL_rb_sub (s : St) (l : ExprList) (x : Name)
    (hx : x ∈ (dceL s l).1.reachableBreaks) :
    x ∈ s.reachableBreaks ∨ x ∈ freeBL l := by
  cases l with
  | nil =>
      simp only [dceL] at hx
      exact Or.inl hx
  | cons hd tl =>
      simp only [dceL] at hx
      rcases dceL_rb_sub _ tl x hx with h2 | h2
      · rcases dceE_rb_sub s hd x h2 with h3 | h3
        · exact Or.inl h3
        · right
          simp [freeBL, List.mem_append]
          tauto
      · right
        simp [freeBL, List.mem_append]
        tauto
termination_by sizeOf l

theorem dceO_rb_sub (s : St) (o : ExprOpt) (x : Name)
    (hx : x ∈ (dceO s o).1.reachableBreaks) :
    x ∈ s.reachableBreaks ∨ x ∈ freeBO o := by
  cases o with
  | none =>
      simp only [dceO] at hx
      exact Or.inl hx
  | some e =>
      simp only [dceO] at hx
      rcases dceE_rb_sub s e x hx with h | h
      · exact Or.inl h
      · right
        simpa [freeBO] using h
termination_by sizeOf o

end

/-- If the processed condition is unreachable-typed, `visitIf` returns it,
which is unreachable-typed. -/
theorem visitIf_cond_unr (s : St) (c t : Expr) (f : ExprOpt) (ty : Typ)
    (hc : typeOf c = Typ.unreachable) :
    typeOf (visitIf s c t f ty).2.1 = Typ.unreachable := by
  unfold visitIf
  have hu : isUnreachable c = true := by simp [isUnreachable, hc]
  simp [hu, hc]

/-- If both processed arms are unreachable-typed, `visitIf` with an else
produces an unreachable-typed node. -/
theorem visitIf_unr (s : St) (c t fe : Expr) (ty : Typ)
    (ht : typeOf t = Typ.unreachable) (hf : typeOf fe = Typ.unreachable) :
    typeOf (visitIf s c t (ExprOpt.some fe) ty).2.1 = Typ.unreachable := by
  unfold visitIf
  by_cases hu : isUnreachable c = true
  · simp only [hu, if_true]
    simpa [isUnreachable] using hu
  · simp only [Bool.not_eq_true] at hu
    simp only [hu, Bool.false_eq_true, if_false]
    have hres : ifFinalize (typeOf t) (typeOfO (ExprOpt.some fe)) = Typ.unreachable := by
      rw [ht]
      simp [typeOfO, hf, ifFinalize]
    exact hres

/-- **C7.** For every well-formed input function body — one in which every
`Break` / `Switch` targets an enclosing `Block` or `Loop` label, expressed as
`freeB body = []` — `reachableBreaks` is empty when the walk of the body
completes: every label introduced during the traversal has been retired by its
owning `Block` or `Loop`, and the assertion in `visitFunction` never fails. -/
theorem reachable_breaks_empty_after_walk (body : Expr) (hwf : freeB body = []) :
    (dceE initSt body).1.reachableBreaks = [] := by
  rw [List.eq_nil_iff_forall_not_mem]
  intro x hx
  rcases dceE_rb_sub initSt body x hx with h | h
  · simp [initSt] at h
  · rw [hwf] at h
    cases h

theorem reachable_breaks_empty_after_walk_witness :
    freeB (Expr.block (Option.some "b")
      (ExprList.cons (Expr.br "b" ExprOpt.none ExprOpt.none Typ.unreachable)
        (ExprList.cons Expr.nop ExprList.nil))
      Typ.none) = [] ∧
    (dceE initSt (Expr.block (Option.some "b")
      (ExprList.cons (Expr.br "b" ExprOpt.none ExprOpt.none Typ.unreachable)
        (ExprList.cons Expr.nop ExprList.nil))
      Typ.none)).1.reachableBreaks = [] :=
  ⟨by decide,
   reachable_breaks_empty_after_walk _ (by decide)⟩

theorem st_ext (a b : St) (h1 : a.reachable = b.reachable)
    (h2 : a.reachableBreaks = b.reachableBreaks) (h3 : a.ifStack = b.ifStack) :
    a = b := by
  cases a
  cases b
  simp_all

theorem rbErase_not_mem (l : List Name) (n : Name) (h : ¬ n ∈ l) :
    rbErase l n = l := by
  unfold rbErase
  rw [List.filter_eq_self]
  intro a ha
  simp only [decide_eq_true_eq]
  intro han
  exact h (han ▸ ha)

theorem dceE_dead (s : St) (e : Expr) (h : s.reachable = false) :
    (dceE s e).1 = s ∧ (dceE s e).2.1 = Expr.unreachable := by
  cases e <;> simp [dceE, h]

theorem dceL_dead : ∀ (s : St) (l : ExprList), s.reachable = false →
    (dceL s l).1 = s ∧ (dceL s l).2.1 = killAll l
  | s, .nil, _ => by simp [dceL, killAll]
  | s, .cons hd tl, h => by
      have hhd := dceE_dead s hd h
      have htl := dceL_dead ((dceE s hd).1) tl (by rw [hhd.1]; exact h)
      simp only [dceL, killAll]
      refine ⟨by rw [htl.1, hhd.1], ?_⟩
      rw [htl.2, hhd.2]

theorem dceO_dead (s : St) (o : ExprOpt) (h : s.reachable = false) :
    (dceO s o).1 = s := by
  cases o with
  | none => simp [dceO]
  | some e =>
      simp only [dceO]
      exact (dceE_dead s e h).1

theorem killAll_no_breaks : ∀ (l : ExprList) (n : Name),
    hasBreakToL (killAll l) n = false
  | .nil, n => by simp [killAll, hasBreakToL]
  | .cons hd tl, n => by
      simp [killAll, hasBreakToL, hasBreakTo, killAll_no_breaks tl n]

theorem shorten_shape : ∀ (a : Expr) (b : ExprList),
    ∃ hd tl, shorten (.cons a b) = .cons hd tl
  | a, .nil => ⟨a, .nil, by simp [shorten]⟩
  | a, .cons x y => by
      by_cases h : typeOf a = Typ.unreachable
      · exact ⟨a, .nil, by simp [shorten, h]⟩
      · exact ⟨a, shorten (.cons x y), by simp [shorten, h]⟩

theorem shorten_eq_self : ∀ l, noEarlyUnr l = true → shorten l = l
  | .nil, _ => by simp [shorten]
  | .cons hd .nil, _ => by simp [shorten]
  | .cons hd (.cons a b), h => by
      simp only [noEarlyUnr, Bool.and_eq_true, bne_iff_ne, ne_eq] at h
      simp only [shorten, h.1, if_false]
      rw [shorten_eq_self (.cons a b) h.2]

theorem noEarlyUnr_shorten : ∀ l, noEarlyUnr (shorten l) = true
  | .nil => by simp [shorten, noEarlyUnr]
  | .cons hd .nil => by simp [shorten, noEarlyUnr]
  | .cons hd (.cons a b) => by
      by_cases h : typeOf hd = Typ.unreachable
      · simp [shorten, h, noEarlyUnr]
      · obtain ⟨x, y, hxy⟩ := shorten_shape a b
        have ih := noEarlyUnr_shorten (.cons a b)
        simp only [shorten, h, if_false]
        rw [hxy] at ih ⊢
        simp [noEarlyUnr, h, ih]

theorem shorten_shorten (l : ExprList) : shorten (shorten l) = shorten l :=
  shorten_eq_self _ (noEarlyUnr_shorten l)

mutual

theorem mem_freeB_hasBreak (e : Expr) (n : Name) (h : n ∈ freeB e) :
    hasBreakTo e n = true := by
  cases e with
  | block name l ty =>
      have h2 : n ∈ freeBL l := by
        cases name with
        | none => simpa [freeB] using h
        | some m =>
            have h3 : n ∈ freeBL l ∧ ¬ n = m := by
              simpa [freeB, List.mem_filter] using h
            exact h3.1
      simp [hasBreakTo, mem_freeBL_hasBreak l n h2]
  | if_ c t f ty =>
      simp only [freeB, List.mem_append] at h
      simp only [hasBreakTo, Bool.or_eq_true]
      rcases h with (h | h) | h
      · exact Or.inl (Or.inl (mem_freeB_hasBreak c n h))
      · exact Or.inl (Or.inr (mem_freeB_hasBreak t n h))
      · exact Or.inr (mem_freeBO_hasBreak f n h)
  | loop name b ty =>
      have h2 : n ∈ freeB b := by
        cases name with
        | none => simpa [freeB] using h
        | some m =>
            have h3 : n ∈ freeB b ∧ ¬ n = m := by
              simpa [freeB, List.mem_filter] using h
            exact h3.1
      simp [hasBreakTo, mem_freeB_hasBreak b n h2]
  | br name v c ty =>
      simp only [freeB, List.mem_cons, List.mem_append] at h
      simp only [hasBreakTo, Bool.or_eq_true]
      rcases h with rfl | h | h
      · simp
      · exact Or.inl (Or.inr (mem_freeBO_hasBreak v n h))
      · exact Or.inr (mem_freeBO_hasBreak c n h)
  | switch_ ts d v c ty =>
      simp only [freeB, List.mem_append, List.mem_cons] at h
      simp only [hasBreakTo, Bool.or_eq_true]
      rcases h with h | rfl | h | h
      · exact Or.inl (Or.inl (Or.inl (by simpa [contains_true_iff_mem] using h)))
      · simp
      · exact Or.inl (Or.inr (mem_freeBO_hasBreak v n h))
      · exact Or.inr (mem_freeB_hasBreak c n h)
  | call tgt ops ty =>
      simp only [freeB] at h
      simp [hasBreakTo, mem_freeBL_hasBreak ops n h]
  | callImport tgt ops ty =>
      simp only [freeB] at h
      simp [hasBreakTo, mem_freeBL_hasBreak ops n h]
  | callIndirect ops t ty =>
      simp only [freeB, List.mem_append] at h
      simp only [hasBreakTo, Bool.or_eq_true]
      rcases h with h | h
      · exact Or.inl (mem_freeBL_hasBreak ops n h)
      · exact Or.inr (mem_freeB_hasBreak t n h)
  | getLocal i ty => simp [freeB] at h
  | setLocal i v ty =>
      simp only [freeB] at h
      simp [hasBreakTo, mem_freeB_hasBreak v n h]
  | getGlobal g ty => simp [freeB] at h
  | setGlobal g v ty =>
      simp only [freeB] at h
      simp [hasBreakTo, mem_freeB_hasBreak v n h]
  | load p ty =>
      simp only [freeB] at h
      simp [hasBreakTo, mem_freeB_hasBreak p n h]
  | store p v ty =>
      simp only [freeB, List.mem_append] at h
      simp only [hasBreakTo, Bool.or_eq_true]
      rcases h with h | h
      · exact Or.inl (mem_freeB_hasBreak p n h)
      · exact Or.inr (mem_freeB_hasBreak v n h)
  | const ty => simp [freeB] at h
  | unary v ty =>
      simp only [freeB] at h
      simp [hasBreakTo, mem_freeB_hasBreak v n h]
  | binary l r ty =>
      simp only [freeB, List.mem_append] at h
      simp only [hasBreakTo, Bool.or_eq_true]
      rcases h with h | h
      · exact Or.inl (mem_freeB_hasBreak l n h)
      · exact Or.inr (mem_freeB_hasBreak r n h)
  | select t f c ty =>
      simp only [freeB, List.mem_append] at h
      simp only [hasBreakTo, Bool.or_eq_true]
      rcases h with (h | h) | h
      · exact Or.inl (Or.inl (mem_freeB_hasBreak t n h))
      · exact Or.inl (Or.inr (mem_freeB_hasBreak f n h))
      · exact Or.inr (mem_freeB_hasBreak c n h)
  | drop v ty =>
      simp only [freeB] at h
      simp [hasBreakTo, mem_freeB_hasBreak v n h]
  | ret v =>
      simp only [freeB] at h
      simp [hasBreakTo, mem_freeBO_hasBreak v n h]
  | host ops ty =>
      simp only [freeB] at h
      simp [hasBreakTo, mem_freeBL_hasBreak ops n h]
  | nop => simp [freeB] at h
  | unreachable => simp [freeB] at h
termination_by sizeOf e

theorem mem_freeBL_hasBreak (l : ExprList) (n : Name) (h : n ∈ freeBL l) :
    hasBreakToL l n = true := by
  cases l with
  | nil => simp [freeBL] at h
  | cons hd tl =>
      simp only [freeBL, List.mem_append] at h
      simp only [hasBreakToL, Bool.or_eq_true]
      rcases h with h | h
      · exact Or.inl (mem_freeB_hasBreak hd n h)
      · exact Or.inr (mem_freeBL_hasBreak tl n h)
termination_by sizeOf l

theorem mem_freeBO_hasBreak (o : ExprOpt) (n : Name) (h : n ∈ freeBO o) :
    hasBreakToO o n = true := by
  cases o with
  | none => simp [freeBO] at h
  | some e =>
      simp only [freeBO] at h
      simp [hasBreakToO, mem_freeB_hasBreak e n h]
termination_by sizeOf o

end

mutual

theorem wf_freeB_sub (e : Expr) (env : List Name) (hw : wfE e env = true) :
    ∀ n, n ∈ freeB e → n ∈ env := by
  cases e with
  | block name l ty =>
      intro n hn
      have hwl : wfL l (envPush name env) = true := by
        simp only [wfE, Bool.and_eq_true] at hw
        exact hw.1.1
      cases name with
      | none =>
          have h2 : n ∈ freeBL l := by simpa [freeB] using hn
          exact wfL_freeB_sub l env hwl n h2
      | some m =>
          have h3 : n ∈ freeBL l ∧ ¬ n = m := by simpa [freeB, List.mem_filter] using hn
          have h4 := wfL_freeB_sub l (m :: env) hwl n h3.1
          rcases List.mem_cons.mp h4 with rfl | h5
          · exact absurd rfl h3.2
          · exact h5
  | if_ c t f ty =>
      intro n hn
      simp only [wfE, Bool.and_eq_true] at hw
      simp only [freeB, List.mem_append] at hn
      rcases hn with (h | h) | h
      · exact wf_freeB_sub c env hw.1.1.1 n h
      · exact wf_freeB_sub t env hw.1.1.2 n h
      · exact wfO_freeB_sub f env hw.1.2 n h
  | loop name b ty =>
      intro n hn
      have hwb : wfE b (envPush name env) = true := by
        simp only [wfE, Bool.and_eq_true] at hw
        exact hw.1.1
      cases name with
      | none =>
          have h2 : n ∈ freeB b := by simpa [freeB] using hn
          exact wf_freeB_sub b env hwb n h2
      | some m =>
          have h3 : n ∈ freeB b ∧ ¬ n = m := by simpa [freeB, List.mem_filter] using hn
          have h4 := wf_freeB_sub b (m :: env) hwb n h3.1
          rcases List.mem_cons.mp h4 with rfl | h5
          · exact absurd rfl h3.2
          · exact h5
  | br name v c ty =>
      intro n hn
      simp only [wfE, Bool.and_eq_true] at hw
      simp only [freeB, List.mem_cons, List.mem_append] at hn
      rcases hn with rfl | h | h
      · exact contains_true_iff_mem env n |>.mp hw.1.1.1
      · exact wfO_freeB_sub v env hw.1.1.2 n h
      · exact wfO_freeB_sub c env hw.1.2 n h
  | switch_ ts d v c ty =>
      intro n hn
      simp only [wfE, Bool.and_eq_true] at hw
      simp only [freeB, List.mem_append, List.mem_cons] at hn
      rcases hn with h | rfl | h | h
      · have hall := hw.1.1.1
        rw [List.all_eq_true] at hall
        exact (contains_true_iff_mem env n).mp (hall n h)
      · exact (contains_true_iff_mem env n).mp hw.1.1.2
      · exact wfO_freeB_sub v env hw.1.2 n h
      · exact wf_freeB_sub c env hw.2 n h
  | call tgt ops ty =>
      intro n hn
      simp only [wfE, Bool.and_eq_true] at hw
      exact wfL_freeB_sub ops env hw.1 n (by simpa [freeB] using hn)
  | callImport tgt ops ty =>
      intro n hn
      simp only [wfE, Bool.and_eq_true] at hw
      exact wfL_freeB_sub ops env hw.1 n (by simpa [freeB] using hn)
  | callIndirect ops t ty =>
      intro n hn
      simp only [wfE, Bool.and_eq_true] at hw
      simp only [freeB, List.mem_append] at hn
      rcases hn with h | h
      · exact wfL_freeB_sub ops env hw.1.1 n h
      · exact wf_freeB_sub t env hw.1.2 n h
  | getLocal i ty => intro n hn; simp [freeB] at hn
  | setLocal i v ty =>
      intro n hn
      simp only [wfE, Bool.and_eq_true] at hw
      exact wf_freeB_sub v env hw.1 n (by simpa [freeB] using hn)
  | getGlobal g ty => intro n hn; simp [freeB] at hn
  | setGlobal g v ty =>
      intro n hn
      simp only [wfE, Bool.and_eq_true] at hw
      exact wf_freeB_sub v env hw.1 n (by simpa [freeB] using hn)
  | load p ty =>
      intro n hn
      simp only [wfE, Bool.and_eq_true] at hw
      exact wf_freeB_sub p env hw.1 n (by simpa [freeB] using hn)
  | store p v ty =>
      intro n hn
      simp only [wfE, Bool.and_eq_true] at hw
      simp only [freeB, List.mem_append] at hn
      rcases hn with h | h
      · exact wf_freeB_sub p env hw.1.1 n h
      · exact wf_freeB_sub v env hw.1.2 n h
  | const ty => intro n hn; simp [freeB] at hn
  | unary v ty =>
      intro n hn
      simp only [wfE, Bool.and_eq_true] at hw
      exact wf_freeB_sub v env hw.1 n (by simpa [freeB] using hn)
  | binary l r ty =>
      intro n hn
      simp only [wfE, Bool.and_eq_true] at hw
      simp only [freeB, List.mem_append] at hn
      rcases hn with h | h
      · exact wf_freeB_sub l env hw.1.1 n h
      · exact wf_freeB_sub r env hw.1.2 n h
  | select t f c ty =>
      intro n hn
      simp only [wfE, Bool.and_eq_true] at hw
      simp only [freeB, List.mem_append] at hn
      rcases hn with (h | h) | h
      · exact wf_freeB_sub t env hw.1.1.1 n h
      · exact wf_freeB_sub f env hw.1.1.2 n h
      · exact wf_freeB_sub c env hw.1.2 n h
  | drop v ty =>
      intro n hn
      simp only [wfE, Bool.and_eq_true] at hw
      exact wf_freeB_sub v env hw.1 n (by simpa [freeB] using hn)
  | ret v =>
      intro n hn
      simp only [wfE] at hw
      exact wfO_freeB_sub v env hw n (by simpa [freeB] using hn)
  | host ops ty =>
      intro n hn
      simp only [wfE, Bool.and_eq_true] at hw
      exact wfL_freeB_sub ops env hw.1 n (by simpa [freeB] using hn)
  | nop => intro n hn; simp [freeB] at hn
  | unreachable => intro n hn; simp [freeB] at hn
termination_by sizeOf e

theorem wfL_freeB_sub (l : ExprList) (env : List Name) (hw : wfL l env = true) :
    ∀ n, n ∈ freeBL l → n ∈ env := by
  cases l with
  | nil => intro n hn; simp [freeBL] at hn
  | cons hd tl =>
      intro n hn
      simp only [wfL, Bool.and_eq_true] at hw
      simp only [freeBL, List.mem_append] at hn
      rcases hn with h | h
      · exact wf_freeB_sub hd env hw.1 n h
      · exact wfL_freeB_sub tl env hw.2 n h
termination_by sizeOf l

theorem wfO_freeB_sub (o : ExprOpt) (env : List Name) (hw : wfO o env = true) :
    ∀ n, n ∈ freeBO o → n ∈ env := by
  cases o with
  | none => intro n hn; simp [freeBO] at hn
  | some e =>
      intro n hn
      simp only [wfO] at hw
      exact wf_freeB_sub e env hw n (by simpa [freeBO] using hn)
termination_by sizeOf o

end

theorem isDead_egetO (v : ExprOpt) (h : isDead v = true) :
    typeOf (egetO v Expr.nop) = Typ.unreachable := by
  cases v with
  | none => simp [isDead] at h
  | some x => simpa [isDead, egetO] using h

theorem firstUnr_typeOf : ∀ (ops : ExprList) (i : Nat),
    firstUnreachableIdx ops = Option.some i →
    typeOf (egetD ops i Expr.nop) = Typ.unreachable
  | .nil, i, h => by simp [firstUnreachableIdx] at h
  | .cons hd tl, i, h => by
      by_cases hhd : typeOf hd = Typ.unreachable
      · simp only [firstUnreachableIdx, hhd, if_true, Option.some.injEq] at h
        subst h
        simpa [egetD] using hhd
      · simp only [firstUnreachableIdx, hhd, if_false, Option.map_eq_some'] at h
        obtain ⟨j, hj, hij⟩ := h
        subst hij
        simpa [egetD] using firstUnr_typeOf tl j hj

theorem visitBreak_typeOf (s : St) (nm : Name) (v c : ExprOpt) (ty : Typ) :
    typeOf (visitBreak s nm v c ty).2.1 = ty ∨
    typeOf (visitBreak s nm v c ty).2.1 = Typ.unreachable := by
  unfold visitBreak
  by_cases hv : isDead v
  · simp only [hv, if_true]
    exact Or.inr (isDead_egetO v hv)
  · simp only [hv, Bool.false_eq_true, if_false]
    by_cases hc : isDead c
    · simp only [hc, if_true]
      cases v with
      | none =>
          exact Or.inr (isDead_egetO c hc)
      | some x => exact Or.inl rfl
    · simp only [hc, Bool.false_eq_true, if_false]
      cases c <;> exact Or.inl rfl

theorem visitSwitch_typeOf (s : St) (ts : List Name) (d : Name) (v : ExprOpt)
    (c : Expr) (ty : Typ) :
    typeOf (visitSwitch s ts d v c ty).2.1 = ty ∨
    typeOf (visitSwitch s ts d v c ty).2.1 = Typ.unreachable := by
  unfold visitSwitch
  by_cases hv : isDead v
  · simp only [hv, if_true]
    exact Or.inr (isDead_egetO v hv)
  · simp only [hv, Bool.false_eq_true, if_false]
    by_cases hc : isUnreachable c
    · simp only [hc, if_true]
      cases v with
      | none => exact Or.inr (by simpa [isUnreachable] using hc)
      | some x => exact Or.inl rfl
    · simp only [hc, Bool.false_eq_true, if_false]
      exact Or.inl rfl

theorem visitReturn_typeOf (s : St) (v : ExprOpt) :
    typeOf (visitReturn s v).2.1 = Typ.unreachable := by
  unfold visitReturn
  by_cases hv : isDead v
  · simp only [hv, if_true]
    exact isDead_egetO v hv
  · simp only [hv, Bool.false_eq_true, if_false]
    rfl

theorem visitCallLike_typeOf (s : St) (curr : Expr) (ops : ExprList) (ty : Typ)
    (hc : typeOf curr = ty) :
    typeOf (visitCallLike s curr ops ty).2.1 = ty ∨
    typeOf (visitCallLike s curr ops ty).2.1 = Typ.unreachable := by
  unfold visitCallLike handleCall
  cases hf : firstUnreachableIdx ops with
  | none => simpa using Or.inl hc
  | some i =>
      by_cases hi : i = 0
      · subst hi
        simp only [hf]
        exact Or.inr (by simpa using firstUnr_typeOf ops 0 hf)
      · simp only [hf, hi, if_false]
        exact Or.inl rfl

theorem visitCallIndirect_typeOf (s : St) (ops : ExprList) (t : Expr) (ty : Typ) :
    typeOf (visitCallIndirect s ops t ty).2.1 = ty ∨
    typeOf (visitCallIndirect s ops t ty).2.1 = Typ.unreachable := by
  unfold visitCallIndirect handleCall
  cases hf : firstUnreachableIdx ops with
  | none =>
      dsimp only
      split
      · exact Or.inl rfl
      · exact Or.inl rfl
  | some i =>
      by_cases hi : i = 0
      · subst hi
        simp only [hf]
        exact Or.inr (by simpa using firstUnr_typeOf ops 0 hf)
      · simp only [hf, hi, if_false]
        exact Or.inl rfl

theorem visitBlock_typeOf (s : St) (name : Option Name) (l : ExprList) (ty : Typ) :
    typeOf (visitBlock s name l ty).2.1 = ty ∨
    typeOf (visitBlock s name l ty).2.1 = Typ.unreachable := by
  unfold visitBlock
  by_cases hcond : s.reachable = false ∧ elength l > 1
  · rw [if_pos hcond]
    cases h1 : shorten l with
    | nil => exact Or.inl rfl
    | cons x tl =>
        cases tl with
        | cons a b => exact Or.inl rfl
        | nil =>
            by_cases hx : isUnreachable x
            · simp only [hx, if_true]
              unfold simplifyToContentsWithPossibleTypeChange
              dsimp only
              split
              · exact Or.inl rfl
              · exact Or.inr (by simpa [isUnreachable] using hx)
            · simp only [hx, Bool.false_eq_true, if_false]
              exact Or.inl rfl
  · rw [if_neg hcond]
    cases h1 : l with
    | nil => exact Or.inl rfl
    | cons x tl =>
        cases tl with
        | cons a b => exact Or.inl rfl
        | nil =>
            by_cases hx : isUnreachable x
            · simp only [hx, if_true]
              unfold simplifyToContentsWithPossibleTypeChange
              dsimp only
              split
              · exact Or.inl rfl
              · exact Or.inr (by simpa [isUnreachable] using hx)
            · simp only [hx, Bool.false_eq_true, if_false]
              exact Or.inl rfl

theorem visitLoop_shape (s : St) (name : Option Name) (b : Expr) (ty : Typ) :
    (visitLoop s name b ty).2.1 = Expr.loop name b ty ∨
    (visitLoop s name b ty).2.1 = b := by
  unfold visitLoop
  dsimp only
  split
  · exact Or.inr rfl
  · exact Or.inl rfl

theorem visitStore_typeOf (s : St) (p v : Expr) (ty : Typ) :
    typeOf (visitStore s p v ty).2.1 = ty ∨
    typeOf (visitStore s p v ty).2.1 = Typ.unreachable := by
  unfold visitStore
  by_cases hp : isUnreachable p
  · simp only [hp, if_true]
    exact Or.inr (by simpa [isUnreachable] using hp)
  · simp only [hp, Bool.false_eq_true, if_false]
    by_cases hv : isUnreachable v
    · simp only [hv, if_true]
      exact Or.inl rfl
    · simp only [hv, Bool.false_eq_true, if_false]
      exact Or.inl rfl

theorem visitBinary_typeOf (s : St) (l r : Expr) (ty : Typ) :
    typeOf (visitBinary s l r ty).2.1 = ty ∨
    typeOf (visitBinary s l r ty).2.1 = Typ.unreachable := by
  unfold visitBinary
  by_cases hl : isUnreachable l
  · simp only [hl, if_true]
    exact Or.inr (by simpa [isUnreachable] using hl)
  · simp only [hl, Bool.false_eq_true, if_false]
    by_cases hr : isUnreachable r
    · simp only [hr, if_true]
      exact Or.inl rfl
    · simp only [hr, Bool.false_eq_true, if_false]
      exact Or.inl rfl

theorem visitSelect_typeOf (s : St) (t f c : Expr) (ty : Typ) :
    typeOf (visitSelect s t f c ty).2.1 = ty ∨
    typeOf (visitSelect s t f c ty).2.1 = Typ.unreachable := by
  unfold visitSelect
  by_cases ht : isUnreachable t
  · simp only [ht, if_true]
    exact Or.inr (by simpa [isUnreachable] using ht)
  · simp only [ht, Bool.false_eq_true, if_false]
    by_cases hf : isUnreachable f
    · simp only [hf, if_true]
      exact Or.inl rfl
    · simp only [hf, Bool.false_eq_true, if_false]
      by_cases hc : isUnreachable c
      · simp only [hc, if_true]
        exact Or.inl rfl
      · simp only [hc, Bool.false_eq_true, if_false]
        exact Or.inl rfl

theorem visitSetLocal_typeOf (s : St) (i : Nat) (v : Expr) (ty : Typ) :
    typeOf (visitSetLocal s i v ty).2.1 = ty ∨
    typeOf (visitSetLocal s i v ty).2.1 = Typ.unreachable := by
  unfold visitSetLocal
  by_cases hv : isUnreachable v
  · simp only [hv, if_true]
    exact Or.inr (by simpa [isUnreachable] using hv)
  · simp only [hv, Bool.false_eq_true, if_false]
    exact Or.inl rfl

theorem visitLoad_typeOf (s : St) (p : Expr) (ty : Typ) :
    typeOf (visitLoad s p ty).2.1 = ty ∨
    typeOf (visitLoad s p ty).2.1 = Typ.unreachable := by
  unfold visitLoad
  by_cases hp : isUnreachable p
  · simp only [hp, if_true]
    exact Or.inr (by simpa [isUnreachable] using hp)
  · simp only [hp, Bool.false_eq_true, if_false]
    exact Or.inl rfl

theorem visitUnary_typeOf (s : St) (v : Expr) (ty : Typ) :
    typeOf (visitUnary s v ty).2.1 = ty ∨
    typeOf (visitUnary s v ty).2.1 = Typ.unreachable := by
  unfold visitUnary
  by_cases hv : isUnreachable v
  · simp only [hv, if_true]
    exact Or.inr (by simpa [isUnreachable] using hv)
  · simp only [hv, Bool.false_eq_true, if_false]
    exact Or.inl rfl

theorem visitDrop_typeOf (s : St) (v : Expr) (ty : Typ) :
    typeOf (visitDrop s v ty).2.1 = ty ∨
    typeOf (visitDrop s v ty).2.1 = Typ.unreachable := by
  unfold visitDrop
  by_cases hv : isUnreachable v
  · simp only [hv, if_true]
    exact Or.inr (by simpa [isUnreachable] using hv)
  · simp only [hv, Bool.false_eq_true, if_false]
    exact Or.inl rfl

theorem dceTP : ∀ (e : Expr) (s : St) (env : List Name),
    wfE e env = true → typeOf e = Typ.unreachable →
    typeOf (dceE s e).2.1 = Typ.unreachable := by
  intro e s env hw htype
  by_cases hr : s.reachable = true
  · cases e with
    | block name l ty =>
        simp only [dceE, hr, if_true]
        rcases visitBlock_typeOf (dceL s l).1 name (dceL s l).2.1 ty with h | h
        · rw [h]
          exact htype
        · exact h
    | if_ c t f ty =>
        have hclause := hw
        simp only [wfE, Bool.and_eq_true] at hclause
        obtain ⟨⟨⟨wfc, wft⟩, wff⟩, hcl⟩ := hclause
        have hty : ty = Typ.unreachable := htype
        rw [hty] at hcl
        cases f with
        | none =>
            have hcu : typeOf c = Typ.unreachable := by simpa using hcl
            simp only [dceE, hr, if_true]
            exact visitIf_cond_unr _ _ _ _ _ (dceTP c s env wfc hcu)
        | some fe =>
            have wff2 : wfE fe env = true := by simpa [wfO] using wff
            simp at hcl
            simp only [dceE, hr, if_true]
            rcases hcl with h | ⟨h1, h2⟩
            · exact visitIf_cond_unr _ _ _ _ _ (dceTP c s env wfc h)
            · exact visitIf_unr _ _ _ _ _ (dceTP t _ env wft h1) (dceTP fe _ env wff2 h2)
    | loop name b ty =>
        have hclause := hw
        simp only [wfE, Bool.and_eq_true] at hclause
        obtain ⟨⟨wfb, hnsh⟩, hcl⟩ := hclause
        have hty : ty = Typ.unreachable := htype
        rw [hty] at hcl
        simp only [beq_self_eq_true, Bool.not_true, Bool.false_or, beq_iff_eq] at hcl
        simp only [dceE, hr, if_true]
        rcases visitLoop_shape (dceE s b).1 name (dceE s b).2.1 ty with h | h
        · rw [h]
          exact hty
        · rw [h]
          exact dceTP b s (envPush name env) wfb hcl
    | br name v c ty =>
        simp only [dceE, hr, if_true]
        rcases visitBreak_typeOf (dceO (dceO s v).1 c).1 name (dceO s v).2.1
          (dceO (dceO s v).1 c).2.1 ty with h | h
        · rw [h]
          exact htype
        · exact h
    | switch_ ts d v c ty =>
        simp only [dceE, hr, if_true]
        rcases visitSwitch_typeOf (dceE (dceO s v).1 c).1 ts d (dceO s v).2.1
          (dceE (dceO s v).1 c).2.1 ty with h | h
        · rw [h]
          exact htype
        · exact h
    | call tgt ops ty =>
        simp only [dceE, hr, if_true]
        rcases visitCallLike_typeOf (dceL s ops).1 (.call tgt (dceL s ops).2.1 ty)
          (dceL s ops).2.1 ty rfl with h | h
        · rw [h]
          exact htype
        · exact h
    | callImport tgt ops ty =>
        simp only [dceE, hr, if_true]
        rcases visitCallLike_typeOf (dceL s ops).1 (.callImport tgt (dceL s ops).2.1 ty)
          (dceL s ops).2.1 ty rfl with h | h
        · rw [h]
          exact htype
        · exact h
    | callIndirect ops t ty =>
        simp only [dceE, hr, if_true]
        rcases visitCallIndirect_typeOf (dceE (dceL s ops).1 t).1 (dceL s ops).2.1
          (dceE (dceL s ops).1 t).2.1 ty with h | h
        · rw [h]
          exact htype
        · exact h
    | getLocal i ty =>
        simpa [dceE, hr, typeOf] using htype
    | setLocal i v ty =>
        simp only [dceE, hr, if_true]
        rcases visitSetLocal_typeOf (dceE s v).1 i (dceE s v).2.1 ty with h | h
        · rw [h]
          exact htype
        · exact h
    | getGlobal g ty =>
        simpa [dceE, hr, typeOf] using htype
    | setGlobal g v ty =>
        simpa [dceE, hr, typeOf] using htype
    | load p ty =>
        simp only [dceE, hr, if_true]
        rcases visitLoad_typeOf (dceE s p).1 (dceE s p).2.1 ty with h | h
        · rw [h]
          exact htype
        · exact h
    | store p v ty =>
        simp only [dceE, hr, if_true]
        rcases visitStore_typeOf (dceE (dceE s p).1 v).1 (dceE s p).2.1
          (dceE (dceE s p).1 v).2.1 ty with h | h
        · rw [h]
          exact htype
        · exact h
    | const ty =>
        simpa [dceE, hr, typeOf] using htype
    | unary v ty =>
        simp only [dceE, hr, if_true]
        rcases visitUnary_typeOf (dceE s v).1 (dceE s v).2.1 ty with h | h
        · rw [h]
          exact htype
        · exact h
    | binary l r ty =>
        simp only [dceE, hr, if_true]
        rcases visitBinary_typeOf (dceE (dceE s l).1 r).1 (dceE s l).2.1
          (dceE (dceE s l).1 r).2.1 ty with h | h
        · rw [h]
          exact htype
        · exact h
    | select t f c ty =>
        simp only [dceE, hr, if_true]
        rcases visitSelect_typeOf (dceE (dceE (dceE s t).1 f).1 c).1 (dceE s t).2.1
          (dceE (dceE s t).1 f).2.1 (dceE (dceE (dceE s t).1 f).1 c).2.1 ty with h | h
        · rw [h]
          exact htype
        · exact h
    | drop v ty =>
        simp only [dceE, hr, if_true]
        rcases visitDrop_typeOf (dceE s v).1 (dceE s v).2.1 ty with h | h
        · rw [h]
          exact htype
        · exact h
    | ret v =>
        simp only [dceE, hr, if_true]
        exact visitReturn_typeOf (dceO s v).1 (dceO s v).2.1
    | host ops ty =>
        simp only [dceE, hr, if_true]
        rcases visitCallLike_typeOf (dceL s ops).1 (.host (dceL s ops).2.1 ty)
          (dceL s ops).2.1 ty rfl with h | h
        · rw [h]
          exact htype
        · exact h
    | nop =>
        exact absurd htype (by decide)
    | unreachable =>
        simp only [dceE, hr, if_true]
        exact htype
  · rw [(dceE_dead s e (by simpa using hr)).2]
    rfl
termination_by e => sizeOf e

/-!
## Toward idempotence: scope stability, type preservation over lists, and
structural facts about the shapes the pass emits
-/

theorem rbStayE (e : Expr) (s : St) (env : List Name) (hw : wfE e env = true)
    (hrb : ∀ x, x ∈ s.reachableBreaks → x ∈ env) :
    ∀ x, x ∈ (dceE s e).1.reachableBreaks → x ∈ env := by
  intro x hx
  rcases dceE_rb_sub s e x hx with h | h
  · exact hrb x h
  · exact wf_freeB_sub e env hw x h

theorem rbStayL (l : ExprList) (s : St) (env : List Name) (hw : wfL l env = true)
    (hrb : ∀ x, x ∈ s.reachableBreaks → x ∈ env) :
    ∀ x, x ∈ (dceL s l).1.reachableBreaks → x ∈ env := by
  intro x hx
  rcases dceL_rb_sub s l x hx with h | h
  · exact hrb x h
  · exact wfL_freeB_sub l env hw x h

theorem rbStayO (o : ExprOpt) (s : St) (env : List Name) (hw : wfO o env = true)
    (hrb : ∀ x, x ∈ s.reachableBreaks → x ∈ env) :
    ∀ x, x ∈ (dceO s o).1.reachableBreaks → x ∈ env := by
  intro x hx
  rcases dceO_rb_sub s o x hx with h | h
  · exact hrb x h
  · exact wfO_freeB_sub o env hw x h

theorem killAll_killAll : ∀ l, killAll (killAll l) = killAll l
  | .nil => rfl
  | .cons hd tl => by simp [killAll, killAll_killAll tl]

theorem hasUnr_killAll : ∀ l, 0 < elength l → hasUnrElem (killAll l) = true
  | .cons _ _, _ => by simp [killAll, hasUnrElem, typeOf]
  | .nil, h => by simp [elength] at h

theorem elength_pos_of_hasUnr : ∀ l, hasUnrElem l = true → 0 < elength l
  | .cons _ _, _ => by simp [elength]
  | .nil, h => by simp [hasUnrElem] at h

theorem dceTPL : ∀ (l : ExprList) (s : St) (env : List Name),
    wfL l env = true → hasUnrElem l = true → hasUnrElem (dceL s l).2.1 = true
  | .nil, _, _, _, h => by simp [hasUnrElem] at h
  | .cons hd tl, s, env, hw, h => by
      simp only [wfL, Bool.and_eq_true] at hw
      simp only [hasUnrElem, Bool.or_eq_true, beq_iff_eq] at h
      simp only [dceL, hasUnrElem, Bool.or_eq_true, beq_iff_eq]
      rcases h with h1 | h1
      · exact Or.inl (dceTP hd s env hw.1 h1)
      · exact Or.inr (dceTPL tl (dceE s hd).1 env hw.2 h1)
termination_by l => sizeOf l

theorem firstUnr_cons_pos (hd : Expr) (tl : ExprList) (k : Nat)
    (h : firstUnreachableIdx (.cons hd tl) = Option.some (k + 1)) :
    typeOf hd ≠ Typ.unreachable ∧ firstUnreachableIdx tl = Option.some k := by
  by_cases hh : typeOf hd = Typ.unreachable
  · simp [firstUnreachableIdx, hh] at h
  · refine ⟨hh, ?_⟩
    simp only [firstUnreachableIdx, hh, if_false] at h
    rcases Option.map_eq_some'.mp h with ⟨a, ha, hak⟩
    have : a = k := by omega
    rw [← this]
    exact ha

theorem firstUnr_cons_none (hd : Expr) (tl : ExprList)
    (h : firstUnreachableIdx (.cons hd tl) = Option.none) :
    typeOf hd ≠ Typ.unreachable ∧ firstUnreachableIdx tl = Option.none := by
  by_cases hh : typeOf hd = Typ.unreachable
  · simp [firstUnreachableIdx, hh] at h
  · refine ⟨hh, ?_⟩
    simp only [firstUnreachableIdx, hh, if_false] at h
    exact Option.map_eq_none'.mp h

theorem firstUnr_lt : ∀ (l : ExprList) (k : Nat),
    firstUnreachableIdx l = Option.some k → k < elength l
  | .nil, k, h => by simp [firstUnreachableIdx] at h
  | .cons hd tl, 0, _ => by simp [elength]
  | .cons hd tl, k + 1, h => by
      have h2 := (firstUnr_cons_pos hd tl k h).2
      have := firstUnr_lt tl k h2
      simp only [elength]
      omega

theorem hasUnr_of_firstUnr : ∀ (l : ExprList) (k : Nat),
    firstUnreachableIdx l = Option.some k → hasUnrElem l = true
  | .nil, k, h => by simp [firstUnreachableIdx] at h
  | .cons hd tl, k, h => by
      by_cases hh : typeOf hd = Typ.unreachable
      · simp [hasUnrElem, hh]
      · cases k with
        | zero =>
            simp only [firstUnreachableIdx, hh, if_false] at h
            rcases Option.map_eq_some'.mp h with ⟨a, _, hak⟩
            omega
        | succ m =>
            have h2 := (firstUnr_cons_pos hd tl m h).2
            simp [hasUnrElem, hasUnr_of_firstUnr tl m h2]

theorem hbt_dropOf (e : Expr) (n : Name) :
    hasBreakTo (dropOf e) n = hasBreakTo e n := by
  unfold dropOf makeDrop
  by_cases h : typeOf e = Typ.unreachable
  · simp [h]
  · simp [h, hasBreakTo]

theorem hbtL_emap_dropOf : ∀ (l : ExprList) (n : Name),
    hasBreakToL (emap dropOf l) n = hasBreakToL l n
  | .nil, _ => rfl
  | .cons hd tl, n => by
      simp [emap, hasBreakToL, hbt_dropOf, hbtL_emap_dropOf tl n]

theorem hbtL_eappend : ∀ (a b : ExprList) (n : Name),
    hasBreakToL (eappend a b) n = (hasBreakToL a n || hasBreakToL b n)
  | .nil, b, n => by simp [eappend, hasBreakToL]
  | .cons hd tl, b, n => by
      simp [eappend, hasBreakToL, hbtL_eappend tl b n, Bool.or_assoc]

theorem elength_emap (f : Expr → Expr) : ∀ l, elength (emap f l) = elength l
  | .nil => rfl
  | .cons hd tl => by simp [emap, elength, elength_emap f tl]

theorem elength_etake_le : ∀ (l : ExprList) (k : Nat), k ≤ elength l →
    elength (etake k l) = k
  | _, 0, _ => by simp [etake, elength]
  | .nil, k + 1, h => by simp [elength] at h
  | .cons hd tl, k + 1, h => by
      have : k ≤ elength tl := by simp only [elength] at h; omega
      simp [etake, elength, elength_etake_le tl k this]

theorem typeOf_dropOf (e : Expr) (h : typeOf e ≠ Typ.unreachable) :
    typeOf (dropOf e) = Typ.none := by
  unfold dropOf makeDrop
  rw [if_neg h, if_neg h]
  rfl

theorem noEarlyUnr_cons (x : Expr) (r : ExprList)
    (hx : typeOf x ≠ Typ.unreachable) (hr : noEarlyUnr r = true) :
    noEarlyUnr (.cons x r) = true := by
  cases r with
  | nil => simp [noEarlyUnr]
  | cons a b => simp [noEarlyUnr, hx, hr]

theorem noEmapTake : ∀ (l : ExprList) (k : Nat),
    firstUnreachableIdx l = Option.some k →
    noEarlyUnr (emap dropOf (etake (k + 1) l)) = true
  | .nil, k, h => by simp [firstUnreachableIdx] at h
  | .cons hd tl, 0, _ => by simp [etake, emap, noEarlyUnr]
  | .cons hd tl, k + 1, h => by
      obtain ⟨hh, htl⟩ := firstUnr_cons_pos hd tl k h
      simp only [etake, emap]
      exact noEarlyUnr_cons _ _ (by rw [typeOf_dropOf hd hh]; decide)
        (noEmapTake tl k htl)

theorem noAppendDrops : ∀ (l : ExprList) (x : Expr),
    firstUnreachableIdx l = Option.none →
    noEarlyUnr (eappend (emap dropOf l) (.cons x .nil)) = true
  | .nil, x, _ => by simp [emap, eappend, noEarlyUnr]
  | .cons hd tl, x, h => by
      obtain ⟨hh, htl⟩ := firstUnr_cons_none hd tl h
      simp only [emap, eappend]
      exact noEarlyUnr_cons _ _ (by rw [typeOf_dropOf hd hh]; decide)
        (noAppendDrops tl x htl)

theorem dceL_append : ∀ (a b : ExprList) (s : St),
    (dceL s (eappend a b)).1 = (dceL (dceL s a).1 b).1 ∧
    (dceL s (eappend a b)).2.1 = eappend (dceL s a).2.1 (dceL (dceL s a).1 b).2.1
  | .nil, b, s => by simp [eappend, dceL]
  | .cons hd tl, b, s => by
      simp only [eappend, dceL]
      have ih := dceL_append tl b (dceE s hd).1
      exact ⟨ih.1, by simp [eappend, ih.2]⟩
termination_by a => sizeOf a

theorem visitBlock_reshorten (s : St) (name : Option Name) (l : ExprList)
    (ty : Typ) (hdead : s.reachable = false) (hlen : elength l > 1) :
    visitBlock s name (shorten l) ty = visitBlock s name l ty := by
  unfold visitBlock
  have hc : s.reachable = false ∧ elength l > 1 := ⟨hdead, hlen⟩
  rw [if_pos hc]
  by_cases h2 : s.reachable = false ∧ elength (shorten l) > 1
  · rw [if_pos h2, shorten_shorten]
  · rw [if_neg h2]

theorem hbtL_shorten_killAll : ∀ (l : ExprList) (n : Name),
    hasBreakToL (shorten (killAll l)) n = false := by
  intro l n
  cases l with
  | nil => simp [killAll, shorten, hasBreakToL]
  | cons a tl =>
      cases tl with
      | nil => simp [killAll, shorten, hasBreakToL, hasBreakTo]
      | cons b c =>
          simp [killAll, shorten, typeOf, hasBreakToL, hasBreakTo]

theorem firstUnr_before : ∀ (l : ExprList) (k j : Nat),
    firstUnreachableIdx l = Option.some k → j < k →
    typeOf (egetD l j Expr.nop) ≠ Typ.unreachable
  | .nil, k, j, h, _ => by simp [firstUnreachableIdx] at h
  | .cons hd tl, k, j, h, hj => by
      by_cases hh : typeOf hd = Typ.unreachable
      · simp [firstUnreachableIdx, hh] at h
        omega
      · cases k with
        | zero => omega
        | succ m =>
            have h2 := (firstUnr_cons_pos hd tl m h).2
            cases j with
            | zero => simpa [egetD] using hh
            | succ i =>
                have := firstUnr_before tl m i h2 (by omega)
                simpa [egetD] using this

theorem ifFinalize_unr (a b : Typ)
    (h : ifFinalize a (Option.some b) = Typ.unreachable) :
    a = Typ.unreachable ∧ b = Typ.unreachable := by
  simp only [ifFinalize] at h
  by_cases hab : a = b
  · rw [if_pos hab] at h
    exact ⟨h, by rw [← hab]; exact h⟩
  · rw [if_neg hab] at h
    by_cases ha : a = Typ.unreachable
    · rw [if_pos ha] at h
      exact ⟨ha, h⟩
    · rw [if_neg ha] at h
      by_cases hb : b = Typ.unreachable
      · rw [if_pos hb] at h
        exact absurd h ha
      · rw [if_neg hb] at h
        exact absurd h (by decide)

theorem visitIf_out (s : St) (c t : Expr) (f : ExprOpt) (ty : Typ) :
    (isUnreachable c = true ∧ (visitIf s c t f ty).2.1 = c) ∨
    (isUnreachable c = false ∧
      (visitIf s c t f ty).2.1 =
        Expr.if_ c t f (ifFinalize (typeOf t) (typeOfO f))) := by
  unfold visitIf
  by_cases hc : isUnreachable c = true
  · left
    simp [hc]
  · right
    simp only [Bool.not_eq_true] at hc
    simp [hc]

theorem visitBlock_out (s : St) (name : Option Name) (l : ExprList) (ty : Typ) :
    ∃ l1, (l1 = l ∨ (s.reachable = false ∧ elength l > 1 ∧ l1 = shorten l)) ∧
      ((visitBlock s name l ty).2.1 = Expr.block name l1 ty ∨
       (∃ x, l1 = ExprList.cons x ExprList.nil ∧ isUnreachable x = true ∧
         (visitBlock s name l ty).2.1 =
           simplifyToContentsWithPossibleTypeChange
             (Expr.block name (ExprList.cons x ExprList.nil) ty))) := by
  unfold visitBlock
  by_cases hcond : s.reachable = false ∧ elength l > 1
  · rw [if_pos hcond]
    refine ⟨shorten l, Or.inr ⟨hcond.1, hcond.2, rfl⟩, ?_⟩
    cases hs : shorten l with
    | nil => exact Or.inl rfl
    | cons x tl =>
        cases tl with
        | cons a b => exact Or.inl rfl
        | nil =>
            by_cases hx : isUnreachable x = true
            · refine Or.inr ⟨x, rfl, hx, ?_⟩
              simp [hx]
            · simp only [Bool.not_eq_true] at hx
              simp [hx]
  · rw [if_neg hcond]
    refine ⟨l, Or.inl rfl, ?_⟩
    cases hs : l with
    | nil => exact Or.inl rfl
    | cons x tl =>
        cases tl with
        | cons a b => exact Or.inl rfl
        | nil =>
            by_cases hx : isUnreachable x = true
            · refine Or.inr ⟨x, rfl, hx, ?_⟩
              simp [hx]
            · simp only [Bool.not_eq_true] at hx
              simp [hx]

theorem hdisjL_of_block (name : Option Name) (l : ExprList) (ty : Typ)
    (env : List Name)
    (hnsh : (match name with
             | Option.some n => !(boundBL l).contains n
             | Option.none => true) = true)
    (hdisj : ∀ m, m ∈ boundBE (Expr.block name l ty) → m ∉ env) :
    ∀ m, m ∈ boundBL l → m ∉ envPush name env := by
  intro m hm hmem
  cases name with
  | none => exact hdisj m (by simpa [boundBE, envPush] using hm) hmem
  | some nb =>
      simp only [envPush, List.mem_cons] at hmem
      rcases hmem with rfl | hmem
      · simp only [Bool.not_eq_true'] at hnsh
        have : (boundBL l).contains m = true := (contains_true_iff_mem _ _).mpr hm
        rw [hnsh] at this
        exact absurd this (by decide)
      · refine hdisj m ?_ hmem
        simp only [boundBE, envPush, List.mem_append, List.mem_cons]
        exact Or.inr hm

theorem hdisjE_of_loop (name : Option Name) (b : Expr) (ty : Typ)
    (env : List Name)
    (hnsh : (match name with
             | Option.some n => !(boundBE b).contains n
             | Option.none => true) = true)
    (hdisj : ∀ m, m ∈ boundBE (Expr.loop name b ty) → m ∉ env) :
    ∀ m, m ∈ boundBE b → m ∉ envPush name env := by
  intro m hm hmem
  cases name with
  | none => exact hdisj m (by simpa [boundBE, envPush] using hm) hmem
  | some nb =>
      simp only [envPush, List.mem_cons] at hmem
      rcases hmem with rfl | hmem
      · simp only [Bool.not_eq_true'] at hnsh
        have : (boundBE b).contains m = true := (contains_true_iff_mem _ _).mpr hm
        rw [hnsh] at this
        exact absurd this (by decide)
      · refine hdisj m ?_ hmem
        simp only [boundBE, envPush, List.mem_append, List.mem_cons]
        exact Or.inr hm

theorem hrb_push (name : Option Name) (env : List Name) (s : St)
    (hrb : ∀ x, x ∈ s.reachableBreaks → x ∈ env) :
    ∀ x, x ∈ s.reachableBreaks → x ∈ envPush name env := by
  intro x hx
  cases name with
  | none => exact hrb x hx
  | some nb =>
      simp only [envPush, List.mem_cons]
      exact Or.inr (hrb x hx)

theorem contains_false_of_not_mem (l : List Name) (n : Name) (h : ¬ n ∈ l) :
    l.contains n = false := by
  cases hc : l.contains n
  · rfl
  · exact absurd ((contains_true_iff_mem l n).mp hc) h

theorem isUnr_true_eq (x : Expr) (h : isUnreachable x = true) :
    typeOf x = Typ.unreachable := by
  simpa [isUnreachable] using h

theorem isUnr_false_ne (x : Expr) (h : isUnreachable x = false) :
    ¬ typeOf x = Typ.unreachable := by
  intro hEq
  simp [isUnreachable, hEq] at h

theorem isDead_some_eq (v : Expr) (h : isDead (ExprOpt.some v) = true) :
    typeOf v = Typ.unreachable := by
  simpa [isDead] using h

theorem isDead_some_ne (v : Expr) (h : isDead (ExprOpt.some v) = false) :
    ¬ typeOf v = Typ.unreachable := by
  intro hEq
  simp [isDead, hEq] at h

theorem handleCall_some_hasUnr (L : ExprList) (ty : Typ) (r : Expr)
    (hk : handleCall L ty = Option.some r) : hasUnrElem L = true := by
  unfold handleCall at hk
  cases hf : firstUnreachableIdx L with
  | none => rw [hf] at hk; simp at hk
  | some k => exact hasUnr_of_firstUnr L k hf

theorem handleCall_breaks (L : ExprList) (ty : Typ) (r : Expr) (n : Name)
    (hk : handleCall L ty = Option.some r)
    (hsb : hasBreakToL (shorten L) n = hasBreakToL L n)
    (h : hasBreakToL L n = true) :
    hasBreakTo r n = true := by
  unfold handleCall at hk
  cases hf : firstUnreachableIdx L with
  | none => rw [hf] at hk; simp at hk
  | some k =>
      rw [hf] at hk
      dsimp only at hk
      by_cases hk0 : k = 0
      · subst hk0
        rw [if_pos rfl] at hk
        injection hk with hk
        cases L with
        | nil => simp [firstUnreachableIdx] at hf
        | cons a rest =>
            have ha : typeOf a = Typ.unreachable := by
              simpa [egetD] using firstUnr_typeOf (.cons a rest) 0 hf
            have hsh : shorten (ExprList.cons a rest) = ExprList.cons a ExprList.nil := by
              cases rest with
              | nil => simp [shorten]
              | cons x y => simp [shorten, ha]
            rw [hsh] at hsb
            rw [← hsb] at h
            simp only [hasBreakToL, Bool.or_eq_true] at h
            rcases h with h | h
            · rw [← hk]
              simpa [egetD] using h
            · simp [hasBreakToL] at h
      · rw [if_neg hk0] at hk
        injection hk with hk
        have hlt := firstUnr_lt L k hf
        have hty := firstUnr_typeOf L k hf
        have hbefore := firstUnr_before L k
        have hse : shorten L = etake (k + 1) L :=
          shorten_eq_etake L k hlt hty (fun j hj => hbefore j hf hj)
        rw [← hk]
        simp only [hasBreakTo]
        rw [hbtL_emap_dropOf, ← hse, hsb]
        exact h

theorem isDead_none_eq : isDead ExprOpt.none = false := rfl

theorem shorten_cons_of_ne (x a : Expr) (r : ExprList)
    (hx : ¬ typeOf x = Typ.unreachable) :
    shorten (.cons x (.cons a r)) = .cons x (shorten (.cons a r)) := by
  simp [shorten, hx]

mutual

/-- If a node is processed in a live state and the node it leaves behind is
unreachable-typed, the state after the node is dead. -/
theorem dceINVE (e : Expr) (s : St) (env : List Name)
    (hw : wfE e env = true)
    (hdisj : ∀ m, m ∈ boundBE e → m ∉ env)
    (hrb : ∀ x, x ∈ s.reachableBreaks → x ∈ env)
    (hr : s.reachable = true)
    (htype : typeOf (dceE s e).2.1 = Typ.unreachable) :
    (dceE s e).1.reachable = false := by
  cases e with
  | block name list ty =>
      have hw2 := hw
      simp only [wfE, Bool.and_eq_true] at hw2
      obtain ⟨⟨hwl, hnsh⟩, hclause⟩ := hw2
      have hdisj2 := hdisjL_of_block name list ty env hnsh hdisj
      have hrb2 := hrb_push name env s hrb
      simp only [dceE, hr, if_true] at htype ⊢
      rw [visitBlock_state]
      obtain ⟨l1, hl1, hout⟩ :=
        visitBlock_out (dceL s list).1 name (dceL s list).2.1 ty
      have hMain : ty = Typ.unreachable ∨
          (∃ x, l1 = ExprList.cons x ExprList.nil ∧ isUnreachable x = true ∧
            hasBreakToOpt x name = false) := by
        rcases hout with hout | ⟨x, hx1, hxu, hout⟩
        · left
          rw [hout] at htype
          exact htype
        · by_cases hbk : hasBreakToOpt x name = true
          · left
            rw [hout] at htype
            unfold simplifyToContentsWithPossibleTypeChange at htype
            simp only [hbk, if_true] at htype
            exact htype
          · right
            simp only [Bool.not_eq_true] at hbk
            exact ⟨x, hx1, hxu, hbk⟩
      rcases hMain with hty | ⟨x, hx1, hxu, hbk⟩
      · rw [hty] at hclause
        simp only [beq_self_eq_true, Bool.not_true, Bool.false_or,
          Bool.and_eq_true] at hclause
        obtain ⟨hUnr, hnb⟩ := hclause
        have hdead : (dceL s list).1.reachable = false :=
          dceINVL list s (envPush name env) hwl hdisj2 hrb2
            (dceTPL list s (envPush name env) hwl hUnr)
        cases name with
        | none => exact hdead
        | some nb =>
            try dsimp only
            rw [hdead, Bool.false_or]
            have hnb2 : hasBreakToL list nb = false := by simpa using hnb
            refine contains_false_of_not_mem _ nb ?_
            intro hmem
            rcases dceL_rb_sub s list nb hmem with h | h
            · exact hdisj nb (by simp [boundBE, envPush]) (hrb nb h)
            · exact absurd (mem_freeBL_hasBreak list nb h) (by simp [hnb2])
      · have hdead : (dceL s list).1.reachable = false := by
          rcases hl1 with hl1 | ⟨hsd, hlen, hl1⟩
          · refine dceINVL list s (envPush name env) hwl hdisj2 hrb2 ?_
            rw [← hl1, hx1]
            simp [hasUnrElem, isUnr_true_eq x hxu]
          · exact hsd
        cases name with
        | none => exact hdead
        | some nb =>
            try dsimp only
            rw [hdead, Bool.false_or]
            refine contains_false_of_not_mem _ nb ?_
            intro hmem
            rcases dceLBL list s (envPush (Option.some nb) env) nb hwl hdisj2
              hrb2 hmem with h | h
            · exact hdisj nb (by simp [boundBE, envPush]) (hrb nb h)
            · have hbt1 : hasBreakToL l1 nb = true := by
                rcases hl1 with hl1 | ⟨hsd, hlen, hl1⟩
                · rw [hl1]
                  exact h
                · rw [hl1, dceSBL list s (envPush (Option.some nb) env) nb hwl
                    hdisj2 hrb2]
                  exact h
              rw [hx1] at hbt1
              simp only [hasBreakToL, Bool.or_eq_true] at hbt1
              rcases hbt1 with hbt1 | hbt1
              · simp only [hasBreakToOpt] at hbk
                rw [hbk] at hbt1
                exact absurd hbt1 (by decide)
              · simp [hasBreakToL] at hbt1
  | if_ c t f ty =>
      have hw2 := hw
      simp only [wfE, Bool.and_eq_true] at hw2
      obtain ⟨⟨⟨hwc, hwt⟩, hwf⟩, hclause⟩ := hw2
      have hdc : ∀ m, m ∈ boundBE c → m ∉ env :=
        fun m hm => hdisj m (by simp only [boundBE, List.mem_append]; tauto)
      have hdt : ∀ m, m ∈ boundBE t → m ∉ env :=
        fun m hm => hdisj m (by simp only [boundBE, List.mem_append]; tauto)
      cases f with
      | none =>
          simp only [dceE, hr, if_true] at htype ⊢
          set S1 := (dceE s c).1 with hS1
          set s2 := { S1 with ifStack := S1.reachable :: S1.ifStack } with hs2
          rw [visitIf_state]
          try dsimp only
          rcases visitIf_out (dceE s2 t).1 (dceE s c).2.1 (dceE s2 t).2.1
            ExprOpt.none ty with ⟨hcu, hout⟩ | ⟨hcu, hout⟩
          · have hcd := dceINVE c s env hwc hdc hrb hr (isUnr_true_eq _ hcu)
            have h2 := dceE_dead s2 t hcd
            rw [h2.1, hs2]
            try dsimp only
            try rw [List.headD_cons]
            rw [hS1]
            simp [hcd]
          · rw [hout] at htype
            simp only [typeOf, typeOfO, ifFinalize] at htype
            exact absurd htype (by decide)
      | some fe =>
          have hwfe : wfE fe env = true := by simpa [wfO] using hwf
          have hdfe : ∀ m, m ∈ boundBE fe → m ∉ env :=
            fun m hm => hdisj m
              (by simp only [boundBE, boundBO, List.mem_append]; tauto)
          simp only [dceE, hr, if_true] at htype ⊢
          set S1 := (dceE s c).1 with hS1
          set s2 := { S1 with ifStack := S1.reachable :: S1.ifStack } with hs2
          set rt1 := (dceE s2 t).1 with hrt1
          set s4 : St := { rt1 with reachable := rt1.ifStack.headD false, ifStack := rt1.reachable :: rt1.ifStack.tail } with hs4
          rw [visitIf_state]
          try dsimp only
          by_cases hcr : S1.reachable = true
          · rcases visitIf_out (dceE s4 fe).1 (dceE s c).2.1 (dceE s2 t).2.1
              (ExprOpt.some (dceE s4 fe).2.1) ty with ⟨hcu, hout⟩ | ⟨hcu, hout⟩
            · have hcd := dceINVE c s env hwc hdc hrb hr (isUnr_true_eq _ hcu)
              rw [hS1] at hcr
              rw [hcd] at hcr
              exact absurd hcr (by decide)
            · rw [hout] at htype
              simp only [typeOf, typeOfO] at htype
              obtain ⟨htu, hfu⟩ := ifFinalize_unr _ _ htype
              have hrtd : rt1.reachable = false :=
                dceINVE t s2 env hwt hdt
                  (fun y hy => rbStayE c s env hwc hrb y hy) hcr htu
              have hs4r : s4.reachable = true := by
                rw [hs4]
                try dsimp only
                rw [hrt1, dceE_ifStack s2 t, hs2]
                try dsimp only
                rw [List.headD_cons]
                exact hcr
              have hrfd := dceINVE fe s4 env hwfe hdfe
                (fun y hy => rbStayE t s2 env hwt
                  (fun z hz => rbStayE c s env hwc hrb z hz) y hy) hs4r hfu
              rw [hrfd, Bool.false_or, dceE_ifStack s4 fe, hs4]
              try dsimp only
              rw [List.headD_cons]
              exact hrtd
          · simp only [Bool.not_eq_true] at hcr
            have h2 := dceE_dead s2 t hcr
            have hrt1s2 : rt1 = s2 := by
              rw [hrt1]
              exact h2.1
            have hs4r : s4.reachable = false := by
              rw [hs4]
              try dsimp only
              rw [hrt1s2, hs2]
              try dsimp only
              rw [List.headD_cons]
              exact hcr
            have h3 := dceE_dead s4 fe hs4r
            rw [h3.1]
            rw [hs4]
            try dsimp only
            rw [List.headD_cons, hrt1s2]
            simp [hs2, hcr]
  | loop name b ty =>
      have hw2 := hw
      simp only [wfE, Bool.and_eq_true] at hw2
      obtain ⟨⟨hwb, hnsh⟩, hclause⟩ := hw2
      have hdisj2 := hdisjE_of_loop name b ty env hnsh hdisj
      have hrb2 := hrb_push name env s hrb
      simp only [dceE, hr, if_true] at htype ⊢
      rw [visitLoop_state]
      have hgoal : (dceE s b).1.reachable = false := by
        rcases visitLoop_shape (dceE s b).1 name (dceE s b).2.1 ty with hsh | hsh
        · rw [hsh] at htype
          simp only [typeOf] at htype
          rw [htype] at hclause
          simp only [beq_self_eq_true, Bool.not_true, Bool.false_or,
            beq_iff_eq] at hclause
          exact dceINVE b s (envPush name env) hwb hdisj2 hrb2 hr
            (dceTP b s (envPush name env) hwb hclause)
        · rw [hsh] at htype
          exact dceINVE b s (envPush name env) hwb hdisj2 hrb2 hr htype
      cases name with
      | none => exact hgoal
      | some nb => exact hgoal
  | br name v co ty =>
      have hw2 := hw
      simp only [wfE, Bool.and_eq_true] at hw2
      obtain ⟨⟨⟨hne, hwv⟩, hwc⟩, hcl⟩ := hw2
      cases v with
      | none =>
          cases co with
          | none =>
              simp only [dceE, hr, if_true]
              simp only [dceO]
              unfold visitBreak
              simp only [isDead_none_eq, Bool.false_eq_true, if_false]
              try rfl
          | some cc =>
              have hwcc : wfE cc env = true := by simpa [wfO] using hwc
              have hdcc : ∀ m, m ∈ boundBE cc → m ∉ env :=
                fun m hm => hdisj m
                  (by simp only [boundBE, boundBO, List.mem_append]; tauto)
              simp only [dceE, hr, if_true] at htype ⊢
              simp only [dceO] at htype ⊢
              unfold visitBreak at htype ⊢
              simp only [isDead_none_eq, Bool.false_eq_true, if_false]
                at htype ⊢
              by_cases h2 : isDead (ExprOpt.some (dceE s cc).2.1) = true
              · simp only [h2, if_true]
                try dsimp only
                exact dceINVE cc s env hwcc hdcc hrb hr (isDead_some_eq _ h2)
              · simp only [h2, Bool.false_eq_true, if_false] at htype ⊢
                try dsimp only at htype ⊢
                rw [addBreak_reachable]
                simp only [typeOf] at htype
                try dsimp only at hcl
                rw [htype] at hcl
                simp only [beq_self_eq_true, Bool.not_true, Bool.false_or,
                  isDead_none_eq] at hcl
                have := dceTP cc s env hwcc (isDead_some_eq _ hcl)
                exact absurd this (isDead_some_ne _ (by simpa using h2))
      | some vv =>
          have hwvv : wfE vv env = true := by simpa [wfO] using hwv
          have hdvv : ∀ m, m ∈ boundBE vv → m ∉ env :=
            fun m hm => hdisj m
              (by simp only [boundBE, boundBO, List.mem_append]; tauto)
          simp only [dceE, hr, if_true] at htype ⊢
          simp only [dceO] at htype ⊢
          unfold visitBreak at htype ⊢
          by_cases h1 : isDead (ExprOpt.some (dceE s vv).2.1) = true
          · simp only [h1, if_true]
            try dsimp only
            have hvd := dceINVE vv s env hwvv hdvv hrb hr (isDead_some_eq _ h1)
            rw [dceO_dead (dceE s vv).1 co hvd]
            exact hvd
          · simp only [h1, Bool.false_eq_true, if_false] at htype ⊢
            cases co with
            | none =>
                simp only [dceO] at htype ⊢
                simp only [isDead_none_eq, Bool.false_eq_true, if_false]
                  at htype ⊢
                try dsimp only at htype ⊢
                try rfl
            | some cc =>
                have hwcc : wfE cc env = true := by simpa [wfO] using hwc
                have hdcc : ∀ m, m ∈ boundBE cc → m ∉ env :=
                  fun m hm => hdisj m
                    (by simp only [boundBE, boundBO, List.mem_append]; tauto)
                simp only [dceO] at htype ⊢
                by_cases h2 :
                    isDead (ExprOpt.some (dceE (dceE s vv).1 cc).2.1) = true
                · simp only [h2, if_true]
                  try dsimp only
                  by_cases hvr : (dceE s vv).1.reachable = true
                  · exact dceINVE cc (dceE s vv).1 env hwcc hdcc
                      (rbStayE vv s env hwvv hrb) hvr (isDead_some_eq _ h2)
                  · simp only [Bool.not_eq_true] at hvr
                    rw [(dceE_dead (dceE s vv).1 cc hvr).1]
                    exact hvr
                · simp only [h2, Bool.false_eq_true, if_false] at htype ⊢
                  try dsimp only at htype ⊢
                  rw [addBreak_reachable]
                  simp only [typeOf] at htype
                  try dsimp only at hcl
                  rw [htype] at hcl
                  simp only [beq_self_eq_true, Bool.not_true, Bool.false_or,
                    Bool.or_eq_true] at hcl
                  rcases hcl with hcl | hcl
                  · have := dceTP vv s env hwvv (isDead_some_eq _ hcl)
                    exact absurd this (isDead_some_ne _ (by simpa using h1))
                  · have := dceTP cc (dceE s vv).1 env hwcc
                      (isDead_some_eq _ hcl)
                    exact absurd this (isDead_some_ne _ (by simpa using h2))
  | switch_ ts d v cnd ty =>
      have hw2 := hw
      simp only [wfE, Bool.and_eq_true] at hw2
      obtain ⟨⟨⟨hts, hd2⟩, hwv⟩, hwc⟩ := hw2
      have hdc : ∀ m, m ∈ boundBE cnd → m ∉ env :=
        fun m hm => hdisj m
          (by simp only [boundBE, boundBO, List.mem_append]; tauto)
      cases v with
      | none =>
          simp only [dceE, hr, if_true] at htype ⊢
          simp only [dceO] at htype ⊢
          unfold visitSwitch at htype ⊢
          simp only [isDead_none_eq, Bool.false_eq_true, if_false] at htype ⊢
          by_cases h2 : isUnreachable (dceE s cnd).2.1 = true
          · simp only [h2, if_true]
            try dsimp only
            exact dceINVE cnd s env hwc hdc hrb hr (isUnr_true_eq _ h2)
          · simp only [h2, Bool.false_eq_true, if_false]
            try rfl
      | some vv =>
          have hwvv : wfE vv env = true := by simpa [wfO] using hwv
          have hdvv : ∀ m, m ∈ boundBE vv → m ∉ env :=
            fun m hm => hdisj m
              (by simp only [boundBE, boundBO, List.mem_append]; tauto)
          simp only [dceE, hr, if_true] at htype ⊢
          simp only [dceO] at htype ⊢
          unfold visitSwitch at htype ⊢
          by_cases h1 : isDead (ExprOpt.some (dceE s vv).2.1) = true
          · simp only [h1, if_true]
            try dsimp only
            have hvd := dceINVE vv s env hwvv hdvv hrb hr (isDead_some_eq _ h1)
            rw [(dceE_dead (dceE s vv).1 cnd hvd).1]
            exact hvd
          · simp only [h1, Bool.false_eq_true, if_false] at htype ⊢
            by_cases h2 : isUnreachable (dceE (dceE s vv).1 cnd).2.1 = true
            · simp only [h2, if_true]
              try dsimp only
              by_cases hvr : (dceE s vv).1.reachable = true
              · exact dceINVE cnd (dceE s vv).1 env hwc hdc
                  (rbStayE vv s env hwvv hrb) hvr (isUnr_true_eq _ h2)
              · simp only [Bool.not_eq_true] at hvr
                rw [(dceE_dead (dceE s vv).1 cnd hvr).1]
                exact hvr
            · simp only [h2, Bool.false_eq_true, if_false]
              try rfl
  | call target ops ty =>
      have hw2 := hw
      simp only [wfE, Bool.and_eq_true] at hw2
      obtain ⟨hwo, hclause⟩ := hw2
      have hdo : ∀ m, m ∈ boundBL ops → m ∉ env :=
        fun m hm => hdisj m (by simpa [boundBE] using hm)
      simp only [dceE, hr, if_true] at htype ⊢
      rw [visitCallLike_state]
      unfold visitCallLike at htype
      cases hk : handleCall (dceL s ops).2.1 ty with
      | some r =>
          exact dceINVL ops s env hwo hdo hrb
            (handleCall_some_hasUnr _ ty r hk)
      | none =>
          rw [hk] at htype
          try dsimp only at htype
          simp only [typeOf] at htype
          rw [htype] at hclause
          simp only [beq_self_eq_true, Bool.not_true, Bool.false_or] at hclause
          exact dceINVL ops s env hwo hdo hrb (dceTPL ops s env hwo hclause)
  | callImport target ops ty =>
      have hw2 := hw
      simp only [wfE, Bool.and_eq_true] at hw2
      obtain ⟨hwo, hclause⟩ := hw2
      have hdo : ∀ m, m ∈ boundBL ops → m ∉ env :=
        fun m hm => hdisj m (by simpa [boundBE] using hm)
      simp only [dceE, hr, if_true] at htype ⊢
      rw [visitCallLike_state]
      unfold visitCallLike at htype
      cases hk : handleCall (dceL s ops).2.1 ty with
      | some r =>
          exact dceINVL ops s env hwo hdo hrb
            (handleCall_some_hasUnr _ ty r hk)
      | none =>
          rw [hk] at htype
          try dsimp only at htype
          simp only [typeOf] at htype
          rw [htype] at hclause
          simp only [beq_self_eq_true, Bool.not_true, Bool.false_or] at hclause
          exact dceINVL ops s env hwo hdo hrb (dceTPL ops s env hwo hclause)
  | host ops ty =>
      have hw2 := hw
      simp only [wfE, Bool.and_eq_true] at hw2
      obtain ⟨hwo, hclause⟩ := hw2
      have hdo : ∀ m, m ∈ boundBL ops → m ∉ env :=
        fun m hm => hdisj m (by simpa [boundBE] using hm)
      simp only [dceE, hr, if_true] at htype ⊢
      rw [visitCallLike_state]
      unfold visitCallLike at htype
      cases hk : handleCall (dceL s ops).2.1 ty with
      | some r =>
          exact dceINVL ops s env hwo hdo hrb
            (handleCall_some_hasUnr _ ty r hk)
      | none =>
          rw [hk] at htype
          try dsimp only at htype
          simp only [typeOf] at htype
          rw [htype] at hclause
          simp only [beq_self_eq_true, Bool.not_true, Bool.false_or] at hclause
          exact dceINVL ops s env hwo hdo hrb (dceTPL ops s env hwo hclause)
  | callIndirect ops target ty =>
      have hw2 := hw
      simp only [wfE, Bool.and_eq_true] at hw2
      obtain ⟨⟨hwo, hwt⟩, hclause⟩ := hw2
      have hdo : ∀ m, m ∈ boundBL ops → m ∉ env :=
        fun m hm => hdisj m
          (by simp only [boundBE, List.mem_append]; tauto)
      have hdt : ∀ m, m ∈ boundBE target → m ∉ env :=
        fun m hm => hdisj m
          (by simp only [boundBE, List.mem_append]; tauto)
      simp only [dceE, hr, if_true] at htype ⊢
      rw [visitCallIndirect_state]
      unfold visitCallIndirect at htype
      cases hk : handleCall (dceL s ops).2.1 ty with
      | some r =>
          have hops := dceINVL ops s env hwo hdo hrb
            (handleCall_some_hasUnr _ ty r hk)
          rw [(dceE_dead (dceL s ops).1 target hops).1]
          exact hops
      | none =>
          rw [hk] at htype
          try dsimp only at htype
          by_cases h2 : isUnreachable (dceE (dceL s ops).1 target).2.1 = true
          · by_cases hor : (dceL s ops).1.reachable = true
            · exact dceINVE target (dceL s ops).1 env hwt hdt
                (rbStayL ops s env hwo hrb) hor (isUnr_true_eq _ h2)
            · simp only [Bool.not_eq_true] at hor
              rw [(dceE_dead (dceL s ops).1 target hor).1]
              exact hor
          · simp only [h2, Bool.false_eq_true, if_false] at htype
            simp only [typeOf] at htype
            rw [htype] at hclause
            simp only [beq_self_eq_true, Bool.not_true, Bool.false_or,
              Bool.or_eq_true, beq_iff_eq] at hclause
            rcases hclause with hA | hB
            · have hops := dceINVL ops s env hwo hdo hrb
                (dceTPL ops s env hwo hA)
              rw [(dceE_dead (dceL s ops).1 target hops).1]
              exact hops
            · exact absurd (dceTP target (dceL s ops).1 env hwt hB)
                (isUnr_false_ne _ (by simpa using h2))
  | getLocal i ty =>
      have hw2 : (!(ty == Typ.unreachable)) = true := by simpa [wfE] using hw
      simp only [dceE, hr, if_true] at htype
      try dsimp only at htype
      simp only [typeOf] at htype
      rw [htype] at hw2
      simp at hw2
  | getGlobal nm ty =>
      have hw2 : (!(ty == Typ.unreachable)) = true := by simpa [wfE] using hw
      simp only [dceE, hr, if_true] at htype
      try dsimp only at htype
      simp only [typeOf] at htype
      rw [htype] at hw2
      simp at hw2
  | const ty =>
      have hw2 : (!(ty == Typ.unreachable)) = true := by simpa [wfE] using hw
      simp only [dceE, hr, if_true] at htype
      try dsimp only at htype
      simp only [typeOf] at htype
      rw [htype] at hw2
      simp at hw2
  | setLocal i vv ty =>
      have hw2 := hw
      simp only [wfE, Bool.and_eq_true] at hw2
      obtain ⟨hwv, hclause⟩ := hw2
      have hdv : ∀ m, m ∈ boundBE vv → m ∉ env :=
        fun m hm => hdisj m (by simpa [boundBE] using hm)
      simp only [dceE, hr, if_true] at htype ⊢
      unfold visitSetLocal at htype ⊢
      by_cases h1 : isUnreachable (dceE s vv).2.1 = true
      · simp only [h1, if_true]
        try dsimp only
        exact dceINVE vv s env hwv hdv hrb hr (isUnr_true_eq _ h1)
      · simp only [h1, Bool.false_eq_true, if_false] at htype ⊢
        try dsimp only at htype
        simp only [typeOf] at htype
        rw [htype] at hclause
        simp only [beq_self_eq_true, Bool.not_true, Bool.false_or,
          beq_iff_eq] at hclause
        exact absurd (dceTP vv s env hwv hclause)
          (isUnr_false_ne _ (by simpa using h1))
  | setGlobal nm vv ty =>
      have hw2 := hw
      simp only [wfE, Bool.and_eq_true] at hw2
      obtain ⟨hwv, hclause⟩ := hw2
      have hdv : ∀ m, m ∈ boundBE vv → m ∉ env :=
        fun m hm => hdisj m (by simpa [boundBE] using hm)
      simp only [dceE, hr, if_true] at htype ⊢
      try dsimp only at htype ⊢
      simp only [typeOf] at htype
      rw [htype] at hclause
      simp only [beq_self_eq_true, Bool.not_true, Bool.false_or,
        beq_iff_eq] at hclause
      exact dceINVE vv s env hwv hdv hrb hr (dceTP vv s env hwv hclause)
  | load p ty =>
      have hw2 := hw
      simp only [wfE, Bool.and_eq_true] at hw2
      obtain ⟨hwp, hclause⟩ := hw2
      have hdp : ∀ m, m ∈ boundBE p → m ∉ env :=
        fun m hm => hdisj m (by simpa [boundBE] using hm)
      simp only [dceE, hr, if_true] at htype ⊢
      unfold visitLoad at htype ⊢
      by_cases h1 : isUnreachable (dceE s p).2.1 = true
      · simp only [h1, if_true]
        try dsimp only
        exact dceINVE p s env hwp hdp hrb hr (isUnr_true_eq _ h1)
      · simp only [h1, Bool.false_eq_true, if_false] at htype ⊢
        try dsimp only at htype
        simp only [typeOf] at htype
        rw [htype] at hclause
        simp only [beq_self_eq_true, Bool.not_true, Bool.false_or,
          beq_iff_eq] at hclause
        exact absurd (dceTP p s env hwp hclause)
          (isUnr_false_ne _ (by simpa using h1))
  | unary vv ty =>
      have hw2 := hw
      simp only [wfE, Bool.and_eq_true] at hw2
      obtain ⟨hwv, hclause⟩ := hw2
      have hdv : ∀ m, m ∈ boundBE vv → m ∉ env :=
        fun m hm => hdisj m (by simpa [boundBE] using hm)
      simp only [dceE, hr, if_true] at htype ⊢
      unfold visitUnary at htype ⊢
      by_cases h1 : isUnreachable (dceE s vv).2.1 = true
      · simp only [h1, if_true]
        try dsimp only
        exact dceINVE vv s env hwv hdv hrb hr (isUnr_true_eq _ h1)
      · simp only [h1, Bool.false_eq_true, if_false] at htype ⊢
        try dsimp only at htype
        simp only [typeOf] at htype
        rw [htype] at hclause
        simp only [beq_self_eq_true, Bool.not_true, Bool.false_or,
          beq_iff_eq] at hclause
        exact absurd (dceTP vv s env hwv hclause)
          (isUnr_false_ne _ (by simpa using h1))
  | drop vv ty =>
      have hw2 := hw
      simp only [wfE, Bool.and_eq_true] at hw2
      obtain ⟨hwv, hclause⟩ := hw2
      have hdv : ∀ m, m ∈ boundBE vv → m ∉ env :=
        fun m hm => hdisj m (by simpa [boundBE] using hm)
      simp only [dceE, hr, if_true] at htype ⊢
      unfold visitDrop at htype ⊢
      by_cases h1 : isUnreachable (dceE s vv).2.1 = true
      · simp only [h1, if_true]
        try dsimp only
        exact dceINVE vv s env hwv hdv hrb hr (isUnr_true_eq _ h1)
      · simp only [h1, Bool.false_eq_true, if_false] at htype ⊢
        try dsimp only at htype
        simp only [typeOf] at htype
        rw [htype] at hclause
        simp only [beq_self_eq_true, Bool.not_true, Bool.false_or,
          beq_iff_eq] at hclause
        exact absurd (dceTP vv s env hwv hclause)
          (isUnr_false_ne _ (by simpa using h1))
  | store p vv ty =>
      have hw2 := hw
      simp only [wfE, Bool.and_eq_true] at hw2
      obtain ⟨⟨hwp, hwv⟩, hclause⟩ := hw2
      have hdp : ∀ m, m ∈ boundBE p → m ∉ env :=
        fun m hm => hdisj m (by simp only [boundBE, List.mem_append]; tauto)
      have hdv : ∀ m, m ∈ boundBE vv → m ∉ env :=
        fun m hm => hdisj m (by simp only [boundBE, List.mem_append]; tauto)
      simp only [dceE, hr, if_true] at htype ⊢
      unfold visitStore at htype ⊢
      by_cases h1 : isUnreachable (dceE s p).2.1 = true
      · simp only [h1, if_true]
        try dsimp only
        have hd1 := dceINVE p s env hwp hdp hrb hr (isUnr_true_eq _ h1)
        rw [(dceE_dead (dceE s p).1 vv hd1).1]
        exact hd1
      · simp only [h1, Bool.false_eq_true, if_false] at htype ⊢
        by_cases h2 : isUnreachable (dceE (dceE s p).1 vv).2.1 = true
        · simp only [h2, if_true]
          try dsimp only
          by_cases hvr : (dceE s p).1.reachable = true
          · exact dceINVE vv (dceE s p).1 env hwv hdv
              (rbStayE p s env hwp hrb) hvr (isUnr_true_eq _ h2)
          · simp only [Bool.not_eq_true] at hvr
            rw [(dceE_dead (dceE s p).1 vv hvr).1]
            exact hvr
        · simp only [h2, Bool.false_eq_true, if_false] at htype ⊢
          try dsimp only at htype
          simp only [typeOf] at htype
          rw [htype] at hclause
          simp only [beq_self_eq_true, Bool.not_true, Bool.false_or,
            Bool.or_eq_true, beq_iff_eq] at hclause
          rcases hclause with hc1 | hc1
          · exact absurd (dceTP p s env hwp hc1)
              (isUnr_false_ne _ (by simpa using h1))
          · exact absurd (dceTP vv (dceE s p).1 env hwv hc1)
              (isUnr_false_ne _ (by simpa using h2))
  | binary lf rg ty =>
      have hw2 := hw
      simp only [wfE, Bool.and_eq_true] at hw2
      obtain ⟨⟨hwl2, hwr⟩, hclause⟩ := hw2
      have hdl : ∀ m, m ∈ boundBE lf → m ∉ env :=
        fun m hm => hdisj m (by simp only [boundBE, List.mem_append]; tauto)
      have hdr : ∀ m, m ∈ boundBE rg → m ∉ env :=
        fun m hm => hdisj m (by simp only [boundBE, List.mem_append]; tauto)
      simp only [dceE, hr, if_true] at htype ⊢
      unfold visitBinary at htype ⊢
      by_cases h1 : isUnreachable (dceE s lf).2.1 = true
      · simp only [h1, if_true]
        try dsimp only
        have hd1 := dceINVE lf s env hwl2 hdl hrb hr (isUnr_true_eq _ h1)
        rw [(dceE_dead (dceE s lf).1 rg hd1).1]
        exact hd1
      · simp only [h1, Bool.false_eq_true, if_false] at htype ⊢
        by_cases h2 : isUnreachable (dceE (dceE s lf).1 rg).2.1 = true
        · simp only [h2, if_true]
          try dsimp only
          by_cases hvr : (dceE s lf).1.reachable = true
          · exact dceINVE rg (dceE s lf).1 env hwr hdr
              (rbStayE lf s env hwl2 hrb) hvr (isUnr_true_eq _ h2)
          · simp only [Bool.not_eq_true] at hvr
            rw [(dceE_dead (dceE s lf).1 rg hvr).1]
            exact hvr
        · simp only [h2, Bool.false_eq_true, if_false] at htype ⊢
          try dsimp only at htype
          simp only [typeOf] at htype
          rw [htype] at hclause
          simp only [beq_self_eq_true, Bool.not_true, Bool.false_or,
            Bool.or_eq_true, beq_iff_eq] at hclause
          rcases hclause with hc1 | hc1
          · exact absurd (dceTP lf s env hwl2 hc1)
              (isUnr_false_ne _ (by simpa using h1))
          · exact absurd (dceTP rg (dceE s lf).1 env hwr hc1)
              (isUnr_false_ne _ (by simpa using h2))
  | select tt ff cnd ty =>
      have hw2 := hw
      simp only [wfE, Bool.and_eq_true] at hw2
      obtain ⟨⟨⟨hwtt, hwff⟩, hwcd⟩, hclause⟩ := hw2
      have hdtt : ∀ m, m ∈ boundBE tt → m ∉ env :=
        fun m hm => hdisj m (by simp only [boundBE, List.mem_append]; tauto)
      have hdff : ∀ m, m ∈ boundBE ff → m ∉ env :=
        fun m hm => hdisj m (by simp only [boundBE, List.mem_append]; tauto)
      have hdcd : ∀ m, m ∈ boundBE cnd → m ∉ env :=
        fun m hm => hdisj m (by simp only [boundBE, List.mem_append]; tauto)
      simp only [dceE, hr, if_true] at htype ⊢
      unfold visitSelect at htype ⊢
      by_cases h1 : isUnreachable (dceE s tt).2.1 = true
      · simp only [h1, if_true]
        try dsimp only
        have hd1 := dceINVE tt s env hwtt hdtt hrb hr (isUnr_true_eq _ h1)
        rw [(dceE_dead (dceE s tt).1 ff hd1).1,
          (dceE_dead (dceE s tt).1 cnd hd1).1]
        exact hd1
      · simp only [h1, Bool.false_eq_true, if_false] at htype ⊢
        by_cases h2 : isUnreachable (dceE (dceE s tt).1 ff).2.1 = true
        · simp only [h2, if_true]
          try dsimp only
          by_cases hvr : (dceE s tt).1.reachable = true
          · have hd2 := dceINVE ff (dceE s tt).1 env hwff hdff
              (rbStayE tt s env hwtt hrb) hvr (isUnr_true_eq _ h2)
            rw [(dceE_dead (dceE (dceE s tt).1 ff).1 cnd hd2).1]
            exact hd2
          · simp only [Bool.not_eq_true] at hvr
            have e2 := dceE_dead (dceE s tt).1 ff hvr
            rw [e2.1, (dceE_dead (dceE s tt).1 cnd hvr).1]
            exact hvr
        · simp only [h2, Bool.false_eq_true, if_false] at htype ⊢
          by_cases h3 :
              isUnreachable (dceE (dceE (dceE s tt).1 ff).1 cnd).2.1 = true
          · simp only [h3, if_true]
            try dsimp only
            by_cases hvr : (dceE (dceE s tt).1 ff).1.reachable = true
            · exact dceINVE cnd (dceE (dceE s tt).1 ff).1 env hwcd hdcd
                (rbStayE ff (dceE s tt).1 env hwff
                  (rbStayE tt s env hwtt hrb)) hvr (isUnr_true_eq _ h3)
            · simp only [Bool.not_eq_true] at hvr
              rw [(dceE_dead (dceE (dceE s tt).1 ff).1 cnd hvr).1]
              exact hvr
          · simp only [h3, Bool.false_eq_true, if_false] at htype ⊢
            try dsimp only at htype
            simp only [typeOf] at htype
            rw [htype] at hclause
            simp only [beq_self_eq_true, Bool.not_true, Bool.false_or] at hclause
            by_cases hA : typeOf tt = Typ.unreachable
            · exact absurd (dceTP tt s env hwtt hA)
                (isUnr_false_ne _ (by simpa using h1))
            · by_cases hB : typeOf ff = Typ.unreachable
              · exact absurd (dceTP ff (dceE s tt).1 env hwff hB)
                  (isUnr_false_ne _ (by simpa using h2))
              · by_cases hC : typeOf cnd = Typ.unreachable
                · exact absurd (dceTP cnd (dceE (dceE s tt).1 ff).1 env hwcd hC)
                    (isUnr_false_ne _ (by simpa using h3))
                · simp [hA, hB, hC] at hclause
  | ret v =>
      have hw2 : wfO v env = true := by simpa [wfE] using hw
      cases v with
      | none =>
          simp only [dceE, hr, if_true]
          simp only [dceO]
          unfold visitReturn
          simp only [isDead_none_eq, Bool.false_eq_true, if_false]
          try rfl
      | some vv =>
          have hwvv : wfE vv env = true := by simpa [wfO] using hw2
          have hdvv : ∀ m, m ∈ boundBE vv → m ∉ env :=
            fun m hm => hdisj m (by simpa [boundBE, boundBO] using hm)
          simp only [dceE, hr, if_true]
          simp only [dceO]
          unfold visitReturn
          by_cases h1 : isDead (ExprOpt.some (dceE s vv).2.1) = true
          · simp only [h1, if_true]
            try dsimp only
            exact dceINVE vv s env hwvv hdvv hrb hr (isDead_some_eq _ h1)
          · simp only [h1, Bool.false_eq_true, if_false]
            try rfl
  | nop =>
      simp only [dceE, hr, if_true] at htype
      try dsimp only at htype
      simp [typeOf] at htype
  | unreachable =>
      simp only [dceE, hr, if_true]
      try rfl

/-- If some element of the processed list is unreachable-typed, the state
after the list walk is dead. -/
theorem dceINVL (l : ExprList) (s : St) (env : List Name)
    (hw : wfL l env = true)
    (hdisj : ∀ m, m ∈ boundBL l → m ∉ env)
    (hrb : ∀ x, x ∈ s.reachableBreaks → x ∈ env)
    (hU : hasUnrElem (dceL s l).2.1 = true) :
    (dceL s l).1.reachable = false := by
  cases l with
  | nil => simp [dceL, hasUnrElem] at hU
  | cons hd tl =>
      have hw2 := hw
      simp only [wfL, Bool.and_eq_true] at hw2
      by_cases hr : s.reachable = true
      · simp only [dceL, hasUnrElem, Bool.or_eq_true, beq_iff_eq] at hU
        simp only [dceL]
        rcases hU with h1 | h1
        · have hdead := dceINVE hd s env hw2.1
            (fun m hm => hdisj m
              (by simp only [boundBL, List.mem_append]; tauto))
            hrb hr h1
          rw [(dceL_dead (dceE s hd).1 tl hdead).1]
          exact hdead
        · exact dceINVL tl (dceE s hd).1 env hw2.2
            (fun m hm => hdisj m
              (by simp only [boundBL, List.mem_append]; tauto))
            (rbStayE hd s env hw2.1 hrb) h1
      · simp only [Bool.not_eq_true] at hr
        rw [(dceL_dead s (.cons hd tl) hr).1]
        exact hr

/-- A label recorded in `reachableBreaks` by the walk over `e` either was
already recorded or remains the target of a break inside the output. -/
theorem dceLBE (e : Expr) (s : St) (env : List Name) (n : Name)
    (hw : wfE e env = true)
    (hdisj : ∀ m, m ∈ boundBE e → m ∉ env)
    (hrb : ∀ x, x ∈ s.reachableBreaks → x ∈ env)
    (hx : n ∈ (dceE s e).1.reachableBreaks) :
    n ∈ s.reachableBreaks ∨ hasBreakTo (dceE s e).2.1 n = true := by
  by_cases hr : s.reachable = true
  · cases e with
    | block name list ty =>
        have hw2 := hw
        simp only [wfE, Bool.and_eq_true] at hw2
        obtain ⟨⟨hwl, hnsh⟩, hclause⟩ := hw2
        have hdisj2 := hdisjL_of_block name list ty env hnsh hdisj
        have hrb2 := hrb_push name env s hrb
        simp only [dceE, hr, if_true] at hx ⊢
        rw [visitBlock_state] at hx
        have hmem : n ∈ (dceL s list).1.reachableBreaks := by
          cases name with
          | none => exact hx
          | some nb =>
              try dsimp only at hx
              exact ((mem_rbErase n nb _).mp hx).1
        rcases dceLBL list s (envPush name env) n hwl hdisj2 hrb2 hmem with h | h
        · exact Or.inl h
        · right
          obtain ⟨l1, hl1, hout⟩ :=
            visitBlock_out (dceL s list).1 name (dceL s list).2.1 ty
          have hbtl1 : hasBreakToL l1 n = true := by
            rcases hl1 with hl1 | ⟨hsd, hlen, hl1⟩
            · rw [hl1]
              exact h
            · rw [hl1, dceSBL list s (envPush name env) n hwl hdisj2 hrb2]
              exact h
          rcases hout with hout | ⟨x, hx1, hxu, hout⟩
          · rw [hout]
            simpa [hasBreakTo] using hbtl1
          · rw [hout]
            unfold simplifyToContentsWithPossibleTypeChange
            rw [hx1] at hbtl1
            simp only [hasBreakToL, Bool.or_eq_true] at hbtl1
            by_cases hbk : hasBreakToOpt x name = true
            · simp only [hbk, if_true]
              simp only [hasBreakTo]
              rcases hbtl1 with hb | hb
              · simp [hasBreakToL, hb]
              · simp [hasBreakToL] at hb
            · simp only [hbk, Bool.false_eq_true, if_false]
              rcases hbtl1 with hb | hb
              · exact hb
              · simp [hasBreakToL] at hb
    | if_ c t f ty =>
        have hw2 := hw
        simp only [wfE, Bool.and_eq_true] at hw2
        obtain ⟨⟨⟨hwc, hwt⟩, hwf⟩, hclause⟩ := hw2
        have hdc : ∀ m, m ∈ boundBE c → m ∉ env :=
          fun m hm => hdisj m (by simp only [boundBE, List.mem_append]; tauto)
        have hdt : ∀ m, m ∈ boundBE t → m ∉ env :=
          fun m hm => hdisj m (by simp only [boundBE, List.mem_append]; tauto)
        cases f with
        | none =>
            simp only [dceE, hr, if_true] at hx ⊢
            set S1 := (dceE s c).1 with hS1
            set s2 := { S1 with ifStack := S1.reachable :: S1.ifStack } with hs2
            rw [visitIf_state] at hx
            try dsimp only at hx
            have hmem := dceLBE t s2 env n hwt hdt
              (fun y hy => rbStayE c s env hwc hrb y hy) hx
            rcases visitIf_out (dceE s2 t).1 (dceE s c).2.1 (dceE s2 t).2.1
              ExprOpt.none ty with ⟨hcu, hout⟩ | ⟨hcu, hout⟩
            · rw [hout]
              have hcd := dceINVE c s env hwc hdc hrb hr (isUnr_true_eq _ hcu)
              have h2 := dceE_dead s2 t hcd
              rcases hmem with hmem | hbt
              · exact dceLBE c s env n hwc hdc hrb hmem
              · rw [h2.2] at hbt
                simp [hasBreakTo] at hbt
            · rw [hout]
              rcases hmem with hmem | hbt
              · rcases dceLBE c s env n hwc hdc hrb hmem with h | h
                · exact Or.inl h
                · exact Or.inr (by simp [hasBreakTo, h])
              · exact Or.inr (by simp [hasBreakTo, hbt])
        | some fe =>
            have hwfe : wfE fe env = true := by simpa [wfO] using hwf
            have hdfe : ∀ m, m ∈ boundBE fe → m ∉ env :=
              fun m hm => hdisj m
                (by simp only [boundBE, boundBO, List.mem_append]; tauto)
            simp only [dceE, hr, if_true] at hx ⊢
            set S1 := (dceE s c).1 with hS1
            set s2 := { S1 with ifStack := S1.reachable :: S1.ifStack } with hs2
            set rt1 := (dceE s2 t).1 with hrt1
            set s4 : St := { rt1 with reachable := rt1.ifStack.headD false, ifStack := rt1.reachable :: rt1.ifStack.tail } with hs4
            rw [visitIf_state] at hx
            try dsimp only at hx
            have hmem := dceLBE fe s4 env n hwfe hdfe
              (fun y hy => rbStayE t s2 env hwt
                (fun z hz => rbStayE c s env hwc hrb z hz) y hy) hx
            have hchan : n ∈ s.reachableBreaks ∨
                hasBreakTo (dceE s c).2.1 n = true ∨
                hasBreakTo (dceE s2 t).2.1 n = true ∨
                hasBreakTo (dceE s4 fe).2.1 n = true := by
              rcases hmem with hmem | hbt
              · have hmem2 := dceLBE t s2 env n hwt hdt
                  (fun z hz => rbStayE c s env hwc hrb z hz) hmem
                rcases hmem2 with hmem2 | hbt
                · rcases dceLBE c s env n hwc hdc hrb hmem2 with h | h
                  · exact Or.inl h
                  · exact Or.inr (Or.inl h)
                · exact Or.inr (Or.inr (Or.inl hbt))
              · exact Or.inr (Or.inr (Or.inr hbt))
            rcases visitIf_out (dceE s4 fe).1 (dceE s c).2.1 (dceE s2 t).2.1
              (ExprOpt.some (dceE s4 fe).2.1) ty with ⟨hcu, hout⟩ | ⟨hcu, hout⟩
            · rw [hout]
              have hcd := dceINVE c s env hwc hdc hrb hr (isUnr_true_eq _ hcu)
              have h2 := dceE_dead s2 t hcd
              have hs4d : s4.reachable = false := by
                rw [hs4]
                try dsimp only
                rw [hrt1, h2.1, hs2]
                try dsimp only
                rw [List.headD_cons]
                exact hcd
              have h3 := dceE_dead s4 fe hs4d
              rcases hchan with h | h | h | h
              · exact Or.inl h
              · exact Or.inr h
              · rw [h2.2] at h
                simp [hasBreakTo] at h
              · rw [h3.2] at h
                simp [hasBreakTo] at h
            · rw [hout]
              rcases hchan with h | h | h | h
              · exact Or.inl h
              · exact Or.inr (by simp [hasBreakTo, hasBreakToO, h])
              · exact Or.inr (by simp [hasBreakTo, hasBreakToO, h])
              · exact Or.inr (by simp [hasBreakTo, hasBreakToO, h])
    | loop name b ty =>
        have hw2 := hw
        simp only [wfE, Bool.and_eq_true] at hw2
        obtain ⟨⟨hwb, hnsh⟩, hclause⟩ := hw2
        have hdisj2 := hdisjE_of_loop name b ty env hnsh hdisj
        have hrb2 := hrb_push name env s hrb
        simp only [dceE, hr, if_true] at hx ⊢
        rw [visitLoop_state] at hx
        have hmem : n ∈ (dceE s b).1.reachableBreaks := by
          cases name with
          | none => exact hx
          | some nb =>
              try dsimp only at hx
              exact ((mem_rbErase n nb _).mp hx).1
        rcases dceLBE b s (envPush name env) n hwb hdisj2 hrb2 hmem with h | h
        · exact Or.inl h
        · right
          rcases visitLoop_shape (dceE s b).1 name (dceE s b).2.1 ty
            with hsh | hsh
          · rw [hsh]
            simpa [hasBreakTo] using h
          · rw [hsh]
            exact h
    | br name v co ty =>
        have hw2 := hw
        simp only [wfE, Bool.and_eq_true] at hw2
        obtain ⟨⟨⟨hne, hwv⟩, hwc⟩, hcl⟩ := hw2
        cases v with
        | none =>
            cases co with
            | none =>
                simp only [dceE, hr, if_true] at hx ⊢
                simp only [dceO] at hx ⊢
                unfold visitBreak at hx ⊢
                simp only [isDead_none_eq, Bool.false_eq_true, if_false]
                  at hx ⊢
                try dsimp only at hx ⊢
                rcases mem_addBreak s name n hx with rfl | h
                · exact Or.inr (by simp [hasBreakTo])
                · exact Or.inl h
            | some cc =>
                have hwcc : wfE cc env = true := by simpa [wfO] using hwc
                have hdcc : ∀ m, m ∈ boundBE cc → m ∉ env :=
                  fun m hm => hdisj m
                    (by simp only [boundBE, boundBO, List.mem_append]; tauto)
                simp only [dceE, hr, if_true] at hx ⊢
                simp only [dceO] at hx ⊢
                unfold visitBreak at hx ⊢
                simp only [isDead_none_eq, Bool.false_eq_true, if_false]
                  at hx ⊢
                by_cases h2 : isDead (ExprOpt.some (dceE s cc).2.1) = true
                · simp only [h2, if_true] at hx ⊢
                  try dsimp only at hx ⊢
                  rcases dceLBE cc s env n hwcc hdcc hrb hx with h | h
                  · exact Or.inl h
                  · exact Or.inr h
                · simp only [h2, Bool.false_eq_true, if_false] at hx ⊢
                  try dsimp only at hx ⊢
                  rcases mem_addBreak _ name n hx with rfl | h
                  · exact Or.inr (by simp [hasBreakTo])
                  · rcases dceLBE cc s env n hwcc hdcc hrb h with h3 | h3
                    · exact Or.inl h3
                    · exact Or.inr
                        (by simp [hasBreakTo, hasBreakToO, h3])
        | some vv =>
            have hwvv : wfE vv env = true := by simpa [wfO] using hwv
            have hdvv : ∀ m, m ∈ boundBE vv → m ∉ env :=
              fun m hm => hdisj m
                (by simp only [boundBE, boundBO, List.mem_append]; tauto)
            simp only [dceE, hr, if_true] at hx ⊢
            simp only [dceO] at hx ⊢
            unfold visitBreak at hx ⊢
            by_cases h1 : isDead (ExprOpt.some (dceE s vv).2.1) = true
            · simp only [h1, if_true] at hx ⊢
              try dsimp only at hx ⊢
              have hvd := dceINVE vv s env hwvv hdvv hrb hr
                (isDead_some_eq _ h1)
              rw [dceO_dead (dceE s vv).1 co hvd] at hx
              rcases dceLBE vv s env n hwvv hdvv hrb hx with h | h
              · exact Or.inl h
              · exact Or.inr (by simpa [egetO] using h)
            · simp only [h1, Bool.false_eq_true, if_false] at hx ⊢
              cases co with
              | none =>
                  simp only [dceO] at hx ⊢
                  simp only [isDead_none_eq, Bool.false_eq_true, if_false]
                    at hx ⊢
                  try dsimp only at hx ⊢
                  rcases mem_addBreak _ name n hx with rfl | h
                  · exact Or.inr (by simp [hasBreakTo])
                  · rcases dceLBE vv s env n hwvv hdvv hrb h with h3 | h3
                    · exact Or.inl h3
                    · exact Or.inr
                        (by simp [hasBreakTo, hasBreakToO, h3])
              | some cc =>
                  have hwcc : wfE cc env = true := by simpa [wfO] using hwc
                  have hdcc : ∀ m, m ∈ boundBE cc → m ∉ env :=
                    fun m hm => hdisj m
                      (by simp only [boundBE, boundBO, List.mem_append]; tauto)
                  simp only [dceO] at hx ⊢
                  by_cases h2 :
                      isDead (ExprOpt.some (dceE (dceE s vv).1 cc).2.1) = true
                  · simp only [h2, if_true] at hx ⊢
                    try dsimp only at hx ⊢
                    have hchan : n ∈ s.reachableBreaks ∨
                        hasBreakTo (dceE s vv).2.1 n = true ∨
                        hasBreakTo (dceE (dceE s vv).1 cc).2.1 n = true := by
                      rcases dceLBE cc (dceE s vv).1 env n hwcc hdcc
                        (rbStayE vv s env hwvv hrb) hx with h | h
                      · rcases dceLBE vv s env n hwvv hdvv hrb h with h3 | h3
                        · exact Or.inl h3
                        · exact Or.inr (Or.inl h3)
                      · exact Or.inr (Or.inr h)
                    rcases hchan with h | h | h
                    · exact Or.inl h
                    · exact Or.inr
                        (by simp [hasBreakTo, hasBreakToL, hbt_dropOf, egetO, h])
                    · exact Or.inr
                        (by simp [hasBreakTo, hasBreakToL, hbt_dropOf, egetO, h])
                  · simp only [h2, Bool.false_eq_true, if_false] at hx ⊢
                    try dsimp only at hx ⊢
                    rcases mem_addBreak _ name n hx with rfl | h
                    · exact Or.inr (by simp [hasBreakTo])
                    · have hchan : n ∈ s.reachableBreaks ∨
                          hasBreakTo (dceE s vv).2.1 n = true ∨
                          hasBreakTo (dceE (dceE s vv).1 cc).2.1 n = true := by
                        rcases dceLBE cc (dceE s vv).1 env n hwcc hdcc
                          (rbStayE vv s env hwvv hrb) h with h4 | h4
                        · rcases dceLBE vv s env n hwvv hdvv hrb h4
                            with h5 | h5
                          · exact Or.inl h5
                          · exact Or.inr (Or.inl h5)
                        · exact Or.inr (Or.inr h4)
                      rcases hchan with h4 | h4 | h4
                      · exact Or.inl h4
                      · exact Or.inr
                          (by simp [hasBreakTo, hasBreakToO, h4])
                      · exact Or.inr
                          (by simp [hasBreakTo, hasBreakToO, h4])
    | switch_ ts d v cnd ty =>
        have hw2 := hw
        simp only [wfE, Bool.and_eq_true] at hw2
        obtain ⟨⟨⟨hts, hd2⟩, hwv⟩, hwc⟩ := hw2
        have hdc : ∀ m, m ∈ boundBE cnd → m ∉ env :=
          fun m hm => hdisj m
            (by simp only [boundBE, boundBO, List.mem_append]; tauto)
        cases v with
        | none =>
            simp only [dceE, hr, if_true] at hx ⊢
            simp only [dceO] at hx ⊢
            unfold visitSwitch at hx ⊢
            simp only [isDead_none_eq, Bool.false_eq_true, if_false] at hx ⊢
            by_cases h2 : isUnreachable (dceE s cnd).2.1 = true
            · simp only [h2, if_true] at hx ⊢
              try dsimp only at hx ⊢
              exact dceLBE cnd s env n hwc hdc hrb hx
            · simp only [h2, Bool.false_eq_true, if_false] at hx ⊢
              try dsimp only at hx ⊢
              rcases mem_addBreak _ d n hx with rfl | h
              · exact Or.inr (by simp [hasBreakTo])
              · rcases mem_foldl_addBreak ts (dceE s cnd).1 n h with h3 | h3
                · exact Or.inr (by simp [hasBreakTo, contains_true_iff_mem]; tauto)
                · rcases dceLBE cnd s env n hwc hdc hrb h3 with h4 | h4
                  · exact Or.inl h4
                  · exact Or.inr (by simp [hasBreakTo, h4])
        | some vv =>
            have hwvv : wfE vv env = true := by simpa [wfO] using hwv
            have hdvv : ∀ m, m ∈ boundBE vv → m ∉ env :=
              fun m hm => hdisj m
                (by simp only [boundBE, boundBO, List.mem_append]; tauto)
            simp only [dceE, hr, if_true] at hx ⊢
            simp only [dceO] at hx ⊢
            unfold visitSwitch at hx ⊢
            by_cases h1 : isDead (ExprOpt.some (dceE s vv).2.1) = true
            · simp only [h1, if_true] at hx ⊢
              try dsimp only at hx ⊢
              have hvd := dceINVE vv s env hwvv hdvv hrb hr
                (isDead_some_eq _ h1)
              rw [(dceE_dead (dceE s vv).1 cnd hvd).1] at hx
              rcases dceLBE vv s env n hwvv hdvv hrb hx with h | h
              · exact Or.inl h
              · exact Or.inr (by simpa [egetO] using h)
            · simp only [h1, Bool.false_eq_true, if_false] at hx ⊢
              have hchanF : n ∈ (dceE (dceE s vv).1 cnd).1.reachableBreaks →
                  n ∈ s.reachableBreaks ∨
                  hasBreakTo (dceE s vv).2.1 n = true ∨
                  hasBreakTo (dceE (dceE s vv).1 cnd).2.1 n = true := by
                intro hx2
                rcases dceLBE cnd (dceE s vv).1 env n hwc hdc
                  (rbStayE vv s env hwvv hrb) hx2 with h | h
                · rcases dceLBE vv s env n hwvv hdvv hrb h with h3 | h3
                  · exact Or.inl h3
                  · exact Or.inr (Or.inl h3)
                · exact Or.inr (Or.inr h)
              by_cases h2 :
                  isUnreachable (dceE (dceE s vv).1 cnd).2.1 = true
              · simp only [h2, if_true] at hx ⊢
                try dsimp only at hx ⊢
                rcases hchanF hx with h | h | h
                · exact Or.inl h
                · exact Or.inr
                    (by simp [hasBreakTo, hasBreakToL, hbt_dropOf, h])
                · exact Or.inr
                    (by simp [hasBreakTo, hasBreakToL, hbt_dropOf, h])
              · simp only [h2, Bool.false_eq_true, if_false] at hx ⊢
                try dsimp only at hx ⊢
                rcases mem_addBreak _ d n hx with rfl | h
                · exact Or.inr (by simp [hasBreakTo])
                · rcases mem_foldl_addBreak ts (dceE (dceE s vv).1 cnd).1 n h
                    with h3 | h3
                  · exact Or.inr (by simp [hasBreakTo, contains_true_iff_mem]; tauto)
                  · rcases hchanF h3 with h4 | h4 | h4
                    · exact Or.inl h4
                    · exact Or.inr
                        (by simp [hasBreakTo, hasBreakToO, h4])
                    · exact Or.inr (by simp [hasBreakTo, h4])
    | call target ops ty =>
        have hw2 := hw
        simp only [wfE, Bool.and_eq_true] at hw2
        have hdo : ∀ m, m ∈ boundBL ops → m ∉ env :=
          fun m hm => hdisj m (by simpa [boundBE] using hm)
        simp only [dceE, hr, if_true] at hx ⊢
        rw [visitCallLike_state] at hx
        rcases dceLBL ops s env n hw2.1 hdo hrb hx with h | h
        · exact Or.inl h
        · right
          unfold visitCallLike
          cases hk : handleCall (dceL s ops).2.1 ty with
          | none =>
              try dsimp only
              simpa [hasBreakTo] using h
          | some r =>
              try dsimp only
              exact handleCall_breaks (dceL s ops).2.1 ty r n hk
                (dceSBL ops s env n hw2.1 hdo hrb) h
    | callImport target ops ty =>
        have hw2 := hw
        simp only [wfE, Bool.and_eq_true] at hw2
        have hdo : ∀ m, m ∈ boundBL ops → m ∉ env :=
          fun m hm => hdisj m (by simpa [boundBE] using hm)
        simp only [dceE, hr, if_true] at hx ⊢
        rw [visitCallLike_state] at hx
        rcases dceLBL ops s env n hw2.1 hdo hrb hx with h | h
        · exact Or.inl h
        · right
          unfold visitCallLike
          cases hk : handleCall (dceL s ops).2.1 ty with
          | none =>
              try dsimp only
              simpa [hasBreakTo] using h
          | some r =>
              try dsimp only
              exact handleCall_breaks (dceL s ops).2.1 ty r n hk
                (dceSBL ops s env n hw2.1 hdo hrb) h
    | host ops ty =>
        have hw2 := hw
        simp only [wfE, Bool.and_eq_true] at hw2
        have hdo : ∀ m, m ∈ boundBL ops → m ∉ env :=
          fun m hm => hdisj m (by simpa [boundBE] using hm)
        simp only [dceE, hr, if_true] at hx ⊢
        rw [visitCallLike_state] at hx
        rcases dceLBL ops s env n hw2.1 hdo hrb hx with h | h
        · exact Or.inl h
        · right
          unfold visitCallLike
          cases hk : handleCall (dceL s ops).2.1 ty with
          | none =>
              try dsimp only
              simpa [hasBreakTo] using h
          | some r =>
              try dsimp only
              exact handleCall_breaks (dceL s ops).2.1 ty r n hk
                (dceSBL ops s env n hw2.1 hdo hrb) h
    | callIndirect ops target ty =>
        have hw2 := hw
        simp only [wfE, Bool.and_eq_true] at hw2
        obtain ⟨⟨hwo, hwt⟩, hclause⟩ := hw2
        have hdo : ∀ m, m ∈ boundBL ops → m ∉ env :=
          fun m hm => hdisj m (by simp only [boundBE, List.mem_append]; tauto)
        have hdt : ∀ m, m ∈ boundBE target → m ∉ env :=
          fun m hm => hdisj m (by simp only [boundBE, List.mem_append]; tauto)
        simp only [dceE, hr, if_true] at hx ⊢
        rw [visitCallIndirect_state] at hx
        have hchan : n ∈ s.reachableBreaks ∨
            hasBreakToL (dceL s ops).2.1 n = true ∨
            hasBreakTo (dceE (dceL s ops).1 target).2.1 n = true := by
          rcases dceLBE target (dceL s ops).1 env n hwt hdt
            (rbStayL ops s env hwo hrb) hx with h | h
          · rcases dceLBL ops s env n hwo hdo hrb h with h2 | h2
            · exact Or.inl h2
            · exact Or.inr (Or.inl h2)
          · exact Or.inr (Or.inr h)
        unfold visitCallIndirect
        cases hk : handleCall (dceL s ops).2.1 ty with
        | some r =>
            try dsimp only
            have hops := dceINVL ops s env hwo hdo hrb
              (handleCall_some_hasUnr _ ty r hk)
            have h2 := dceE_dead (dceL s ops).1 target hops
            rcases hchan with h | h | h
            · exact Or.inl h
            · exact Or.inr (handleCall_breaks _ ty r n hk
                (dceSBL ops s env n hwo hdo hrb) h)
            · rw [h2.2] at h
              simp [hasBreakTo] at h
        | none =>
            try dsimp only
            by_cases h2 : isUnreachable (dceE (dceL s ops).1 target).2.1 = true
            · simp only [h2, if_true]
              try dsimp only
              rcases hchan with h | h | h
              · exact Or.inl h
              · exact Or.inr (by simp [hasBreakTo, hbtL_eappend,
                  hbtL_emap_dropOf, h])
              · exact Or.inr (by simp [hasBreakTo, hbtL_eappend,
                  hbtL_emap_dropOf, hasBreakToL, h])
            · simp only [h2, Bool.false_eq_true, if_false]
              rcases hchan with h | h | h
              · exact Or.inl h
              · exact Or.inr (by simp [hasBreakTo, h])
              · exact Or.inr (by simp [hasBreakTo, h])
    | getLocal i ty =>
        simp only [dceE, hr, if_true] at hx
        exact Or.inl hx
    | getGlobal nm ty =>
        simp only [dceE, hr, if_true] at hx
        exact Or.inl hx
    | const ty =>
        simp only [dceE, hr, if_true] at hx
        exact Or.inl hx
    | nop =>
        simp only [dceE, hr, if_true] at hx
        exact Or.inl hx
    | unreachable =>
        simp only [dceE, hr, if_true] at hx
        exact Or.inl hx
    | setLocal i vv ty =>
        have hw2 := hw
        simp only [wfE, Bool.and_eq_true] at hw2
        have hdv : ∀ m, m ∈ boundBE vv → m ∉ env :=
          fun m hm => hdisj m (by simpa [boundBE] using hm)
        simp only [dceE, hr, if_true] at hx ⊢
        rw [visitSetLocal_state] at hx
        rcases dceLBE vv s env n hw2.1 hdv hrb hx with h | h
        · exact Or.inl h
        · right
          unfold visitSetLocal
          by_cases hu : isUnreachable (dceE s vv).2.1 = true
          · simp only [hu, if_true]
            try dsimp only
            exact h
          · simp only [hu, Bool.false_eq_true, if_false]
            try dsimp only
            simpa [hasBreakTo] using h
    | setGlobal nm vv ty =>
        have hw2 := hw
        simp only [wfE, Bool.and_eq_true] at hw2
        have hdv : ∀ m, m ∈ boundBE vv → m ∉ env :=
          fun m hm => hdisj m (by simpa [boundBE] using hm)
        simp only [dceE, hr, if_true] at hx ⊢
        try dsimp only at hx ⊢
        rcases dceLBE vv s env n hw2.1 hdv hrb hx with h | h
        · exact Or.inl h
        · exact Or.inr (by simpa [hasBreakTo] using h)
    | load p ty =>
        have hw2 := hw
        simp only [wfE, Bool.and_eq_true] at hw2
        have hdp : ∀ m, m ∈ boundBE p → m ∉ env :=
          fun m hm => hdisj m (by simpa [boundBE] using hm)
        simp only [dceE, hr, if_true] at hx ⊢
        rw [visitLoad_state] at hx
        rcases dceLBE p s env n hw2.1 hdp hrb hx with h | h
        · exact Or.inl h
        · right
          unfold visitLoad
          by_cases hu : isUnreachable (dceE s p).2.1 = true
          · simp only [hu, if_true]
            try dsimp only
            exact h
          · simp only [hu, Bool.false_eq_true, if_false]
            try dsimp only
            simpa [hasBreakTo] using h
    | unary vv ty =>
        have hw2 := hw
        simp only [wfE, Bool.and_eq_true] at hw2
        have hdv : ∀ m, m ∈ boundBE vv → m ∉ env :=
          fun m hm => hdisj m (by simpa [boundBE] using hm)
        simp only [dceE, hr, if_true] at hx ⊢
        rw [visitUnary_state] at hx
        rcases dceLBE vv s env n hw2.1 hdv hrb hx with h | h
        · exact Or.inl h
        · right
          unfold visitUnary
          by_cases hu : isUnreachable (dceE s vv).2.1 = true
          · simp only [hu, if_true]
            try dsimp only
            exact h
          · simp only [hu, Bool.false_eq_true, if_false]
            try dsimp only
            simpa [hasBreakTo] using h
    | drop vv ty =>
        have hw2 := hw
        simp only [wfE, Bool.and_eq_true] at hw2
        have hdv : ∀ m, m ∈ boundBE vv → m ∉ env :=
          fun m hm => hdisj m (by simpa [boundBE] using hm)
        simp only [dceE, hr, if_true] at hx ⊢
        rw [visitDrop_state] at hx
        rcases dceLBE vv s env n hw2.1 hdv hrb hx with h | h
        · exact Or.inl h
        · right
          unfold visitDrop
          by_cases hu : isUnreachable (dceE s vv).2.1 = true
          · simp only [hu, if_true]
            try dsimp only
            exact h
          · simp only [hu, Bool.false_eq_true, if_false]
            try dsimp only
            simpa [hasBreakTo] using h
    | store p vv ty =>
        have hw2 := hw
        simp only [wfE, Bool.and_eq_true] at hw2
        obtain ⟨⟨hwp, hwv⟩, hclause⟩ := hw2
        have hdp : ∀ m, m ∈ boundBE p → m ∉ env :=
          fun m hm => hdisj m (by simp only [boundBE, List.mem_append]; tauto)
        have hdv : ∀ m, m ∈ boundBE vv → m ∉ env :=
          fun m hm => hdisj m (by simp only [boundBE, List.mem_append]; tauto)
        simp only [dceE, hr, if_true] at hx ⊢
        rw [visitStore_state] at hx
        have hchan : n ∈ s.reachableBreaks ∨
            hasBreakTo (dceE s p).2.1 n = true ∨
            hasBreakTo (dceE (dceE s p).1 vv).2.1 n = true := by
          rcases dceLBE vv (dceE s p).1 env n hwv hdv
            (rbStayE p s env hwp hrb) hx with h | h
          · rcases dceLBE p s env n hwp hdp hrb h with h2 | h2
            · exact Or.inl h2
            · exact Or.inr (Or.inl h2)
          · exact Or.inr (Or.inr h)
        unfold visitStore
        by_cases h1 : isUnreachable (dceE s p).2.1 = true
        · simp only [h1, if_true]
          try dsimp only
          have hpd := dceINVE p s env hwp hdp hrb hr (isUnr_true_eq _ h1)
          have h2 := dceE_dead (dceE s p).1 vv hpd
          rcases hchan with h | h | h
          · exact Or.inl h
          · exact Or.inr h
          · rw [h2.2] at h
            simp [hasBreakTo] at h
        · simp only [h1, Bool.false_eq_true, if_false]
          by_cases h2 : isUnreachable (dceE (dceE s p).1 vv).2.1 = true
          · simp only [h2, if_true]
            try dsimp only
            rcases hchan with h | h | h
            · exact Or.inl h
            · exact Or.inr (by simp [hasBreakTo, hasBreakToL, hbt_dropOf, h])
            · exact Or.inr (by simp [hasBreakTo, hasBreakToL, hbt_dropOf, h])
          · simp only [h2, Bool.false_eq_true, if_false]
            try dsimp only
            rcases hchan with h | h | h
            · exact Or.inl h
            · exact Or.inr (by simp [hasBreakTo, h])
            · exact Or.inr (by simp [hasBreakTo, h])
    | binary lf rg ty =>
        have hw2 := hw
        simp only [wfE, Bool.and_eq_true] at hw2
        obtain ⟨⟨hwl2, hwr⟩, hclause⟩ := hw2
        have hdl : ∀ m, m ∈ boundBE lf → m ∉ env :=
          fun m hm => hdisj m (by simp only [boundBE, List.mem_append]; tauto)
        have hdr : ∀ m, m ∈ boundBE rg → m ∉ env :=
          fun m hm => hdisj m (by simp only [boundBE, List.mem_append]; tauto)
        simp only [dceE, hr, if_true] at hx ⊢
        rw [visitBinary_state] at hx
        have hchan : n ∈ s.reachableBreaks ∨
            hasBreakTo (dceE s lf).2.1 n = true ∨
            hasBreakTo (dceE (dceE s lf).1 rg).2.1 n = true := by
          rcases dceLBE rg (dceE s lf).1 env n hwr hdr
            (rbStayE lf s env hwl2 hrb) hx with h | h
          · rcases dceLBE lf s env n hwl2 hdl hrb h with h2 | h2
            · exact Or.inl h2
            · exact Or.inr (Or.inl h2)
          · exact Or.inr (Or.inr h)
        unfold visitBinary
        by_cases h1 : isUnreachable (dceE s lf).2.1 = true
        · simp only [h1, if_true]
          try dsimp only
          have hpd := dceINVE lf s env hwl2 hdl hrb hr (isUnr_true_eq _ h1)
          have h2 := dceE_dead (dceE s lf).1 rg hpd
          rcases hchan with h | h | h
          · exact Or.inl h
          · exact Or.inr h
          · rw [h2.2] at h
            simp [hasBreakTo] at h
        · simp only [h1, Bool.false_eq_true, if_false]
          by_cases h2 : isUnreachable (dceE (dceE s lf).1 rg).2.1 = true
          · simp only [h2, if_true]
            try dsimp only
            rcases hchan with h | h | h
            · exact Or.inl h
            · exact Or.inr (by simp [hasBreakTo, hasBreakToL, hbt_dropOf, h])
            · exact Or.inr (by simp [hasBreakTo, hasBreakToL, hbt_dropOf, h])
          · simp only [h2, Bool.false_eq_true, if_false]
            try dsimp only
            rcases hchan with h | h | h
            · exact Or.inl h
            · exact Or.inr (by simp [hasBreakTo, h])
            · exact Or.inr (by simp [hasBreakTo, h])
    | select tt ff cnd ty =>
        have hw2 := hw
        simp only [wfE, Bool.and_eq_true] at hw2
        obtain ⟨⟨⟨hwtt, hwff⟩, hwcd⟩, hclause⟩ := hw2
        have hdtt : ∀ m, m ∈ boundBE tt → m ∉ env :=
          fun m hm => hdisj m (by simp only [boundBE, List.mem_append]; tauto)
        have hdff : ∀ m, m ∈ boundBE ff → m ∉ env :=
          fun m hm => hdisj m (by simp only [boundBE, List.mem_append]; tauto)
        have hdcd : ∀ m, m ∈ boundBE cnd → m ∉ env :=
          fun m hm => hdisj m (by simp only [boundBE, List.mem_append]; tauto)
        simp only [dceE, hr, if_true] at hx ⊢
        rw [visitSelect_state] at hx
        have hchan : n ∈ s.reachableBreaks ∨
            hasBreakTo (dceE s tt).2.1 n = true ∨
            hasBreakTo (dceE (dceE s tt).1 ff).2.1 n = true ∨
            hasBreakTo (dceE (dceE (dceE s tt).1 ff).1 cnd).2.1 n = true := by
          rcases dceLBE cnd (dceE (dceE s tt).1 ff).1 env n hwcd hdcd
            (rbStayE ff (dceE s tt).1 env hwff
              (rbStayE tt s env hwtt hrb)) hx with h | h
          · rcases dceLBE ff (dceE s tt).1 env n hwff hdff
              (rbStayE tt s env hwtt hrb) h with h2 | h2
            · rcases dceLBE tt s env n hwtt hdtt hrb h2 with h3 | h3
              · exact Or.inl h3
              · exact Or.inr (Or.inl h3)
            · exact Or.inr (Or.inr (Or.inl h2))
          · exact Or.inr (Or.inr (Or.inr h))
        unfold visitSelect
        by_cases h1 : isUnreachable (dceE s tt).2.1 = true
        · simp only [h1, if_true]
          try dsimp only
          have hpd := dceINVE tt s env hwtt hdtt hrb hr (isUnr_true_eq _ h1)
          have e2 := dceE_dead (dceE s tt).1 ff hpd
          have e3 := dceE_dead (dceE (dceE s tt).1 ff).1 cnd
            (by rw [e2.1]; exact hpd)
          rcases hchan with h | h | h | h
          · exact Or.inl h
          · exact Or.inr h
          · rw [e2.2] at h
            simp [hasBreakTo] at h
          · rw [e3.2] at h
            simp [hasBreakTo] at h
        · simp only [h1, Bool.false_eq_true, if_false]
          by_cases h2 : isUnreachable (dceE (dceE s tt).1 ff).2.1 = true
          · simp only [h2, if_true]
            try dsimp only
            by_cases hvr : (dceE s tt).1.reachable = true
            · have hfd := dceINVE ff (dceE s tt).1 env hwff hdff
                (rbStayE tt s env hwtt hrb) hvr (isUnr_true_eq _ h2)
              have e3 := dceE_dead (dceE (dceE s tt).1 ff).1 cnd hfd
              rcases hchan with h | h | h | h
              · exact Or.inl h
              · exact Or.inr
                  (by simp [hasBreakTo, hasBreakToL, hbt_dropOf, h])
              · exact Or.inr
                  (by simp [hasBreakTo, hasBreakToL, hbt_dropOf, h])
              · rw [e3.2] at h
                simp [hasBreakTo] at h
            · simp only [Bool.not_eq_true] at hvr
              have e2 := dceE_dead (dceE s tt).1 ff hvr
              have e3 := dceE_dead (dceE (dceE s tt).1 ff).1 cnd
                (by rw [e2.1]; exact hvr)
              rcases hchan with h | h | h | h
              · exact Or.inl h
              · exact Or.inr
                  (by simp [hasBreakTo, hasBreakToL, hbt_dropOf, h])
              · exact Or.inr
                  (by simp [hasBreakTo, hasBreakToL, hbt_dropOf, h])
              · rw [e3.2] at h
                simp [hasBreakTo] at h
          · simp only [h2, Bool.false_eq_true, if_false]
            by_cases h3 :
                isUnreachable (dceE (dceE (dceE s tt).1 ff).1 cnd).2.1 = true
            · simp only [h3, if_true]
              try dsimp only
              rcases hchan with h | h | h | h
              · exact Or.inl h
              · exact Or.inr
                  (by simp [hasBreakTo, hasBreakToL, hbt_dropOf, h])
              · exact Or.inr
                  (by simp [hasBreakTo, hasBreakToL, hbt_dropOf, h])
              · exact Or.inr
                  (by simp [hasBreakTo, hasBreakToL, hbt_dropOf, h])
            · simp only [h3, Bool.false_eq_true, if_false]
              try dsimp only
              rcases hchan with h | h | h | h
              · exact Or.inl h
              · exact Or.inr (by simp [hasBreakTo, h])
              · exact Or.inr (by simp [hasBreakTo, h])
              · exact Or.inr (by simp [hasBreakTo, h])
    | ret v =>
        have hw2 : wfO v env = true := by simpa [wfE] using hw
        cases v with
        | none =>
            simp only [dceE, hr, if_true] at hx ⊢
            simp only [dceO] at hx ⊢
            unfold visitReturn at hx ⊢
            simp only [isDead_none_eq, Bool.false_eq_true, if_false] at hx ⊢
            try dsimp only at hx ⊢
            exact Or.inl hx
        | some vv =>
            have hwvv : wfE vv env = true := by simpa [wfO] using hw2
            have hdvv : ∀ m, m ∈ boundBE vv → m ∉ env :=
              fun m hm => hdisj m (by simpa [boundBE, boundBO] using hm)
            simp only [dceE, hr, if_true] at hx ⊢
            simp only [dceO] at hx ⊢
            unfold visitReturn at hx ⊢
            by_cases h1 : isDead (ExprOpt.some (dceE s vv).2.1) = true
            · simp only [h1, if_true] at hx ⊢
              try dsimp only at hx ⊢
              rcases dceLBE vv s env n hwvv hdvv hrb hx with h | h
              · exact Or.inl h
              · exact Or.inr (by simpa [egetO] using h)
            · simp only [h1, Bool.false_eq_true, if_false] at hx ⊢
              try dsimp only at hx ⊢
              rcases dceLBE vv s env n hwvv hdvv hrb hx with h | h
              · exact Or.inl h
              · exact Or.inr (by simp [hasBreakTo, hasBreakToO, h])
  · simp only [Bool.not_eq_true] at hr
    rw [(dceE_dead s e hr).1] at hx
    exact Or.inl hx

/-- `dceLBE` lifted to child lists. -/
theorem dceLBL (l : ExprList) (s : St) (env : List Name) (n : Name)
    (hw : wfL l env = true)
    (hdisj : ∀ m, m ∈ boundBL l → m ∉ env)
    (hrb : ∀ x, x ∈ s.reachableBreaks → x ∈ env)
    (hx : n ∈ (dceL s l).1.reachableBreaks) :
    n ∈ s.reachableBreaks ∨ hasBreakToL (dceL s l).2.1 n = true := by
  cases l with
  | nil =>
      simp only [dceL] at hx
      exact Or.inl hx
  | cons hd tl =>
      have hw2 := hw
      simp only [wfL, Bool.and_eq_true] at hw2
      simp only [dceL] at hx ⊢
      have h1 := dceLBL tl (dceE s hd).1 env n hw2.2
        (fun m hm => hdisj m (by simp only [boundBL, List.mem_append]; tauto))
        (rbStayE hd s env hw2.1 hrb) hx
      rcases h1 with h | h
      · have h2 := dceLBE hd s env n hw2.1
          (fun m hm => hdisj m
            (by simp only [boundBL, List.mem_append]; tauto)) hrb h
        rcases h2 with h3 | h3
        · exact Or.inl h3
        · exact Or.inr (by simp [hasBreakToL, h3])
      · exact Or.inr (by simp [hasBreakToL, h])

/-- Truncating the processed list at its first unreachable-typed element
erases no break: everything after that element was converted to
`Unreachable`. -/
theorem dceSBL (l : ExprList) (s : St) (env : List Name) (n : Name)
    (hw : wfL l env = true)
    (hdisj : ∀ m, m ∈ boundBL l → m ∉ env)
    (hrb : ∀ x, x ∈ s.reachableBreaks → x ∈ env) :
    hasBreakToL (shorten (dceL s l).2.1) n = hasBreakToL (dceL s l).2.1 n := by
  by_cases hr : s.reachable = true
  · cases l with
    | nil => simp [dceL, shorten]
    | cons hd tl =>
        have hw2 := hw
        simp only [wfL, Bool.and_eq_true] at hw2
        simp only [dceL]
        cases tl with
        | nil =>
            simp only [dceL]
            simp [shorten]
        | cons b bs =>
            by_cases hu : typeOf (dceE s hd).2.1 = Typ.unreachable
            · have hdead := dceINVE hd s env hw2.1
                (fun m hm => hdisj m
                  (by simp only [boundBL, List.mem_append]; tauto))
                hrb hr hu
              have htl := (dceL_dead (dceE s hd).1 (.cons b bs) hdead).2
              rw [htl]
              simp only [killAll]
              rw [show shorten (ExprList.cons (dceE s hd).2.1
                  (ExprList.cons Expr.unreachable (killAll bs))) =
                  ExprList.cons (dceE s hd).2.1 ExprList.nil from
                by simp [shorten, hu]]
              simp [hasBreakToL, hasBreakTo, killAll_no_breaks]
            · have ih := dceSBL (.cons b bs) (dceE s hd).1 env n hw2.2
                (fun m hm => hdisj m
                  (by simp only [boundBL, List.mem_append] at hm ⊢; tauto))
                (rbStayE hd s env hw2.1 hrb)
              have hT : (dceL (dceE s hd).1 (ExprList.cons b bs)).2.1 =
                  ExprList.cons (dceE (dceE s hd).1 b).2.1
                    (dceL (dceE (dceE s hd).1 b).1 bs).2.1 := by
                simp only [dceL]
              rw [hT] at ih
              rw [hT, shorten_cons_of_ne _ _ _ hu]
              simp only [hasBreakToL]
              rw [ih]
              simp [hasBreakToL]
  · simp only [Bool.not_eq_true] at hr
    rw [(dceL_dead s l hr).2]
    rw [hbtL_shorten_killAll]
    rw [killAll_no_breaks]

end

theorem dropOf_eq_drop (e : Expr) (h : ¬ typeOf e = Typ.unreachable) :
    dropOf e = Expr.drop e Typ.none := by
  unfold dropOf makeDrop
  rw [if_neg h, if_neg h]

theorem reprocess_drop (s : St) (v : Expr) (s1 : St)
    (hr : s.reachable = true)
    (hv1 : (dceE s v).1 = s1) (hv2 : (dceE s v).2.1 = v)
    (hnu : ¬ typeOf v = Typ.unreachable) :
    (dceE s (Expr.drop v Typ.none)).1 = s1 ∧
    (dceE s (Expr.drop v Typ.none)).2.1 = Expr.drop v Typ.none := by
  simp only [dceE, hr, if_true]
  unfold visitDrop
  rw [hv1, hv2]
  have hfu : isUnreachable v = false := by simp [isUnreachable, hnu]
  simp [hfu]

theorem dceL_two (s : St) (A B : Expr) (s1 s2 : St)
    (hA1 : (dceE s A).1 = s1) (hA2 : (dceE s A).2.1 = A)
    (hB1 : (dceE s1 B).1 = s2) (hB2 : (dceE s1 B).2.1 = B) :
    (dceL s (ExprList.cons A (ExprList.cons B ExprList.nil))).1 = s2 ∧
    (dceL s (ExprList.cons A (ExprList.cons B ExprList.nil))).2.1 =
      ExprList.cons A (ExprList.cons B ExprList.nil) := by
  simp only [dceL]
  rw [hA1, hA2, hB1, hB2]
  exact ⟨rfl, rfl⟩

theorem dceL_three (s : St) (A B C : Expr) (s1 s2 s3 : St)
    (hA1 : (dceE s A).1 = s1) (hA2 : (dceE s A).2.1 = A)
    (hB1 : (dceE s1 B).1 = s2) (hB2 : (dceE s1 B).2.1 = B)
    (hC1 : (dceE s2 C).1 = s3) (hC2 : (dceE s2 C).2.1 = C) :
    (dceL s (ExprList.cons A (ExprList.cons B (ExprList.cons C ExprList.nil)))).1
      = s3 ∧
    (dceL s (ExprList.cons A (ExprList.cons B (ExprList.cons C
      ExprList.nil)))).2.1 =
      ExprList.cons A (ExprList.cons B (ExprList.cons C ExprList.nil)) := by
  simp only [dceL]
  rw [hA1, hA2, hB1, hB2, hC1, hC2]
  exact ⟨rfl, rfl⟩

theorem reprocess_block_generic (s sf : St) (L : ExprList) (ty : Typ)
    (hr : s.reachable = true)
    (hL1 : (dceL s L).1 = sf) (hL2 : (dceL s L).2.1 = L)
    (hsf : sf.reachable = false)
    (hlen : elength L > 1)
    (hne : noEarlyUnr L = true) :
    (dceE s (Expr.block Option.none L ty)).1 = sf ∧
    (dceE s (Expr.block Option.none L ty)).2.1 = Expr.block Option.none L ty := by
  simp only [dceE, hr, if_true]
  rw [hL1, hL2]
  unfold visitBlock
  have hcond : sf.reachable = false ∧ elength L > 1 := ⟨hsf, hlen⟩
  rw [if_pos hcond]
  rw [shorten_eq_self L hne]
  cases L with
  | nil => simp [elength] at hlen
  | cons a tl =>
      cases tl with
      | nil => simp [elength] at hlen
      | cons b r2 =>
          try dsimp only
          exact ⟨rfl, rfl⟩

theorem dceL_elength : ∀ (l : ExprList) (s : St),
    elength (dceL s l).2.1 = elength l
  | .nil, s => by simp [dceL]
  | .cons hd tl, s => by
      simp only [dceL]
      simp [elength, dceL_elength tl (dceE s hd).1]
termination_by l => sizeOf l

theorem elength_eappend : ∀ (a b : ExprList),
    elength (eappend a b) = elength a + elength b
  | .nil, b => by simp [eappend, elength]
  | .cons hd tl, b => by
      simp [eappend, elength, elength_eappend tl b]
      omega

set_option maxHeartbeats 3000000

mutual

/-- Reprocessing the output of the walk from the same incoming state changes
nothing: state and tree components are reproduced. -/
theorem dceSLE (e : Expr) (s : St) (env : List Name)
    (hw : wfE e env = true)
    (hci : ciOKE e = true)
    (hdisj : ∀ m, m ∈ boundBE e → m ∉ env)
    (hrb : ∀ x, x ∈ s.reachableBreaks → x ∈ env) :
    (dceE s (dceE s e).2.1).1 = (dceE s e).1 ∧
    (dceE s (dceE s e).2.1).2.1 = (dceE s e).2.1 := by
  by_cases hr : s.reachable = true
  · cases e with
    | block name list ty =>
        have hw2 := hw
        simp only [wfE, Bool.and_eq_true] at hw2
        obtain ⟨⟨hwl, hnsh⟩, hclause⟩ := hw2
        have hcil : ciOKL list = true := by simpa [ciOKE] using hci
        have hdisj2 := hdisjL_of_block name list ty env hnsh hdisj
        have hrb2 := hrb_push name env s hrb
        simp only [dceE, hr, if_true]
        obtain ⟨l1, hl1, hout⟩ :=
          visitBlock_out (dceL s list).1 name (dceL s list).2.1 ty
        have hR1 : (dceL s l1).1 = (dceL s list).1 ∧ (dceL s l1).2.1 = l1 := by
          rcases hl1 with hl1 | ⟨hsd, hlen, hl1⟩
          · rw [hl1]
            exact dceSLL list s (envPush name env) hwl hcil hdisj2 hrb2
          · rw [hl1]
            exact dceSLLshort list s (envPush name env) hwl hcil hdisj2 hrb2 hr
        have hVB : visitBlock (dceL s list).1 name l1 ty =
            visitBlock (dceL s list).1 name (dceL s list).2.1 ty := by
          rcases hl1 with hl1 | ⟨hsd, hlen, hl1⟩
          · rw [hl1]
          · rw [hl1]
            exact visitBlock_reshorten _ name _ ty hsd hlen
        rcases hout with hout | ⟨x, hx1, hxu, hout⟩
        · rw [hout]
          simp only [dceE, hr, if_true]
          rw [hR1.1, hR1.2, hVB]
          exact ⟨rfl, hout⟩
        · by_cases hbk : hasBreakToOpt x name = true
          · rw [hout]
            unfold simplifyToContentsWithPossibleTypeChange
            simp only [hbk, if_true]
            rw [hx1] at hR1 hVB
            simp only [dceE, hr, if_true]
            rw [hR1.1, hR1.2, hVB]
            refine ⟨rfl, ?_⟩
            rw [hout]
            unfold simplifyToContentsWithPossibleTypeChange
            simp only [hbk, if_true]
          · simp only [Bool.not_eq_true] at hbk
            rw [hout]
            unfold simplifyToContentsWithPossibleTypeChange
            simp only [hbk, Bool.false_eq_true, if_false]
            have hfacts : ∃ a, (∃ rest, list = ExprList.cons a rest) ∧
                x = (dceE s a).2.1 ∧ (dceL s list).1 = (dceE s a).1 ∧
                (∀ nb, name = Option.some nb →
                  ¬ nb ∈ (dceL s list).1.reachableBreaks) := by
              rcases hl1 with hl1 | ⟨hsd, hlen, hl1⟩
              · rw [hx1] at hl1
                cases list with
                | nil =>
                    simp only [dceL] at hl1
                    exact absurd hl1 (by simp)
                | cons a tl =>
                    cases tl with
                    | cons b bs =>
                        simp only [dceL] at hl1
                        exact absurd hl1 (by simp)
                    | nil =>
                        simp only [dceL] at hl1
                        have hx : x = (dceE s a).2.1 := by
                          injection hl1 with h1 h2
                        refine ⟨a, ⟨.nil, rfl⟩, hx, by simp only [dceL], ?_⟩
                        intro nb hname hmem
                        subst hname
                        rcases dceLBL (.cons a .nil) s
                          (envPush (Option.some nb) env) nb hwl hdisj2 hrb2
                          hmem with h | h
                        · exact hdisj nb (by simp [boundBE, envPush]) (hrb nb h)
                        · simp only [dceL, hasBreakToL, Bool.or_eq_true] at h
                          rcases h with h | h
                          · rw [← hx] at h
                            simp only [hasBreakToOpt] at hbk
                            rw [hbk] at h
                            exact absurd h (by decide)
                          · simp [hasBreakToL] at h
              · rw [hx1] at hl1
                cases list with
                | nil =>
                    simp only [dceL] at hl1
                    simp [shorten] at hl1
                | cons a tl =>
                    have hwa : wfE a (envPush name env) = true := by
                      simp only [wfL, Bool.and_eq_true] at hwl
                      exact hwl.1
                    have hda : ∀ m, m ∈ boundBE a → m ∉ envPush name env :=
                      fun m hm => hdisj2 m
                        (by simp only [boundBL, List.mem_append]; tauto)
                    have hcc : (dceL s (.cons a tl)).2.1 =
                        ExprList.cons (dceE s a).2.1
                          (dceL (dceE s a).1 tl).2.1 := by
                      simp only [dceL]
                    rw [hcc] at hl1
                    have hxa : x = (dceE s a).2.1 ∧
                        typeOf (dceE s a).2.1 = Typ.unreachable := by
                      cases htl : (dceL (dceE s a).1 tl).2.1 with
                      | nil =>
                          rw [hcc, htl] at hlen
                          simp [elength] at hlen
                      | cons u us =>
                          rw [htl] at hl1
                          by_cases hua :
                              typeOf (dceE s a).2.1 = Typ.unreachable
                          · rw [show shorten (ExprList.cons (dceE s a).2.1
                                (ExprList.cons u us)) =
                                ExprList.cons (dceE s a).2.1 ExprList.nil from
                              by simp [shorten, hua]] at hl1
                            have hx : x = (dceE s a).2.1 := by
                              injection hl1 with h1 h2
                            exact ⟨hx, hua⟩
                          · rw [shorten_cons_of_ne _ _ _ hua] at hl1
                            obtain ⟨hh, tt, hsh⟩ := shorten_shape u us
                            rw [hsh] at hl1
                            injection hl1 with h1 h2
                            exact absurd h2 (by simp)
                    obtain ⟨hx, hua⟩ := hxa
                    have hdead := dceINVE a s (envPush name env) hwa hda hrb2
                      hr hua
                    have htl2 := dceL_dead (dceE s a).1 tl hdead
                    refine ⟨a, ⟨tl, rfl⟩, hx, ?_, ?_⟩
                    · simp only [dceL]
                      rw [htl2.1]
                    · intro nb hname hmem
                      subst hname
                      rcases dceLBL (.cons a tl) s
                        (envPush (Option.some nb) env) nb hwl hdisj2 hrb2
                        hmem with h | h
                      · exact hdisj nb (by simp [boundBE, envPush]) (hrb nb h)
                      · simp only [dceL] at h
                        rw [htl2.2] at h
                        simp only [hasBreakToL, Bool.or_eq_true] at h
                        rcases h with h | h
                        · rw [← hx] at h
                          simp only [hasBreakToOpt] at hbk
                          rw [hbk] at h
                          exact absurd h (by decide)
                        · rw [killAll_no_breaks] at h
                          exact absurd h (by decide)
            obtain ⟨a, ⟨rest, hlist⟩, hxa, hstate, hnomem⟩ := hfacts
            subst hlist
            have hwa : wfE a (envPush name env) = true := by
              simp only [wfL, Bool.and_eq_true] at hwl
              exact hwl.1
            have hcia : ciOKE a = true := by
              simp only [ciOKL, Bool.and_eq_true] at hcil
              exact hcil.1
            have hda : ∀ m, m ∈ boundBE a → m ∉ envPush name env :=
              fun m hm => hdisj2 m
                (by simp only [boundBL, List.mem_append]; tauto)
            have iha := dceSLE a s (envPush name env) hwa hcia hda hrb2
            rw [hxa]
            rw [visitBlock_state]
            constructor
            · rw [iha.1, hstate]
              cases name with
              | none => rfl
              | some nb =>
                  have hnm := hnomem nb rfl
                  rw [hstate] at hnm
                  dsimp only
                  rw [rbErase_not_mem _ _ hnm,
                    contains_false_of_not_mem _ _ hnm, Bool.or_false]
            · exact iha.2
    | if_ c t f ty =>
        have hw2 := hw
        simp only [wfE, Bool.and_eq_true] at hw2
        obtain ⟨⟨⟨hwc, hwt⟩, hwf⟩, hclause⟩ := hw2
        have hci2 := hci
        simp only [ciOKE, Bool.and_eq_true] at hci2
        obtain ⟨⟨hcic, hcit⟩, hcif⟩ := hci2
        have hdc : ∀ m, m ∈ boundBE c → m ∉ env :=
          fun m hm => hdisj m (by simp only [boundBE, List.mem_append]; tauto)
        have hdt : ∀ m, m ∈ boundBE t → m ∉ env :=
          fun m hm => hdisj m (by simp only [boundBE, List.mem_append]; tauto)
        have ihc := dceSLE c s env hwc hcic hdc hrb
        cases f with
        | none =>
            have iht := dceSLE t
              { (dceE s c).1 with
                ifStack := (dceE s c).1.reachable :: (dceE s c).1.ifStack }
              env hwt hcit hdt (fun y hy => rbStayE c s env hwc hrb y hy)
            simp only [dceE, hr, if_true]
            rcases visitIf_out
              (dceE { (dceE s c).1 with
                ifStack := (dceE s c).1.reachable :: (dceE s c).1.ifStack } t).1
              (dceE s c).2.1
              (dceE { (dceE s c).1 with
                ifStack := (dceE s c).1.reachable :: (dceE s c).1.ifStack } t).2.1
              ExprOpt.none ty with ⟨hcu, hout⟩ | ⟨hcu, hout⟩
            · rw [hout, visitIf_state]
              have hcd := dceINVE c s env hwc hdc hrb hr (isUnr_true_eq _ hcu)
              have h2 := dceE_dead
                { (dceE s c).1 with
                  ifStack := (dceE s c).1.reachable :: (dceE s c).1.ifStack }
                t hcd
              rw [h2.1]
              try dsimp only
              rw [List.headD_cons, List.tail_cons]
              constructor
              · rw [ihc.1]
                refine st_ext _ _ ?_ ?_ ?_ <;> simp [hcd]
              · rw [ihc.2]
            · rw [hout]
              simp only [dceE, hr, if_true]
              rw [ihc.1, ihc.2, iht.1, iht.2]
              constructor
              · rw [visitIf_state, visitIf_state]
              · unfold visitIf
                simp only [hcu, Bool.false_eq_true, if_false]
        | some fe =>
            have hwfe : wfE fe env = true := by simpa [wfO] using hwf
            have hcife : ciOKE fe = true := by simpa [ciOKO] using hcif
            have hdfe : ∀ m, m ∈ boundBE fe → m ∉ env :=
              fun m hm => hdisj m
                (by simp only [boundBE, boundBO, List.mem_append]; tauto)
            have iht := dceSLE t
              { (dceE s c).1 with
                ifStack := (dceE s c).1.reachable :: (dceE s c).1.ifStack }
              env hwt hcit hdt (fun y hy => rbStayE c s env hwc hrb y hy)
            have ihfe := dceSLE fe
              { (dceE { (dceE s c).1 with
                  ifStack := (dceE s c).1.reachable :: (dceE s c).1.ifStack }
                  t).1 with
                reachable := (dceE { (dceE s c).1 with
                  ifStack := (dceE s c).1.reachable :: (dceE s c).1.ifStack }
                  t).1.ifStack.headD false,
                ifStack := (dceE { (dceE s c).1 with
                  ifStack := (dceE s c).1.reachable :: (dceE s c).1.ifStack }
                  t).1.reachable :: (dceE { (dceE s c).1 with
                  ifStack := (dceE s c).1.reachable :: (dceE s c).1.ifStack }
                  t).1.ifStack.tail }
              env hwfe hcife hdfe
              (fun y hy => rbStayE t
                { (dceE s c).1 with
                  ifStack := (dceE s c).1.reachable :: (dceE s c).1.ifStack }
                env hwt (fun z hz => rbStayE c s env hwc hrb z hz) y hy)
            simp only [dceE, hr, if_true]
            rcases visitIf_out
              (dceE { (dceE { (dceE s c).1 with
                  ifStack := (dceE s c).1.reachable :: (dceE s c).1.ifStack }
                  t).1 with
                reachable := (dceE { (dceE s c).1 with
                  ifStack := (dceE s c).1.reachable :: (dceE s c).1.ifStack }
                  t).1.ifStack.headD false,
                ifStack := (dceE { (dceE s c).1 with
                  ifStack := (dceE s c).1.reachable :: (dceE s c).1.ifStack }
                  t).1.reachable :: (dceE { (dceE s c).1 with
                  ifStack := (dceE s c).1.reachable :: (dceE s c).1.ifStack }
                  t).1.ifStack.tail } fe).1
              (dceE s c).2.1
              (dceE { (dceE s c).1 with
                ifStack := (dceE s c).1.reachable :: (dceE s c).1.ifStack } t).2.1
              (ExprOpt.some ((dceE { (dceE { (dceE s c).1 with
                  ifStack := (dceE s c).1.reachable :: (dceE s c).1.ifStack }
                  t).1 with
                reachable := (dceE { (dceE s c).1 with
                  ifStack := (dceE s c).1.reachable :: (dceE s c).1.ifStack }
                  t).1.ifStack.headD false,
                ifStack := (dceE { (dceE s c).1 with
                  ifStack := (dceE s c).1.reachable :: (dceE s c).1.ifStack }
                  t).1.reachable :: (dceE { (dceE s c).1 with
                  ifStack := (dceE s c).1.reachable :: (dceE s c).1.ifStack }
                  t).1.ifStack.tail } fe).2.1))
              ty with ⟨hcu, hout⟩ | ⟨hcu, hout⟩
            · rw [hout, visitIf_state]
              have hcd := dceINVE c s env hwc hdc hrb hr (isUnr_true_eq _ hcu)
              have h2 := dceE_dead
                { (dceE s c).1 with
                  ifStack := (dceE s c).1.reachable :: (dceE s c).1.ifStack }
                t hcd
              have hs4d : ({ (dceE { (dceE s c).1 with
                  ifStack := (dceE s c).1.reachable :: (dceE s c).1.ifStack }
                  t).1 with
                reachable := (dceE { (dceE s c).1 with
                  ifStack := (dceE s c).1.reachable :: (dceE s c).1.ifStack }
                  t).1.ifStack.headD false,
                ifStack := (dceE { (dceE s c).1 with
                  ifStack := (dceE s c).1.reachable :: (dceE s c).1.ifStack }
                  t).1.reachable :: (dceE { (dceE s c).1 with
                  ifStack := (dceE s c).1.reachable :: (dceE s c).1.ifStack }
                  t).1.ifStack.tail } : St).reachable = false := by
                try dsimp only
                rw [h2.1]
                try dsimp only
                rw [List.headD_cons]
                exact hcd
              have h3 := dceE_dead _ fe hs4d
              rw [h3.1]
              constructor
              · rw [ihc.1]
                refine st_ext _ _ ?_ ?_ ?_
                · try dsimp only
                  rw [h2.1]
                  try dsimp only
                  simp [List.headD_cons, hcd, h2.1]
                · try dsimp only
                  rw [h2.1]
                · try dsimp only
                  rw [h2.1]
                  try dsimp only
                  simp [List.headD_cons, List.tail_cons, hcd]
              · rw [ihc.2]
            · rw [hout]
              simp only [dceE, hr, if_true]
              rw [ihc.1, ihc.2, iht.1, iht.2, ihfe.1, ihfe.2]
              constructor
              · rw [visitIf_state, visitIf_state]
              · unfold visitIf
                simp only [hcu, Bool.false_eq_true, if_false]
    | loop name b ty =>
        have hw2 := hw
        simp only [wfE, Bool.and_eq_true] at hw2
        obtain ⟨⟨hwb, hnsh⟩, hclause⟩ := hw2
        have hcib : ciOKE b = true := by simpa [ciOKE] using hci
        have hdisj2 := hdisjE_of_loop name b ty env hnsh hdisj
        have hrb2 := hrb_push name env s hrb
        have ihb := dceSLE b s (envPush name env) hwb hcib hdisj2 hrb2
        simp only [dceE, hr, if_true]
        unfold visitLoop
        by_cases hrep : (isUnreachable (dceE s b).2.1 = true ∧
            hasBreakToOpt (dceE s b).2.1 name = false)
        · rw [if_pos hrep]
          try dsimp only
          constructor
          · rw [ihb.1]
            cases name with
            | none => rfl
            | some nb =>
                have hnm : ¬ nb ∈ (dceE s b).1.reachableBreaks := by
                  intro hmem
                  rcases dceLBE b s (envPush (Option.some nb) env) nb hwb
                    hdisj2 hrb2 hmem with h | h
                  · exact hdisj nb (by simp [boundBE, envPush]) (hrb nb h)
                  · have hb2 := hrep.2
                    simp only [hasBreakToOpt] at hb2
                    rw [hb2] at h
                    exact absurd h (by decide)
                dsimp only
                rw [rbErase_not_mem _ _ hnm]
          · exact ihb.2
        · rw [if_neg hrep]
          try dsimp only
          simp only [dceE, hr, if_true]
          rw [ihb.1, ihb.2]
          unfold visitLoop
          rw [if_neg hrep]
          constructor <;> trivial
    | br name value condition ty =>
        have hw2 := hw
        simp only [wfE, Bool.and_eq_true] at hw2
        obtain ⟨⟨⟨hmem, hwv⟩, hwcnd⟩, hclause⟩ := hw2
        have hci2 := hci
        simp only [ciOKE, Bool.and_eq_true] at hci2
        obtain ⟨hciv, hcicnd⟩ := hci2
        cases value with
        | none =>
            cases condition with
            | none =>
                have hOut : (dceE s (Expr.br name ExprOpt.none ExprOpt.none
                    ty)).2.1 = Expr.br name ExprOpt.none ExprOpt.none ty := by
                  simp only [dceE, hr, if_true]
                  simp only [dceO]
                  unfold visitBreak
                  simp only [isDead_none_eq, Bool.false_eq_true, if_false]
                rw [hOut]
                exact ⟨rfl, hOut⟩
            | some cc =>
                have hwcc : wfE cc env = true := by simpa [wfO] using hwcnd
                have hcicc : ciOKE cc = true := by simpa [ciOKO] using hcicnd
                have hdcc : ∀ m, m ∈ boundBE cc → m ∉ env :=
                  fun m hm => hdisj m
                    (by simp only [boundBE, boundBO, List.mem_append]; tauto)
                have ihcc := dceSLE cc s env hwcc hcicc hdcc hrb
                by_cases h2 : isDead (ExprOpt.some (dceE s cc).2.1) = true
                · have hOut : (dceE s (Expr.br name ExprOpt.none
                      (ExprOpt.some cc) ty)).2.1 = (dceE s cc).2.1 := by
                    simp only [dceE, hr, if_true]
                    simp only [dceO]
                    unfold visitBreak
                    simp only [isDead_none_eq, Bool.false_eq_true, if_false,
                      h2, if_true]
                    simp only [egetO]
                  have hSt : (dceE s (Expr.br name ExprOpt.none
                      (ExprOpt.some cc) ty)).1 = (dceE s cc).1 := by
                    simp only [dceE, hr, if_true]
                    simp only [dceO]
                    unfold visitBreak
                    simp only [isDead_none_eq, Bool.false_eq_true, if_false,
                      h2, if_true]
                  rw [hOut, hSt]
                  exact ⟨ihcc.1, ihcc.2⟩
                · have hOut : (dceE s (Expr.br name ExprOpt.none
                      (ExprOpt.some cc) ty)).2.1 = Expr.br name ExprOpt.none
                      (ExprOpt.some (dceE s cc).2.1) ty := by
                    simp only [dceE, hr, if_true]
                    simp only [dceO]
                    unfold visitBreak
                    simp only [isDead_none_eq, Bool.false_eq_true, if_false,
                      h2]
                  have hSt : (dceE s (Expr.br name ExprOpt.none
                      (ExprOpt.some cc) ty)).1 = addBreak (dceE s cc).1 name := by
                    simp only [dceE, hr, if_true]
                    simp only [dceO]
                    unfold visitBreak
                    simp only [isDead_none_eq, Bool.false_eq_true, if_false,
                      h2]
                  rw [hOut, hSt]
                  simp only [dceE, hr, if_true]
                  simp only [dceO]
                  rw [ihcc.1, ihcc.2]
                  unfold visitBreak
                  simp only [isDead_none_eq, Bool.false_eq_true, if_false, h2]
                  constructor <;> trivial
        | some vv =>
            have hwvv : wfE vv env = true := by simpa [wfO] using hwv
            have hcivv : ciOKE vv = true := by simpa [ciOKO] using hciv
            have hdvv : ∀ m, m ∈ boundBE vv → m ∉ env :=
              fun m hm => hdisj m
                (by simp only [boundBE, boundBO, List.mem_append]; tauto)
            have ihvv := dceSLE vv s env hwvv hcivv hdvv hrb
            by_cases h1 : isDead (ExprOpt.some (dceE s vv).2.1) = true
            · have hvd : (dceE s vv).1.reachable = false :=
                dceINVE vv s env hwvv hdvv hrb hr (isDead_some_eq _ h1)
              have hOut : (dceE s (Expr.br name (ExprOpt.some vv) condition
                  ty)).2.1 = (dceE s vv).2.1 := by
                simp only [dceE, hr, if_true]
                simp only [dceO]
                unfold visitBreak
                simp only [h1, if_true]
                simp only [egetO]
              have hSt : (dceE s (Expr.br name (ExprOpt.some vv) condition
                  ty)).1 = (dceE s vv).1 := by
                simp only [dceE, hr, if_true]
                simp only [dceO]
                unfold visitBreak
                simp only [h1, if_true]
                try dsimp only
                exact dceO_dead (dceE s vv).1 condition hvd
              rw [hOut, hSt]
              exact ⟨ihvv.1, ihvv.2⟩
            · cases condition with
              | none =>
                  have hOut : (dceE s (Expr.br name (ExprOpt.some vv)
                      ExprOpt.none ty)).2.1 = Expr.br name
                      (ExprOpt.some (dceE s vv).2.1) ExprOpt.none ty := by
                    simp only [dceE, hr, if_true]
                    simp only [dceO]
                    unfold visitBreak
                    simp only [h1, Bool.false_eq_true, if_false,
                      isDead_none_eq]
                  have hSt : (dceE s (Expr.br name (ExprOpt.some vv)
                      ExprOpt.none ty)).1 =
                      { addBreak (dceE s vv).1 name with reachable := false } := by
                    simp only [dceE, hr, if_true]
                    simp only [dceO]
                    unfold visitBreak
                    simp only [h1, Bool.false_eq_true, if_false,
                      isDead_none_eq]
                  rw [hOut, hSt]
                  simp only [dceE, hr, if_true]
                  simp only [dceO]
                  rw [ihvv.1, ihvv.2]
                  unfold visitBreak
                  simp only [h1, Bool.false_eq_true, if_false, isDead_none_eq]
                  constructor <;> trivial
              | some cc =>
                  have hwcc : wfE cc env = true := by simpa [wfO] using hwcnd
                  have hcicc : ciOKE cc = true := by simpa [ciOKO] using hcicnd
                  have hdcc : ∀ m, m ∈ boundBE cc → m ∉ env :=
                    fun m hm => hdisj m
                      (by simp only [boundBE, boundBO, List.mem_append]; tauto)
                  have ihcc := dceSLE cc (dceE s vv).1 env hwcc hcicc hdcc
                    (rbStayE vv s env hwvv hrb)
                  by_cases h2 : isDead (ExprOpt.some
                      (dceE (dceE s vv).1 cc).2.1) = true
                  · have hnv : ¬ typeOf (dceE s vv).2.1 = Typ.unreachable :=
                      isDead_some_ne _ (by simpa using h1)
                    have hOut : (dceE s (Expr.br name (ExprOpt.some vv)
                        (ExprOpt.some cc) ty)).2.1 = Expr.block Option.none
                        (ExprList.cons (dropOf (dceE s vv).2.1)
                          (ExprList.cons (dceE (dceE s vv).1 cc).2.1
                            ExprList.nil)) ty := by
                      simp only [dceE, hr, if_true]
                      simp only [dceO]
                      unfold visitBreak
                      simp only [h1, Bool.false_eq_true, if_false, h2, if_true]
                      simp only [egetO]
                    have hSt : (dceE s (Expr.br name (ExprOpt.some vv)
                        (ExprOpt.some cc) ty)).1 =
                        (dceE (dceE s vv).1 cc).1 := by
                      simp only [dceE, hr, if_true]
                      simp only [dceO]
                      unfold visitBreak
                      simp only [h1, Bool.false_eq_true, if_false, h2, if_true]
                    rw [hOut, hSt, dropOf_eq_drop _ hnv]
                    have hdr := reprocess_drop s (dceE s vv).2.1 (dceE s vv).1
                      hr ihvv.1 ihvv.2 hnv
                    have hdead : (dceE (dceE s vv).1 cc).1.reachable = false := by
                      by_cases hvr : (dceE s vv).1.reachable = true
                      · exact dceINVE cc (dceE s vv).1 env hwcc hdcc
                          (rbStayE vv s env hwvv hrb) hvr (isDead_some_eq _ h2)
                      · simp only [Bool.not_eq_true] at hvr
                        rw [(dceE_dead (dceE s vv).1 cc hvr).1]
                        exact hvr
                    have hLf := dceL_two s (Expr.drop (dceE s vv).2.1 Typ.none)
                      (dceE (dceE s vv).1 cc).2.1 (dceE s vv).1
                      (dceE (dceE s vv).1 cc).1 hdr.1 hdr.2 ihcc.1 ihcc.2
                    exact reprocess_block_generic s (dceE (dceE s vv).1 cc).1 _
                      ty hr hLf.1 hLf.2 hdead (by simp [elength])
                      (noEarlyUnr_cons _ _ (by simp [typeOf])
                        (by simp [noEarlyUnr]))
                  · have hOut : (dceE s (Expr.br name (ExprOpt.some vv)
                        (ExprOpt.some cc) ty)).2.1 = Expr.br name
                        (ExprOpt.some (dceE s vv).2.1)
                        (ExprOpt.some (dceE (dceE s vv).1 cc).2.1) ty := by
                      simp only [dceE, hr, if_true]
                      simp only [dceO]
                      unfold visitBreak
                      simp only [h1, Bool.false_eq_true, if_false, h2]
                    have hSt : (dceE s (Expr.br name (ExprOpt.some vv)
                        (ExprOpt.some cc) ty)).1 =
                        addBreak (dceE (dceE s vv).1 cc).1 name := by
                      simp only [dceE, hr, if_true]
                      simp only [dceO]
                      unfold visitBreak
                      simp only [h1, Bool.false_eq_true, if_false, h2]
                    rw [hOut, hSt]
                    simp only [dceE, hr, if_true]
                    simp only [dceO]
                    rw [ihvv.1, ihvv.2, ihcc.1, ihcc.2]
                    unfold visitBreak
                    simp only [h1, Bool.false_eq_true, if_false, h2]
                    constructor <;> trivial
    | switch_ targets default_ value condition ty =>
        have hw2 := hw
        simp only [wfE, Bool.and_eq_true] at hw2
        obtain ⟨⟨⟨hts, hd_⟩, hwv⟩, hwcnd⟩ := hw2
        have hci2 := hci
        simp only [ciOKE, Bool.and_eq_true] at hci2
        obtain ⟨hciv, hcicnd⟩ := hci2
        cases value with
        | none =>
            have hdcnd : ∀ m, m ∈ boundBE condition → m ∉ env :=
              fun m hm => hdisj m
                (by simp only [boundBE, boundBO, List.mem_append]; tauto)
            have ihcnd := dceSLE condition s env hwcnd hcicnd hdcnd hrb
            by_cases h2 : isUnreachable (dceE s condition).2.1 = true
            · have hOut : (dceE s (Expr.switch_ targets default_ ExprOpt.none
                  condition ty)).2.1 = (dceE s condition).2.1 := by
                simp only [dceE, hr, if_true]
                simp only [dceO]
                unfold visitSwitch
                simp only [isDead_none_eq, Bool.false_eq_true, if_false, h2,
                  if_true]
              have hSt : (dceE s (Expr.switch_ targets default_ ExprOpt.none
                  condition ty)).1 = (dceE s condition).1 := by
                simp only [dceE, hr, if_true]
                simp only [dceO]
                unfold visitSwitch
                simp only [isDead_none_eq, Bool.false_eq_true, if_false, h2,
                  if_true]
              rw [hOut, hSt]
              exact ⟨ihcnd.1, ihcnd.2⟩
            · have hOut : (dceE s (Expr.switch_ targets default_ ExprOpt.none
                  condition ty)).2.1 = Expr.switch_ targets default_
                  ExprOpt.none (dceE s condition).2.1 ty := by
                simp only [dceE, hr, if_true]
                simp only [dceO]
                unfold visitSwitch
                simp only [isDead_none_eq, Bool.false_eq_true, if_false, h2]
              have hSt : (dceE s (Expr.switch_ targets default_ ExprOpt.none
                  condition ty)).1 = { addBreak
                    (targets.foldl addBreak (dceE s condition).1) default_
                    with reachable := false } := by
                simp only [dceE, hr, if_true]
                simp only [dceO]
                unfold visitSwitch
                simp only [isDead_none_eq, Bool.false_eq_true, if_false, h2]
              rw [hOut, hSt]
              simp only [dceE, hr, if_true]
              simp only [dceO]
              rw [ihcnd.1, ihcnd.2]
              unfold visitSwitch
              simp only [isDead_none_eq, Bool.false_eq_true, if_false, h2]
              constructor <;> trivial
        | some vv =>
            have hwvv : wfE vv env = true := by simpa [wfO] using hwv
            have hcivv : ciOKE vv = true := by simpa [ciOKO] using hciv
            have hdvv : ∀ m, m ∈ boundBE vv → m ∉ env :=
              fun m hm => hdisj m
                (by simp only [boundBE, boundBO, List.mem_append]; tauto)
            have hdcnd : ∀ m, m ∈ boundBE condition → m ∉ env :=
              fun m hm => hdisj m
                (by simp only [boundBE, boundBO, List.mem_append]; tauto)
            have ihvv := dceSLE vv s env hwvv hcivv hdvv hrb
            by_cases h1 : isDead (ExprOpt.some (dceE s vv).2.1) = true
            · have hvd : (dceE s vv).1.reachable = false :=
                dceINVE vv s env hwvv hdvv hrb hr (isDead_some_eq _ h1)
              have hOut : (dceE s (Expr.switch_ targets default_
                  (ExprOpt.some vv) condition ty)).2.1 = (dceE s vv).2.1 := by
                simp only [dceE, hr, if_true]
                simp only [dceO]
                unfold visitSwitch
                simp only [h1, if_true]
                simp only [egetO]
              have hSt : (dceE s (Expr.switch_ targets default_
                  (ExprOpt.some vv) condition ty)).1 = (dceE s vv).1 := by
                simp only [dceE, hr, if_true]
                simp only [dceO]
                unfold visitSwitch
                simp only [h1, if_true]
                try dsimp only
                exact (dceE_dead (dceE s vv).1 condition hvd).1
              rw [hOut, hSt]
              exact ⟨ihvv.1, ihvv.2⟩
            · have ihcnd := dceSLE condition (dceE s vv).1 env hwcnd hcicnd
                hdcnd (rbStayE vv s env hwvv hrb)
              by_cases h2 : isUnreachable
                  (dceE (dceE s vv).1 condition).2.1 = true
              · have hnv : ¬ typeOf (dceE s vv).2.1 = Typ.unreachable :=
                  isDead_some_ne _ (by simpa using h1)
                have hOut : (dceE s (Expr.switch_ targets default_
                    (ExprOpt.some vv) condition ty)).2.1 = Expr.block
                    Option.none (ExprList.cons (dropOf (dceE s vv).2.1)
                      (ExprList.cons (dceE (dceE s vv).1 condition).2.1
                        ExprList.nil)) ty := by
                  simp only [dceE, hr, if_true]
                  simp only [dceO]
                  unfold visitSwitch
                  simp only [h1, Bool.false_eq_true, if_false, h2, if_true]
                have hSt : (dceE s (Expr.switch_ targets default_
                    (ExprOpt.some vv) condition ty)).1 =
                    (dceE (dceE s vv).1 condition).1 := by
                  simp only [dceE, hr, if_true]
                  simp only [dceO]
                  unfold visitSwitch
                  simp only [h1, Bool.false_eq_true, if_false, h2, if_true]
                rw [hOut, hSt, dropOf_eq_drop _ hnv]
                have hdr := reprocess_drop s (dceE s vv).2.1 (dceE s vv).1 hr
                  ihvv.1 ihvv.2 hnv
                have hdead : (dceE (dceE s vv).1 condition).1.reachable
                    = false := by
                  by_cases hvr : (dceE s vv).1.reachable = true
                  · exact dceINVE condition (dceE s vv).1 env hwcnd hdcnd
                      (rbStayE vv s env hwvv hrb) hvr (isUnr_true_eq _ h2)
                  · simp only [Bool.not_eq_true] at hvr
                    rw [(dceE_dead (dceE s vv).1 condition hvr).1]
                    exact hvr
                have hLf := dceL_two s (Expr.drop (dceE s vv).2.1 Typ.none)
                  (dceE (dceE s vv).1 condition).2.1 (dceE s vv).1
                  (dceE (dceE s vv).1 condition).1 hdr.1 hdr.2 ihcnd.1 ihcnd.2
                exact reprocess_block_generic s
                  (dceE (dceE s vv).1 condition).1 _ ty hr hLf.1 hLf.2 hdead
                  (by simp [elength])
                  (noEarlyUnr_cons _ _ (by simp [typeOf])
                    (by simp [noEarlyUnr]))
              · have hOut : (dceE s (Expr.switch_ targets default_
                    (ExprOpt.some vv) condition ty)).2.1 = Expr.switch_
                    targets default_ (ExprOpt.some (dceE s vv).2.1)
                    (dceE (dceE s vv).1 condition).2.1 ty := by
                  simp only [dceE, hr, if_true]
                  simp only [dceO]
                  unfold visitSwitch
                  simp only [h1, Bool.false_eq_true, if_false, h2]
                have hSt : (dceE s (Expr.switch_ targets default_
                    (ExprOpt.some vv) condition ty)).1 = { addBreak
                      (targets.foldl addBreak
                        (dceE (dceE s vv).1 condition).1) default_
                      with reachable := false } := by
                  simp only [dceE, hr, if_true]
                  simp only [dceO]
                  unfold visitSwitch
                  simp only [h1, Bool.false_eq_true, if_false, h2]
                rw [hOut, hSt]
                simp only [dceE, hr, if_true]
                simp only [dceO]
                rw [ihvv.1, ihvv.2, ihcnd.1, ihcnd.2]
                unfold visitSwitch
                simp only [h1, Bool.false_eq_true, if_false, h2]
                constructor <;> trivial
    | call target operands ty =>
        have hwo : wfL operands env = true := by
          simp only [wfE, Bool.and_eq_true] at hw
          exact hw.1
        have hcio : ciOKL operands = true := by simpa [ciOKE] using hci
        have hdo : ∀ m, m ∈ boundBL operands → m ∉ env :=
          fun m hm => hdisj m (by simpa [boundBE] using hm)
        cases hk : handleCall (dceL s operands).2.1 ty with
        | some r =>
            have hOut : (dceE s (Expr.call target operands ty)).2.1 = r := by
              simp only [dceE, hr, if_true]
              unfold visitCallLike
              rw [hk]
            have hSt : (dceE s (Expr.call target operands ty)).1 =
                (dceL s operands).1 := by
              simp only [dceE, hr, if_true]
              unfold visitCallLike
              rw [hk]
            rw [hOut, hSt]
            exact dceSLcall operands s env r ty hwo hcio hdo hrb hr hk
        | none =>
            have hOut : (dceE s (Expr.call target operands ty)).2.1 =
                Expr.call target (dceL s operands).2.1 ty := by
              simp only [dceE, hr, if_true]
              unfold visitCallLike
              rw [hk]
            have hSt : (dceE s (Expr.call target operands ty)).1 =
                (dceL s operands).1 := by
              simp only [dceE, hr, if_true]
              unfold visitCallLike
              rw [hk]
            rw [hOut, hSt]
            have hSLL := dceSLL operands s env hwo hcio hdo hrb
            simp only [dceE, hr, if_true]
            rw [hSLL.1, hSLL.2]
            unfold visitCallLike
            rw [hk]
            constructor <;> trivial
    | callImport target operands ty =>
        have hwo : wfL operands env = true := by
          simp only [wfE, Bool.and_eq_true] at hw
          exact hw.1
        have hcio : ciOKL operands = true := by simpa [ciOKE] using hci
        have hdo : ∀ m, m ∈ boundBL operands → m ∉ env :=
          fun m hm => hdisj m (by simpa [boundBE] using hm)
        cases hk : handleCall (dceL s operands).2.1 ty with
        | some r =>
            have hOut : (dceE s (Expr.callImport target operands ty)).2.1
                = r := by
              simp only [dceE, hr, if_true]
              unfold visitCallLike
              rw [hk]
            have hSt : (dceE s (Expr.callImport target operands ty)).1 =
                (dceL s operands).1 := by
              simp only [dceE, hr, if_true]
              unfold visitCallLike
              rw [hk]
            rw [hOut, hSt]
            exact dceSLcall operands s env r ty hwo hcio hdo hrb hr hk
        | none =>
            have hOut : (dceE s (Expr.callImport target operands ty)).2.1 =
                Expr.callImport target (dceL s operands).2.1 ty := by
              simp only [dceE, hr, if_true]
              unfold visitCallLike
              rw [hk]
            have hSt : (dceE s (Expr.callImport target operands ty)).1 =
                (dceL s operands).1 := by
              simp only [dceE, hr, if_true]
              unfold visitCallLike
              rw [hk]
            rw [hOut, hSt]
            have hSLL := dceSLL operands s env hwo hcio hdo hrb
            simp only [dceE, hr, if_true]
            rw [hSLL.1, hSLL.2]
            unfold visitCallLike
            rw [hk]
            constructor <;> trivial
    | host operands ty =>
        have hwo : wfL operands env = true := by
          simp only [wfE, Bool.and_eq_true] at hw
          exact hw.1
        have hcio : ciOKL operands = true := by simpa [ciOKE] using hci
        have hdo : ∀ m, m ∈ boundBL operands → m ∉ env :=
          fun m hm => hdisj m (by simpa [boundBE] using hm)
        cases hk : handleCall (dceL s operands).2.1 ty with
        | some r =>
            have hOut : (dceE s (Expr.host operands ty)).2.1 = r := by
              simp only [dceE, hr, if_true]
              unfold visitCallLike
              rw [hk]
            have hSt : (dceE s (Expr.host operands ty)).1 =
                (dceL s operands).1 := by
              simp only [dceE, hr, if_true]
              unfold visitCallLike
              rw [hk]
            rw [hOut, hSt]
            exact dceSLcall operands s env r ty hwo hcio hdo hrb hr hk
        | none =>
            have hOut : (dceE s (Expr.host operands ty)).2.1 =
                Expr.host (dceL s operands).2.1 ty := by
              simp only [dceE, hr, if_true]
              unfold visitCallLike
              rw [hk]
            have hSt : (dceE s (Expr.host operands ty)).1 =
                (dceL s operands).1 := by
              simp only [dceE, hr, if_true]
              unfold visitCallLike
              rw [hk]
            rw [hOut, hSt]
            have hSLL := dceSLL operands s env hwo hcio hdo hrb
            simp only [dceE, hr, if_true]
            rw [hSLL.1, hSLL.2]
            unfold visitCallLike
            rw [hk]
            constructor <;> trivial
    | callIndirect operands target ty =>
        have hw2 := hw
        simp only [wfE, Bool.and_eq_true] at hw2
        obtain ⟨⟨hwo, hwt⟩, hclause⟩ := hw2
        have hci2 := hci
        simp only [ciOKE, Bool.and_eq_true] at hci2
        obtain ⟨⟨hlen0, hcio⟩, hcit⟩ := hci2
        have hdo : ∀ m, m ∈ boundBL operands → m ∉ env :=
          fun m hm => hdisj m
            (by simp only [boundBE, List.mem_append]; tauto)
        have hdt : ∀ m, m ∈ boundBE target → m ∉ env :=
          fun m hm => hdisj m
            (by simp only [boundBE, List.mem_append]; tauto)
        cases hk : handleCall (dceL s operands).2.1 ty with
        | some r =>
            have hOut : (dceE s (Expr.callIndirect operands target ty)).2.1
                = r := by
              simp only [dceE, hr, if_true]
              unfold visitCallIndirect
              rw [hk]
            have hSt : (dceE s (Expr.callIndirect operands target ty)).1 =
                (dceE (dceL s operands).1 target).1 := by
              simp only [dceE, hr, if_true]
              unfold visitCallIndirect
              rw [hk]
            have hops := dceINVL operands s env hwo hdo hrb
              (handleCall_some_hasUnr _ ty r hk)
            rw [hOut, hSt, (dceE_dead (dceL s operands).1 target hops).1]
            exact dceSLcall operands s env r ty hwo hcio hdo hrb hr hk
        | none =>
            by_cases h2 : isUnreachable (dceE (dceL s operands).1 target).2.1
                = true
            · have hOut : (dceE s (Expr.callIndirect operands target
                  ty)).2.1 = Expr.block Option.none
                    (eappend (emap dropOf (dceL s operands).2.1)
                      (ExprList.cons (dceE (dceL s operands).1 target).2.1
                        ExprList.nil)) ty := by
                simp only [dceE, hr, if_true]
                unfold visitCallIndirect
                rw [hk]
                try dsimp only
                simp only [h2, if_true]
              have hSt : (dceE s (Expr.callIndirect operands target ty)).1 =
                  (dceE (dceL s operands).1 target).1 := by
                simp only [dceE, hr, if_true]
                unfold visitCallIndirect
                rw [hk]
                try dsimp only
                simp only [h2, if_true]
              rw [hOut, hSt]
              have hfn : firstUnreachableIdx (dceL s operands).2.1 =
                  Option.none := by
                unfold handleCall at hk
                cases hf2 : firstUnreachableIdx (dceL s operands).2.1 with
                | none => rfl
                | some k =>
                    rw [hf2] at hk
                    dsimp only at hk
                    by_cases hk0 : k = 0
                    · subst hk0
                      rw [if_pos rfl] at hk
                      simp at hk
                    · rw [if_neg hk0] at hk
                      simp at hk
              have hall := dceSLdropsAll operands s env hwo hcio hdo hrb hr hfn
              have iht := dceSLE target (dceL s operands).1 env hwt hcit hdt
                (rbStayL operands s env hwo hrb)
              have happ := dceL_append (emap dropOf (dceL s operands).2.1)
                (ExprList.cons (dceE (dceL s operands).1 target).2.1
                  ExprList.nil) s
              have hLf1 : (dceL s (eappend (emap dropOf (dceL s operands).2.1)
                  (ExprList.cons (dceE (dceL s operands).1 target).2.1
                    ExprList.nil))).1 =
                  (dceE (dceL s operands).1 target).1 := by
                rw [happ.1, hall.1]
                simp only [dceL]
                rw [iht.1]
              have hLf2 : (dceL s (eappend (emap dropOf (dceL s operands).2.1)
                  (ExprList.cons (dceE (dceL s operands).1 target).2.1
                    ExprList.nil))).2.1 =
                  eappend (emap dropOf (dceL s operands).2.1)
                    (ExprList.cons (dceE (dceL s operands).1 target).2.1
                      ExprList.nil) := by
                rw [happ.2, hall.1, hall.2]
                simp only [dceL]
                rw [iht.2]
              have hdead : (dceE (dceL s operands).1 target).1.reachable
                  = false := by
                by_cases hor : (dceL s operands).1.reachable = true
                · exact dceINVE target (dceL s operands).1 env hwt hdt
                    (rbStayL operands s env hwo hrb) hor (isUnr_true_eq _ h2)
                · simp only [Bool.not_eq_true] at hor
                  rw [(dceE_dead (dceL s operands).1 target hor).1]
                  exact hor
              have h0 : 0 < elength operands := of_decide_eq_true hlen0
              have hlenL : elength (eappend (emap dropOf
                  (dceL s operands).2.1)
                  (ExprList.cons (dceE (dceL s operands).1 target).2.1
                    ExprList.nil)) > 1 := by
                rw [elength_eappend, elength_emap, dceL_elength]
                simp only [elength]
                omega
              have hne := noAppendDrops (dceL s operands).2.1
                (dceE (dceL s operands).1 target).2.1 hfn
              exact reprocess_block_generic s
                (dceE (dceL s operands).1 target).1 _ ty hr hLf1 hLf2 hdead
                hlenL hne
            · have hOut : (dceE s (Expr.callIndirect operands target
                  ty)).2.1 = Expr.callIndirect (dceL s operands).2.1
                    (dceE (dceL s operands).1 target).2.1 ty := by
                simp only [dceE, hr, if_true]
                unfold visitCallIndirect
                rw [hk]
                try dsimp only
                simp only [h2, Bool.false_eq_true, if_false]
              have hSt : (dceE s (Expr.callIndirect operands target ty)).1 =
                  (dceE (dceL s operands).1 target).1 := by
                simp only [dceE, hr, if_true]
                unfold visitCallIndirect
                rw [hk]
                try dsimp only
                simp only [h2, Bool.false_eq_true, if_false]
              rw [hOut, hSt]
              have hSLL := dceSLL operands s env hwo hcio hdo hrb
              have iht := dceSLE target (dceL s operands).1 env hwt hcit hdt
                (rbStayL operands s env hwo hrb)
              simp only [dceE, hr, if_true]
              rw [hSLL.1, hSLL.2, iht.1, iht.2]
              unfold visitCallIndirect
              rw [hk]
              try dsimp only
              simp only [h2, Bool.false_eq_true, if_false]
              constructor <;> trivial
    | getLocal index ty => simp [dceE, hr]
    | getGlobal n ty => simp [dceE, hr]
    | const ty => simp [dceE, hr]
    | nop => simp [dceE, hr]
    | unreachable => simp [dceE, hr]
    | setLocal index value ty =>
        have hwv : wfE value env = true := by
          simp only [wfE, Bool.and_eq_true] at hw
          exact hw.1
        have hciv : ciOKE value = true := by simpa [ciOKE] using hci
        have hdv : ∀ m, m ∈ boundBE value → m ∉ env :=
          fun m hm => hdisj m (by simpa [boundBE] using hm)
        have ihv := dceSLE value s env hwv hciv hdv hrb
        by_cases h1 : isUnreachable (dceE s value).2.1 = true
        · have hOut : (dceE s (Expr.setLocal index value ty)).2.1 =
              (dceE s value).2.1 := by
            simp only [dceE, hr, if_true]
            unfold visitSetLocal
            simp only [h1, if_true]
          have hSt : (dceE s (Expr.setLocal index value ty)).1 =
              (dceE s value).1 := by
            simp only [dceE, hr, if_true]
            unfold visitSetLocal
            simp only [h1, if_true]
          rw [hOut, hSt]
          exact ⟨ihv.1, ihv.2⟩
        · have hOut : (dceE s (Expr.setLocal index value ty)).2.1 =
              Expr.setLocal index (dceE s value).2.1 ty := by
            simp only [dceE, hr, if_true]
            unfold visitSetLocal
            simp only [h1, Bool.false_eq_true, if_false]
          have hSt : (dceE s (Expr.setLocal index value ty)).1 =
              (dceE s value).1 := by
            simp only [dceE, hr, if_true]
            unfold visitSetLocal
            simp only [h1, Bool.false_eq_true, if_false]
          rw [hOut, hSt]
          simp only [dceE, hr, if_true]
          rw [ihv.1, ihv.2]
          unfold visitSetLocal
          simp only [h1, Bool.false_eq_true, if_false]
          constructor <;> trivial
    | setGlobal n value ty =>
        have hwv : wfE value env = true := by
          simp only [wfE, Bool.and_eq_true] at hw
          exact hw.1
        have hciv : ciOKE value = true := by simpa [ciOKE] using hci
        have hdv : ∀ m, m ∈ boundBE value → m ∉ env :=
          fun m hm => hdisj m (by simpa [boundBE] using hm)
        have ihv := dceSLE value s env hwv hciv hdv hrb
        have hOut : (dceE s (Expr.setGlobal n value ty)).2.1 =
            Expr.setGlobal n (dceE s value).2.1 ty := by
          simp only [dceE, hr, if_true]
        have hSt : (dceE s (Expr.setGlobal n value ty)).1 =
            (dceE s value).1 := by
          simp only [dceE, hr, if_true]
        rw [hOut, hSt]
        simp only [dceE, hr, if_true]
        rw [ihv.1, ihv.2]
        constructor <;> trivial
    | load ptr ty =>
        have hwp : wfE ptr env = true := by
          simp only [wfE, Bool.and_eq_true] at hw
          exact hw.1
        have hcip : ciOKE ptr = true := by simpa [ciOKE] using hci
        have hdp : ∀ m, m ∈ boundBE ptr → m ∉ env :=
          fun m hm => hdisj m (by simpa [boundBE] using hm)
        have ihp := dceSLE ptr s env hwp hcip hdp hrb
        by_cases h1 : isUnreachable (dceE s ptr).2.1 = true
        · have hOut : (dceE s (Expr.load ptr ty)).2.1 =
              (dceE s ptr).2.1 := by
            simp only [dceE, hr, if_true]
            unfold visitLoad
            simp only [h1, if_true]
          have hSt : (dceE s (Expr.load ptr ty)).1 = (dceE s ptr).1 := by
            simp only [dceE, hr, if_true]
            unfold visitLoad
            simp only [h1, if_true]
          rw [hOut, hSt]
          exact ⟨ihp.1, ihp.2⟩
        · have hOut : (dceE s (Expr.load ptr ty)).2.1 =
              Expr.load (dceE s ptr).2.1 ty := by
            simp only [dceE, hr, if_true]
            unfold visitLoad
            simp only [h1, Bool.false_eq_true, if_false]
          have hSt : (dceE s (Expr.load ptr ty)).1 = (dceE s ptr).1 := by
            simp only [dceE, hr, if_true]
            unfold visitLoad
            simp only [h1, Bool.false_eq_true, if_false]
          rw [hOut, hSt]
          simp only [dceE, hr, if_true]
          rw [ihp.1, ihp.2]
          unfold visitLoad
          simp only [h1, Bool.false_eq_true, if_false]
          constructor <;> trivial
    | unary value ty =>
        have hwv : wfE value env = true := by
          simp only [wfE, Bool.and_eq_true] at hw
          exact hw.1
        have hciv : ciOKE value = true := by simpa [ciOKE] using hci
        have hdv : ∀ m, m ∈ boundBE value → m ∉ env :=
          fun m hm => hdisj m (by simpa [boundBE] using hm)
        have ihv := dceSLE value s env hwv hciv hdv hrb
        by_cases h1 : isUnreachable (dceE s value).2.1 = true
        · have hOut : (dceE s (Expr.unary value ty)).2.1 =
              (dceE s value).2.1 := by
            simp only [dceE, hr, if_true]
            unfold visitUnary
            simp only [h1, if_true]
          have hSt : (dceE s (Expr.unary value ty)).1 = (dceE s value).1 := by
            simp only [dceE, hr, if_true]
            unfold visitUnary
            simp only [h1, if_true]
          rw [hOut, hSt]
          exact ⟨ihv.1, ihv.2⟩
        · have hOut : (dceE s (Expr.unary value ty)).2.1 =
              Expr.unary (dceE s value).2.1 ty := by
            simp only [dceE, hr, if_true]
            unfold visitUnary
            simp only [h1, Bool.false_eq_true, if_false]
          have hSt : (dceE s (Expr.unary value ty)).1 = (dceE s value).1 := by
            simp only [dceE, hr, if_true]
            unfold visitUnary
            simp only [h1, Bool.false_eq_true, if_false]
          rw [hOut, hSt]
          simp only [dceE, hr, if_true]
          rw [ihv.1, ihv.2]
          unfold visitUnary
          simp only [h1, Bool.false_eq_true, if_false]
          constructor <;> trivial
    | drop value ty =>
        have hwv : wfE value env = true := by
          simp only [wfE, Bool.and_eq_true] at hw
          exact hw.1
        have hciv : ciOKE value = true := by simpa [ciOKE] using hci
        have hdv : ∀ m, m ∈ boundBE value → m ∉ env :=
          fun m hm => hdisj m (by simpa [boundBE] using hm)
        have ihv := dceSLE value s env hwv hciv hdv hrb
        by_cases h1 : isUnreachable (dceE s value).2.1 = true
        · have hOut : (dceE s (Expr.drop value ty)).2.1 =
              (dceE s value).2.1 := by
            simp only [dceE, hr, if_true]
            unfold visitDrop
            simp only [h1, if_true]
          have hSt : (dceE s (Expr.drop value ty)).1 = (dceE s value).1 := by
            simp only [dceE, hr, if_true]
            unfold visitDrop
            simp only [h1, if_true]
          rw [hOut, hSt]
          exact ⟨ihv.1, ihv.2⟩
        · have hOut : (dceE s (Expr.drop value ty)).2.1 =
              Expr.drop (dceE s value).2.1 ty := by
            simp only [dceE, hr, if_true]
            unfold visitDrop
            simp only [h1, Bool.false_eq_true, if_false]
          have hSt : (dceE s (Expr.drop value ty)).1 = (dceE s value).1 := by
            simp only [dceE, hr, if_true]
            unfold visitDrop
            simp only [h1, Bool.false_eq_true, if_false]
          rw [hOut, hSt]
          simp only [dceE, hr, if_true]
          rw [ihv.1, ihv.2]
          unfold visitDrop
          simp only [h1, Bool.false_eq_true, if_false]
          constructor <;> trivial
    | store ptr value ty =>
        have hw2 := hw
        simp only [wfE, Bool.and_eq_true] at hw2
        obtain ⟨⟨hwp, hwv⟩, hclause⟩ := hw2
        have hci2 := hci
        simp only [ciOKE, Bool.and_eq_true] at hci2
        obtain ⟨hcip, hciv⟩ := hci2
        have hdp : ∀ m, m ∈ boundBE ptr → m ∉ env :=
          fun m hm => hdisj m
            (by simp only [boundBE, List.mem_append]; tauto)
        have hdv : ∀ m, m ∈ boundBE value → m ∉ env :=
          fun m hm => hdisj m
            (by simp only [boundBE, List.mem_append]; tauto)
        have ihp := dceSLE ptr s env hwp hcip hdp hrb
        by_cases h1 : isUnreachable (dceE s ptr).2.1 = true
        · have hpd : (dceE s ptr).1.reachable = false :=
            dceINVE ptr s env hwp hdp hrb hr (isUnr_true_eq _ h1)
          have hOut : (dceE s (Expr.store ptr value ty)).2.1 =
              (dceE s ptr).2.1 := by
            simp only [dceE, hr, if_true]
            unfold visitStore
            simp only [h1, if_true]
          have hSt : (dceE s (Expr.store ptr value ty)).1 =
              (dceE s ptr).1 := by
            simp only [dceE, hr, if_true]
            unfold visitStore
            simp only [h1, if_true]
            try dsimp only
            exact (dceE_dead (dceE s ptr).1 value hpd).1
          rw [hOut, hSt]
          exact ⟨ihp.1, ihp.2⟩
        · have ihv := dceSLE value (dceE s ptr).1 env hwv hciv hdv
            (rbStayE ptr s env hwp hrb)
          by_cases h2 : isUnreachable (dceE (dceE s ptr).1 value).2.1 = true
          · have hnp : ¬ typeOf (dceE s ptr).2.1 = Typ.unreachable :=
              isUnr_false_ne _ (by simpa using h1)
            have hOut : (dceE s (Expr.store ptr value ty)).2.1 = Expr.block
                Option.none (ExprList.cons (dropOf (dceE s ptr).2.1)
                  (ExprList.cons (dceE (dceE s ptr).1 value).2.1
                    ExprList.nil)) ty := by
              simp only [dceE, hr, if_true]
              unfold visitStore
              simp only [h1, Bool.false_eq_true, if_false, h2, if_true]
            have hSt : (dceE s (Expr.store ptr value ty)).1 =
                (dceE (dceE s ptr).1 value).1 := by
              simp only [dceE, hr, if_true]
              unfold visitStore
              simp only [h1, Bool.false_eq_true, if_false, h2, if_true]
            rw [hOut, hSt, dropOf_eq_drop _ hnp]
            have hdr := reprocess_drop s (dceE s ptr).2.1 (dceE s ptr).1 hr
              ihp.1 ihp.2 hnp
            have hdead : (dceE (dceE s ptr).1 value).1.reachable = false := by
              by_cases hpr : (dceE s ptr).1.reachable = true
              · exact dceINVE value (dceE s ptr).1 env hwv hdv
                  (rbStayE ptr s env hwp hrb) hpr (isUnr_true_eq _ h2)
              · simp only [Bool.not_eq_true] at hpr
                rw [(dceE_dead (dceE s ptr).1 value hpr).1]
                exact hpr
            have hLf := dceL_two s (Expr.drop (dceE s ptr).2.1 Typ.none)
              (dceE (dceE s ptr).1 value).2.1 (dceE s ptr).1
              (dceE (dceE s ptr).1 value).1 hdr.1 hdr.2 ihv.1 ihv.2
            exact reprocess_block_generic s (dceE (dceE s ptr).1 value).1 _
              ty hr hLf.1 hLf.2 hdead (by simp [elength])
              (noEarlyUnr_cons _ _ (by simp [typeOf]) (by simp [noEarlyUnr]))
          · have hOut : (dceE s (Expr.store ptr value ty)).2.1 =
                Expr.store (dceE s ptr).2.1
                  (dceE (dceE s ptr).1 value).2.1 ty := by
              simp only [dceE, hr, if_true]
              unfold visitStore
              simp only [h1, Bool.false_eq_true, if_false, h2]
            have hSt : (dceE s (Expr.store ptr value ty)).1 =
                (dceE (dceE s ptr).1 value).1 := by
              simp only [dceE, hr, if_true]
              unfold visitStore
              simp only [h1, Bool.false_eq_true, if_false, h2]
            rw [hOut, hSt]
            simp only [dceE, hr, if_true]
            rw [ihp.1, ihp.2, ihv.1, ihv.2]
            unfold visitStore
            simp only [h1, Bool.false_eq_true, if_false, h2]
            constructor <;> trivial
    | binary lhs rhs ty =>
        have hw2 := hw
        simp only [wfE, Bool.and_eq_true] at hw2
        obtain ⟨⟨hwp, hwv⟩, hclause⟩ := hw2
        have hci2 := hci
        simp only [ciOKE, Bool.and_eq_true] at hci2
        obtain ⟨hcip, hciv⟩ := hci2
        have hdp : ∀ m, m ∈ boundBE lhs → m ∉ env :=
          fun m hm => hdisj m
            (by simp only [boundBE, List.mem_append]; tauto)
        have hdv : ∀ m, m ∈ boundBE rhs → m ∉ env :=
          fun m hm => hdisj m
            (by simp only [boundBE, List.mem_append]; tauto)
        have ihp := dceSLE lhs s env hwp hcip hdp hrb
        by_cases h1 : isUnreachable (dceE s lhs).2.1 = true
        · have hpd : (dceE s lhs).1.reachable = false :=
            dceINVE lhs s env hwp hdp hrb hr (isUnr_true_eq _ h1)
          have hOut : (dceE s (Expr.binary lhs rhs ty)).2.1 =
              (dceE s lhs).2.1 := by
            simp only [dceE, hr, if_true]
            unfold visitBinary
            simp only [h1, if_true]
          have hSt : (dceE s (Expr.binary lhs rhs ty)).1 =
              (dceE s lhs).1 := by
            simp only [dceE, hr, if_true]
            unfold visitBinary
            simp only [h1, if_true]
            try dsimp only
            exact (dceE_dead (dceE s lhs).1 rhs hpd).1
          rw [hOut, hSt]
          exact ⟨ihp.1, ihp.2⟩
        · have ihv := dceSLE rhs (dceE s lhs).1 env hwv hciv hdv
            (rbStayE lhs s env hwp hrb)
          by_cases h2 : isUnreachable (dceE (dceE s lhs).1 rhs).2.1 = true
          · have hnp : ¬ typeOf (dceE s lhs).2.1 = Typ.unreachable :=
              isUnr_false_ne _ (by simpa using h1)
            have hOut : (dceE s (Expr.binary lhs rhs ty)).2.1 = Expr.block
                Option.none (ExprList.cons (dropOf (dceE s lhs).2.1)
                  (ExprList.cons (dceE (dceE s lhs).1 rhs).2.1
                    ExprList.nil)) ty := by
              simp only [dceE, hr, if_true]
              unfold visitBinary
              simp only [h1, Bool.false_eq_true, if_false, h2, if_true]
            have hSt : (dceE s (Expr.binary lhs rhs ty)).1 =
                (dceE (dceE s lhs).1 rhs).1 := by
              simp only [dceE, hr, if_true]
              unfold visitBinary
              simp only [h1, Bool.false_eq_true, if_false, h2, if_true]
            rw [hOut, hSt, dropOf_eq_drop _ hnp]
            have hdr := reprocess_drop s (dceE s lhs).2.1 (dceE s lhs).1 hr
              ihp.1 ihp.2 hnp
            have hdead : (dceE (dceE s lhs).1 rhs).1.reachable = false := by
              by_cases hpr : (dceE s lhs).1.reachable = true
              · exact dceINVE rhs (dceE s lhs).1 env hwv hdv
                  (rbStayE lhs s env hwp hrb) hpr (isUnr_true_eq _ h2)
              · simp only [Bool.not_eq_true] at hpr
                rw [(dceE_dead (dceE s lhs).1 rhs hpr).1]
                exact hpr
            have hLf := dceL_two s (Expr.drop (dceE s lhs).2.1 Typ.none)
              (dceE (dceE s lhs).1 rhs).2.1 (dceE s lhs).1
              (dceE (dceE s lhs).1 rhs).1 hdr.1 hdr.2 ihv.1 ihv.2
            exact reprocess_block_generic s (dceE (dceE s lhs).1 rhs).1 _
              ty hr hLf.1 hLf.2 hdead (by simp [elength])
              (noEarlyUnr_cons _ _ (by simp [typeOf]) (by simp [noEarlyUnr]))
          · have hOut : (dceE s (Expr.binary lhs rhs ty)).2.1 =
                Expr.binary (dceE s lhs).2.1
                  (dceE (dceE s lhs).1 rhs).2.1 ty := by
              simp only [dceE, hr, if_true]
              unfold visitBinary
              simp only [h1, Bool.false_eq_true, if_false, h2]
            have hSt : (dceE s (Expr.binary lhs rhs ty)).1 =
                (dceE (dceE s lhs).1 rhs).1 := by
              simp only [dceE, hr, if_true]
              unfold visitBinary
              simp only [h1, Bool.false_eq_true, if_false, h2]
            rw [hOut, hSt]
            simp only [dceE, hr, if_true]
            rw [ihp.1, ihp.2, ihv.1, ihv.2]
            unfold visitBinary
            simp only [h1, Bool.false_eq_true, if_false, h2]
            constructor <;> trivial
    | select ifT ifF cnd ty =>
        have hw2 := hw
        simp only [wfE, Bool.and_eq_true] at hw2
        obtain ⟨⟨⟨hwt, hwf⟩, hwc⟩, hclause⟩ := hw2
        have hci2 := hci
        simp only [ciOKE, Bool.and_eq_true] at hci2
        obtain ⟨⟨hcit, hcif⟩, hcic⟩ := hci2
        have hdt : ∀ m, m ∈ boundBE ifT → m ∉ env :=
          fun m hm => hdisj m
            (by simp only [boundBE, List.mem_append]; tauto)
        have hdf : ∀ m, m ∈ boundBE ifF → m ∉ env :=
          fun m hm => hdisj m
            (by simp only [boundBE, List.mem_append]; tauto)
        have hdc : ∀ m, m ∈ boundBE cnd → m ∉ env :=
          fun m hm => hdisj m
            (by simp only [boundBE, List.mem_append]; tauto)
        have iht := dceSLE ifT s env hwt hcit hdt hrb
        by_cases h1 : isUnreachable (dceE s ifT).2.1 = true
        · have htd : (dceE s ifT).1.reachable = false :=
            dceINVE ifT s env hwt hdt hrb hr (isUnr_true_eq _ h1)
          have hOut : (dceE s (Expr.select ifT ifF cnd ty)).2.1 =
              (dceE s ifT).2.1 := by
            simp only [dceE, hr, if_true]
            unfold visitSelect
            simp only [h1, if_true]
          have hSt : (dceE s (Expr.select ifT ifF cnd ty)).1 =
              (dceE s ifT).1 := by
            simp only [dceE, hr, if_true]
            unfold visitSelect
            simp only [h1, if_true]
            try dsimp only
            rw [(dceE_dead (dceE s ifT).1 ifF htd).1,
              (dceE_dead (dceE s ifT).1 cnd htd).1]
          rw [hOut, hSt]
          exact ⟨iht.1, iht.2⟩
        · have ihf := dceSLE ifF (dceE s ifT).1 env hwf hcif hdf
            (rbStayE ifT s env hwt hrb)
          by_cases h2 : isUnreachable (dceE (dceE s ifT).1 ifF).2.1 = true
          · have hnt : ¬ typeOf (dceE s ifT).2.1 = Typ.unreachable :=
              isUnr_false_ne _ (by simpa using h1)
            have hfd : (dceE (dceE s ifT).1 ifF).1.reachable = false := by
              by_cases htr : (dceE s ifT).1.reachable = true
              · exact dceINVE ifF (dceE s ifT).1 env hwf hdf
                  (rbStayE ifT s env hwt hrb) htr (isUnr_true_eq _ h2)
              · simp only [Bool.not_eq_true] at htr
                rw [(dceE_dead (dceE s ifT).1 ifF htr).1]
                exact htr
            have hOut : (dceE s (Expr.select ifT ifF cnd ty)).2.1 =
                Expr.block Option.none
                  (ExprList.cons (dropOf (dceE s ifT).2.1)
                    (ExprList.cons (dceE (dceE s ifT).1 ifF).2.1
                      ExprList.nil)) ty := by
              simp only [dceE, hr, if_true]
              unfold visitSelect
              simp only [h1, Bool.false_eq_true, if_false, h2, if_true]
            have hSt : (dceE s (Expr.select ifT ifF cnd ty)).1 =
                (dceE (dceE s ifT).1 ifF).1 := by
              simp only [dceE, hr, if_true]
              unfold visitSelect
              simp only [h1, Bool.false_eq_true, if_false, h2, if_true]
              try dsimp only
              rw [(dceE_dead (dceE (dceE s ifT).1 ifF).1 cnd hfd).1]
            rw [hOut, hSt, dropOf_eq_drop _ hnt]
            have hdr := reprocess_drop s (dceE s ifT).2.1 (dceE s ifT).1 hr
              iht.1 iht.2 hnt
            have hLf := dceL_two s (Expr.drop (dceE s ifT).2.1 Typ.none)
              (dceE (dceE s ifT).1 ifF).2.1 (dceE s ifT).1
              (dceE (dceE s ifT).1 ifF).1 hdr.1 hdr.2 ihf.1 ihf.2
            exact reprocess_block_generic s (dceE (dceE s ifT).1 ifF).1 _
              ty hr hLf.1 hLf.2 hfd (by simp [elength])
              (noEarlyUnr_cons _ _ (by simp [typeOf]) (by simp [noEarlyUnr]))
          · have hr1 : (dceE s ifT).1.reachable = true := by
              by_contra hc
              simp only [Bool.not_eq_true] at hc
              rw [(dceE_dead (dceE s ifT).1 ifF hc).2] at h2
              simp [isUnreachable, typeOf] at h2
            have ihc := dceSLE cnd (dceE (dceE s ifT).1 ifF).1 env hwc hcic
              hdc (rbStayE ifF (dceE s ifT).1 env hwf
                (rbStayE ifT s env hwt hrb))
            by_cases h3 : isUnreachable
                (dceE (dceE (dceE s ifT).1 ifF).1 cnd).2.1 = true
            · have hnt : ¬ typeOf (dceE s ifT).2.1 = Typ.unreachable :=
                isUnr_false_ne _ (by simpa using h1)
              have hnf : ¬ typeOf (dceE (dceE s ifT).1 ifF).2.1 =
                  Typ.unreachable := isUnr_false_ne _ (by simpa using h2)
              have hcd : (dceE (dceE (dceE s ifT).1 ifF).1 cnd).1.reachable
                  = false := by
                by_cases hfr : (dceE (dceE s ifT).1 ifF).1.reachable = true
                · exact dceINVE cnd (dceE (dceE s ifT).1 ifF).1 env hwc hdc
                    (rbStayE ifF (dceE s ifT).1 env hwf
                      (rbStayE ifT s env hwt hrb)) hfr (isUnr_true_eq _ h3)
                · simp only [Bool.not_eq_true] at hfr
                  rw [(dceE_dead (dceE (dceE s ifT).1 ifF).1 cnd hfr).1]
                  exact hfr
              have hOut : (dceE s (Expr.select ifT ifF cnd ty)).2.1 =
                  Expr.block Option.none
                    (ExprList.cons (dropOf (dceE s ifT).2.1)
                      (ExprList.cons (dropOf (dceE (dceE s ifT).1 ifF).2.1)
                        (ExprList.cons
                          (dceE (dceE (dceE s ifT).1 ifF).1 cnd).2.1
                          ExprList.nil))) ty := by
                simp only [dceE, hr, if_true]
                unfold visitSelect
                simp only [h1, Bool.false_eq_true, if_false, h2, h3, if_true]
              have hSt : (dceE s (Expr.select ifT ifF cnd ty)).1 =
                  (dceE (dceE (dceE s ifT).1 ifF).1 cnd).1 := by
                simp only [dceE, hr, if_true]
                unfold visitSelect
                simp only [h1, Bool.false_eq_true, if_false, h2, h3, if_true]
              rw [hOut, hSt, dropOf_eq_drop _ hnt, dropOf_eq_drop _ hnf]
              have hdrt := reprocess_drop s (dceE s ifT).2.1 (dceE s ifT).1
                hr iht.1 iht.2 hnt
              have hdrf := reprocess_drop (dceE s ifT).1
                (dceE (dceE s ifT).1 ifF).2.1 (dceE (dceE s ifT).1 ifF).1
                hr1 ihf.1 ihf.2 hnf
              have hLf := dceL_three s (Expr.drop (dceE s ifT).2.1 Typ.none)
                (Expr.drop (dceE (dceE s ifT).1 ifF).2.1 Typ.none)
                (dceE (dceE (dceE s ifT).1 ifF).1 cnd).2.1
                (dceE s ifT).1 (dceE (dceE s ifT).1 ifF).1
                (dceE (dceE (dceE s ifT).1 ifF).1 cnd).1
                hdrt.1 hdrt.2 hdrf.1 hdrf.2 ihc.1 ihc.2
              exact reprocess_block_generic s
                (dceE (dceE (dceE s ifT).1 ifF).1 cnd).1 _ ty hr hLf.1
                hLf.2 hcd (by simp [elength])
                (noEarlyUnr_cons _ _ (by simp [typeOf])
                  (noEarlyUnr_cons _ _ (by simp [typeOf])
                    (by simp [noEarlyUnr])))
            · have hOut : (dceE s (Expr.select ifT ifF cnd ty)).2.1 =
                  Expr.select (dceE s ifT).2.1
                    (dceE (dceE s ifT).1 ifF).2.1
                    (dceE (dceE (dceE s ifT).1 ifF).1 cnd).2.1 ty := by
                simp only [dceE, hr, if_true]
                unfold visitSelect
                simp only [h1, Bool.false_eq_true, if_false, h2, h3]
              have hSt : (dceE s (Expr.select ifT ifF cnd ty)).1 =
                  (dceE (dceE (dceE s ifT).1 ifF).1 cnd).1 := by
                simp only [dceE, hr, if_true]
                unfold visitSelect
                simp only [h1, Bool.false_eq_true, if_false, h2, h3]
              rw [hOut, hSt]
              simp only [dceE, hr, if_true]
              rw [iht.1, iht.2, ihf.1, ihf.2, ihc.1, ihc.2]
              unfold visitSelect
              simp only [h1, Bool.false_eq_true, if_false, h2, h3]
              constructor <;> trivial
    | ret value =>
        have hci2 := hci
        cases value with
        | none =>
            have hOut : (dceE s (Expr.ret ExprOpt.none)).2.1 =
                Expr.ret ExprOpt.none := by
              simp only [dceE, hr, if_true]
              simp only [dceO]
              unfold visitReturn
              simp only [isDead_none_eq, Bool.false_eq_true, if_false]
            rw [hOut]
            exact ⟨rfl, hOut⟩
        | some vv =>
            have hwvv : wfE vv env = true := by simpa [wfE, wfO] using hw
            have hcivv : ciOKE vv = true := by simpa [ciOKE, ciOKO] using hci
            have hdvv : ∀ m, m ∈ boundBE vv → m ∉ env :=
              fun m hm => hdisj m (by simpa [boundBE, boundBO] using hm)
            have ihvv := dceSLE vv s env hwvv hcivv hdvv hrb
            by_cases h1 : isDead (ExprOpt.some (dceE s vv).2.1) = true
            · have hOut : (dceE s (Expr.ret (ExprOpt.some vv))).2.1 =
                  (dceE s vv).2.1 := by
                simp only [dceE, hr, if_true]
                simp only [dceO]
                unfold visitReturn
                simp only [h1, if_true]
                simp only [egetO]
              have hSt : (dceE s (Expr.ret (ExprOpt.some vv))).1 =
                  (dceE s vv).1 := by
                simp only [dceE, hr, if_true]
                simp only [dceO]
                unfold visitReturn
                simp only [h1, if_true]
              rw [hOut, hSt]
              exact ⟨ihvv.1, ihvv.2⟩
            · have hOut : (dceE s (Expr.ret (ExprOpt.some vv))).2.1 =
                  Expr.ret (ExprOpt.some (dceE s vv).2.1) := by
                simp only [dceE, hr, if_true]
                simp only [dceO]
                unfold visitReturn
                simp only [h1, Bool.false_eq_true, if_false]
              have hSt : (dceE s (Expr.ret (ExprOpt.some vv))).1 =
                  { (dceE s vv).1 with reachable := false } := by
                simp only [dceE, hr, if_true]
                simp only [dceO]
                unfold visitReturn
                simp only [h1, Bool.false_eq_true, if_false]
              rw [hOut, hSt]
              simp only [dceE, hr, if_true]
              simp only [dceO]
              rw [ihvv.1, ihvv.2]
              unfold visitReturn
              simp only [h1, Bool.false_eq_true, if_false]
              constructor <;> trivial
  · simp only [Bool.not_eq_true] at hr
    have h2 := dceE_dead s e hr
    have h3 := dceE_dead s Expr.unreachable hr
    constructor
    · rw [h2.2, h3.1, h2.1]
    · rw [h2.2, h3.2]
termination_by 2 * sizeOf e
decreasing_by all_goals (subst_vars; simp_wf; try omega)

/-- Reprocessing a replacement produced by `handleCall` from the same state is
the identity. -/
theorem dceSLcall (ops : ExprList) (s : St) (env : List Name) (r : Expr)
    (ty : Typ)
    (hw : wfL ops env = true) (hci : ciOKL ops = true)
    (hdisj : ∀ m, m ∈ boundBL ops → m ∉ env)
    (hrb : ∀ x, x ∈ s.reachableBreaks → x ∈ env)
    (hr : s.reachable = true)
    (hk : handleCall (dceL s ops).2.1 ty = Option.some r) :
    (dceE s r).1 = (dceL s ops).1 ∧ (dceE s r).2.1 = r := by
  unfold handleCall at hk
  cases hf : firstUnreachableIdx (dceL s ops).2.1 with
  | none =>
      rw [hf] at hk
      simp at hk
  | some k =>
      rw [hf] at hk
      dsimp only at hk
      by_cases hk0 : k = 0
      · subst hk0
        rw [if_pos rfl] at hk
        injection hk with hk
        cases ops with
        | nil =>
            rw [show (dceL s ExprList.nil).2.1 = ExprList.nil from
              by simp [dceL]] at hf
            simp [firstUnreachableIdx] at hf
        | cons a tl =>
            have hwa : wfE a env = true := by
              simp only [wfL, Bool.and_eq_true] at hw
              exact hw.1
            have hcia : ciOKE a = true := by
              simp only [ciOKL, Bool.and_eq_true] at hci
              exact hci.1
            have hda : ∀ m, m ∈ boundBE a → m ∉ env :=
              fun m hm => hdisj m
                (by simp only [boundBL, List.mem_append]; tauto)
            have iha := dceSLE a s env hwa hcia hda hrb
            have hra : r = (dceE s a).2.1 := by
              rw [← hk]
              simp only [dceL]
              simp [egetD]
            have hu : typeOf (dceE s a).2.1 = Typ.unreachable := by
              have h5 := firstUnr_typeOf _ 0 hf
              simp only [dceL] at h5
              simpa [egetD] using h5
            have hdead := dceINVE a s env hwa hda hrb hr hu
            have hst : (dceL s (ExprList.cons a tl)).1 = (dceE s a).1 := by
              simp only [dceL]
              exact (dceL_dead (dceE s a).1 tl hdead).1
            rw [hra, hst]
            exact ⟨iha.1, iha.2⟩
      · rw [if_neg hk0] at hk
        injection hk with hk
        have hdrops := dceSLdrops ops s k env hw hci hdisj hrb hr hf
        have hdead := dceINVL ops s env hw hdisj hrb
          (hasUnr_of_firstUnr _ k hf)
        have hlt := firstUnr_lt _ k hf
        have hlenL : elength (emap dropOf
            (etake (k + 1) (dceL s ops).2.1)) > 1 := by
          rw [elength_emap, elength_etake_le _ (k + 1) (by omega)]
          omega
        have hne := noEmapTake (dceL s ops).2.1 k hf
        rw [← hk]
        exact reprocess_block_generic s (dceL s ops).1 _ ty hr hdrops.1
          hdrops.2 hdead hlenL hne
termination_by 2 * sizeOf ops + 1
decreasing_by all_goals (subst_vars; simp_wf; try omega)

/-- Reprocessing the output list of the walk from the same state is the
identity. -/
theorem dceSLL (l : ExprList) (s : St) (env : List Name)
    (hw : wfL l env = true) (hci : ciOKL l = true)
    (hdisj : ∀ m, m ∈ boundBL l → m ∉ env)
    (hrb : ∀ x, x ∈ s.reachableBreaks → x ∈ env) :
    (dceL s (dceL s l).2.1).1 = (dceL s l).1 ∧
    (dceL s (dceL s l).2.1).2.1 = (dceL s l).2.1 := by
  by_cases hr : s.reachable = true
  · cases l with
    | nil => simp [dceL]
    | cons a tl =>
        have hwa : wfE a env = true := by
          simp only [wfL, Bool.and_eq_true] at hw
          exact hw.1
        have hwtl : wfL tl env = true := by
          simp only [wfL, Bool.and_eq_true] at hw
          exact hw.2
        have hcia : ciOKE a = true := by
          simp only [ciOKL, Bool.and_eq_true] at hci
          exact hci.1
        have hcitl : ciOKL tl = true := by
          simp only [ciOKL, Bool.and_eq_true] at hci
          exact hci.2
        have hda : ∀ m, m ∈ boundBE a → m ∉ env :=
          fun m hm => hdisj m
            (by simp only [boundBL, List.mem_append]; tauto)
        have hdtl : ∀ m, m ∈ boundBL tl → m ∉ env :=
          fun m hm => hdisj m
            (by simp only [boundBL, List.mem_append]; tauto)
        have iha := dceSLE a s env hwa hcia hda hrb
        have ihtl := dceSLL tl (dceE s a).1 env hwtl hcitl hdtl
          (rbStayE a s env hwa hrb)
        constructor
        · simp only [dceL]
          rw [iha.1, ihtl.1]
        · simp only [dceL]
          rw [iha.1, iha.2, ihtl.2]
  · simp only [Bool.not_eq_true] at hr
    have h1 := dceL_dead s l hr
    have h2 := dceL_dead s (killAll l) hr
    constructor
    · rw [h1.2, h2.1, h1.1]
    · rw [h1.2, h2.2, killAll_killAll]
termination_by 2 * sizeOf l
decreasing_by all_goals (subst_vars; simp_wf; try omega)

/-- Reprocessing the truncation of the output list from the same state is the
identity. -/
theorem dceSLLshort (l : ExprList) (s : St) (env : List Name)
    (hw : wfL l env = true) (hci : ciOKL l = true)
    (hdisj : ∀ m, m ∈ boundBL l → m ∉ env)
    (hrb : ∀ x, x ∈ s.reachableBreaks → x ∈ env)
    (hr : s.reachable = true) :
    (dceL s (shorten (dceL s l).2.1)).1 = (dceL s l).1 ∧
    (dceL s (shorten (dceL s l).2.1)).2.1 = shorten (dceL s l).2.1 := by
  cases l with
  | nil => simp [dceL, shorten]
  | cons a tl =>
      have hwa : wfE a env = true := by
        simp only [wfL, Bool.and_eq_true] at hw
        exact hw.1
      have hwtl : wfL tl env = true := by
        simp only [wfL, Bool.and_eq_true] at hw
        exact hw.2
      have hcia : ciOKE a = true := by
        simp only [ciOKL, Bool.and_eq_true] at hci
        exact hci.1
      have hcitl : ciOKL tl = true := by
        simp only [ciOKL, Bool.and_eq_true] at hci
        exact hci.2
      have hda : ∀ m, m ∈ boundBE a → m ∉ env :=
        fun m hm => hdisj m
          (by simp only [boundBL, List.mem_append]; tauto)
      have hdtl : ∀ m, m ∈ boundBL tl → m ∉ env :=
        fun m hm => hdisj m
          (by simp only [boundBL, List.mem_append]; tauto)
      have iha := dceSLE a s env hwa hcia hda hrb
      have hcc : (dceL s (ExprList.cons a tl)).2.1 =
          ExprList.cons (dceE s a).2.1 (dceL (dceE s a).1 tl).2.1 := by
        simp only [dceL]
      cases htl : (dceL (dceE s a).1 tl).2.1 with
      | nil =>
          have hlen := dceL_elength tl (dceE s a).1
          rw [htl] at hlen
          cases tl with
          | cons b bs => simp [elength] at hlen
          | nil =>
              constructor
              · rw [hcc, htl]
                rw [show shorten (ExprList.cons (dceE s a).2.1 ExprList.nil)
                    = ExprList.cons (dceE s a).2.1 ExprList.nil from by
                  simp [shorten]]
                simp only [dceL]
                rw [iha.1]
              · rw [hcc, htl]
                rw [show shorten (ExprList.cons (dceE s a).2.1 ExprList.nil)
                    = ExprList.cons (dceE s a).2.1 ExprList.nil from by
                  simp [shorten]]
                simp only [dceL]
                rw [iha.2]
      | cons u us =>
          by_cases hua : typeOf (dceE s a).2.1 = Typ.unreachable
          · have hdead := dceINVE a s env hwa hda hrb hr hua
            have htl2 := dceL_dead (dceE s a).1 tl hdead
            have hsh : shorten (dceL s (ExprList.cons a tl)).2.1 =
                ExprList.cons (dceE s a).2.1 ExprList.nil := by
              rw [hcc, htl]
              simp [shorten, hua]
            rw [hsh]
            constructor
            · simp only [dceL]
              rw [iha.1, htl2.1]
            · simp only [dceL]
              rw [iha.2]
          · have hsh : shorten (dceL s (ExprList.cons a tl)).2.1 =
                ExprList.cons (dceE s a).2.1
                  (shorten (dceL (dceE s a).1 tl).2.1) := by
              rw [hcc, htl]
              rw [shorten_cons_of_ne _ _ _ hua]
            rw [hsh]
            by_cases hra : (dceE s a).1.reachable = true
            · have ihtl := dceSLLshort tl (dceE s a).1 env hwtl hcitl hdtl
                (rbStayE a s env hwa hrb) hra
              constructor
              · simp only [dceL]
                rw [iha.1, ihtl.1]
              · simp only [dceL]
                rw [iha.1, iha.2, ihtl.2]
            · simp only [Bool.not_eq_true] at hra
              have htl2 := dceL_dead (dceE s a).1 tl hra
              have hlen := dceL_elength tl (dceE s a).1
              rw [htl] at hlen
              cases tl with
              | nil => simp [elength] at hlen
              | cons b bs =>
                  have hsk : shorten (dceL (dceE s a).1
                      (ExprList.cons b bs)).2.1 =
                      ExprList.cons Expr.unreachable ExprList.nil := by
                    rw [htl2.2]
                    cases bs with
                    | nil => simp [killAll, shorten]
                    | cons q qs => simp [killAll, shorten, typeOf]
                  rw [hsk]
                  have hrd := dceE_dead (dceE s a).1 Expr.unreachable hra
                  have h9 := htl2.1
                  simp only [dceL] at h9
                  constructor
                  · simp only [dceL]
                    rw [iha.1, hrd.1, h9]
                  · simp only [dceL]
                    rw [iha.1, iha.2, hrd.2]
termination_by 2 * sizeOf l
decreasing_by all_goals (subst_vars; simp_wf; try omega)

/-- Reprocessing the Drop-wrapped prefix built by `handleCall` (up to and
including the first unreachable element) from the same state is the
identity. -/
theorem dceSLdrops (l : ExprList) (s : St) (k : Nat) (env : List Name)
    (hw : wfL l env = true) (hci : ciOKL l = true)
    (hdisj : ∀ m, m ∈ boundBL l → m ∉ env)
    (hrb : ∀ x, x ∈ s.reachableBreaks → x ∈ env)
    (hr : s.reachable = true)
    (hf : firstUnreachableIdx (dceL s l).2.1 = Option.some k) :
    (dceL s (emap dropOf (etake (k + 1) (dceL s l).2.1))).1 =
      (dceL s l).1 ∧
    (dceL s (emap dropOf (etake (k + 1) (dceL s l).2.1))).2.1 =
      emap dropOf (etake (k + 1) (dceL s l).2.1) := by
  cases l with
  | nil =>
      rw [show (dceL s ExprList.nil).2.1 = ExprList.nil from by
        simp [dceL]] at hf
      simp [firstUnreachableIdx] at hf
  | cons a tl =>
      have hwa : wfE a env = true := by
        simp only [wfL, Bool.and_eq_true] at hw
        exact hw.1
      have hwtl : wfL tl env = true := by
        simp only [wfL, Bool.and_eq_true] at hw
        exact hw.2
      have hcia : ciOKE a = true := by
        simp only [ciOKL, Bool.and_eq_true] at hci
        exact hci.1
      have hcitl : ciOKL tl = true := by
        simp only [ciOKL, Bool.and_eq_true] at hci
        exact hci.2
      have hda : ∀ m, m ∈ boundBE a → m ∉ env :=
        fun m hm => hdisj m
          (by simp only [boundBL, List.mem_append]; tauto)
      have hdtl : ∀ m, m ∈ boundBL tl → m ∉ env :=
        fun m hm => hdisj m
          (by simp only [boundBL, List.mem_append]; tauto)
      have iha := dceSLE a s env hwa hcia hda hrb
      have hcc : (dceL s (ExprList.cons a tl)).2.1 =
          ExprList.cons (dceE s a).2.1 (dceL (dceE s a).1 tl).2.1 := by
        simp only [dceL]
      by_cases hua : typeOf (dceE s a).2.1 = Typ.unreachable
      · have hk0 : k = 0 := by
          rw [hcc] at hf
          simp only [firstUnreachableIdx, hua, if_true,
            Option.some.injEq] at hf
          omega
        subst hk0
        have hdead := dceINVE a s env hwa hda hrb hr hua
        have htl2 := dceL_dead (dceE s a).1 tl hdead
        have hterm : emap dropOf (etake (0 + 1)
            (dceL s (ExprList.cons a tl)).2.1) =
            ExprList.cons (dceE s a).2.1 ExprList.nil := by
          rw [hcc]
          simp [etake, emap, dropOf, hua]
        rw [hterm]
        constructor
        · simp only [dceL]
          rw [iha.1, htl2.1]
        · simp only [dceL]
          rw [iha.2]
      · cases k with
        | zero =>
            exfalso
            rw [hcc] at hf
            simp only [firstUnreachableIdx, hua, if_false] at hf
            rcases Option.map_eq_some'.mp hf with ⟨j, hj, hjk⟩
            omega
        | succ j =>
            have hfT : firstUnreachableIdx (dceL (dceE s a).1 tl).2.1 =
                Option.some j := by
              rw [hcc] at hf
              exact (firstUnr_cons_pos _ _ j hf).2
            have hterm : emap dropOf (etake (j + 1 + 1)
                (dceL s (ExprList.cons a tl)).2.1) =
                ExprList.cons (Expr.drop (dceE s a).2.1 Typ.none)
                  (emap dropOf (etake (j + 1)
                    (dceL (dceE s a).1 tl).2.1)) := by
              rw [hcc]
              simp only [etake, emap]
              rw [dropOf_eq_drop _ hua]
            rw [hterm]
            have hdr := reprocess_drop s (dceE s a).2.1 (dceE s a).1 hr
              iha.1 iha.2 hua
            by_cases hra : (dceE s a).1.reachable = true
            · have ihtl := dceSLdrops tl (dceE s a).1 j env hwtl hcitl hdtl
                (rbStayE a s env hwa hrb) hra hfT
              constructor
              · simp only [dceL]
                rw [hdr.1, ihtl.1]
              · simp only [dceL]
                rw [hdr.1, hdr.2, ihtl.2]
            · simp only [Bool.not_eq_true] at hra
              have htl2 := dceL_dead (dceE s a).1 tl hra
              rw [htl2.2] at hfT
              cases tl with
              | nil => simp [killAll, firstUnreachableIdx] at hfT
              | cons b bs =>
                  have hj0 : j = 0 := by
                    simp [killAll, firstUnreachableIdx, typeOf] at hfT
                    omega
                  subst hj0
                  have hres : emap dropOf (etake (0 + 1)
                      (dceL (dceE s a).1 (ExprList.cons b bs)).2.1) =
                      ExprList.cons Expr.unreachable ExprList.nil := by
                    rw [htl2.2]
                    simp [killAll, etake, emap, dropOf, typeOf]
                  rw [hres]
                  have hrd := dceE_dead (dceE s a).1 Expr.unreachable hra
                  have h9 := htl2.1
                  simp only [dceL] at h9
                  constructor
                  · simp only [dceL]
                    rw [hdr.1, hrd.1, h9]
                  · simp only [dceL]
                    rw [hdr.1, hdr.2, hrd.2]
termination_by 2 * sizeOf l
decreasing_by all_goals (subst_vars; simp_wf; try omega)

/-- Reprocessing the fully Drop-wrapped output list (no unreachable element)
from the same state is the identity. -/
theorem dceSLdropsAll (l : ExprList) (s : St) (env : List Name)
    (hw : wfL l env = true) (hci : ciOKL l = true)
    (hdisj : ∀ m, m ∈ boundBL l → m ∉ env)
    (hrb : ∀ x, x ∈ s.reachableBreaks → x ∈ env)
    (hr : s.reachable = true)
    (hf : firstUnreachableIdx (dceL s l).2.1 = Option.none) :
    (dceL s (emap dropOf (dceL s l).2.1)).1 = (dceL s l).1 ∧
    (dceL s (emap dropOf (dceL s l).2.1)).2.1 =
      emap dropOf (dceL s l).2.1 := by
  cases l with
  | nil =>
      rw [show (dceL s ExprList.nil).2.1 = ExprList.nil from by
        simp [dceL]]
      simp [dceL, emap]
  | cons a tl =>
      have hwa : wfE a env = true := by
        simp only [wfL, Bool.and_eq_true] at hw
        exact hw.1
      have hwtl : wfL tl env = true := by
        simp only [wfL, Bool.and_eq_true] at hw
        exact hw.2
      have hcia : ciOKE a = true := by
        simp only [ciOKL, Bool.and_eq_true] at hci
        exact hci.1
      have hcitl : ciOKL tl = true := by
        simp only [ciOKL, Bool.and_eq_true] at hci
        exact hci.2
      have hda : ∀ m, m ∈ boundBE a → m ∉ env :=
        fun m hm => hdisj m
          (by simp only [boundBL, List.mem_append]; tauto)
      have hdtl : ∀ m, m ∈ boundBL tl → m ∉ env :=
        fun m hm => hdisj m
          (by simp only [boundBL, List.mem_append]; tauto)
      have iha := dceSLE a s env hwa hcia hda hrb
      have hcc : (dceL s (ExprList.cons a tl)).2.1 =
          ExprList.cons (dceE s a).2.1 (dceL (dceE s a).1 tl).2.1 := by
        simp only [dceL]
      have hparts := by
        rw [hcc] at hf
        exact firstUnr_cons_none _ _ hf
      obtain ⟨hua, hfT⟩ := hparts
      have hterm : emap dropOf (dceL s (ExprList.cons a tl)).2.1 =
          ExprList.cons (Expr.drop (dceE s a).2.1 Typ.none)
            (emap dropOf (dceL (dceE s a).1 tl).2.1) := by
        rw [hcc]
        simp only [emap]
        rw [dropOf_eq_drop _ hua]
      rw [hterm]
      have hdr := reprocess_drop s (dceE s a).2.1 (dceE s a).1 hr iha.1
        iha.2 hua
      by_cases hra : (dceE s a).1.reachable = true
      · have ihtl := dceSLdropsAll tl (dceE s a).1 env hwtl hcitl hdtl
          (rbStayE a s env hwa hrb) hra hfT
        constructor
        · simp only [dceL]
          rw [hdr.1, ihtl.1]
        · simp only [dceL]
          rw [hdr.1, hdr.2, ihtl.2]
      · simp only [Bool.not_eq_true] at hra
        have htl2 := dceL_dead (dceE s a).1 tl hra
        rw [htl2.2] at hfT
        cases tl with
        | cons b bs => simp [killAll, firstUnreachableIdx, typeOf] at hfT
        | nil =>
            have hres : emap dropOf (dceL (dceE s a).1 ExprList.nil).2.1 =
                ExprList.nil := by
              simp [dceL, emap]
            rw [hres]
            constructor
            · simp only [dceL]
              rw [hdr.1]
            · simp only [dceL]
              rw [hdr.2]
termination_by 2 * sizeOf l
decreasing_by all_goals (subst_vars; simp_wf; try omega)

end

set_option maxHeartbeats 200000

/-- First run on an operand-less `CallIndirect` with an `Unreachable` target:
`handleCall` finds no unreachable operand (there are none), the target is
unreachable, so `visitCallIndirect` wraps it in a fresh one-element block of
the node's type. -/
theorem runDCE_callIndirect_unr :
    runDCE (Expr.callIndirect ExprList.nil Expr.unreachable Typ.i32) =
      Expr.block Option.none (ExprList.cons Expr.unreachable ExprList.nil)
        Typ.i32 := by
  unfold runDCE
  simp [dceE, dceL, initSt, visitCallIndirect, handleCall,
    firstUnreachableIdx, isUnreachable, typeOf, emap, eappend]

/-- Second run on that output: `visitBlock` sees a single-element list whose
only child is unreachable and replaces the block by its contents (the
simplify-to-contents branch, which does not involve the type updater). -/
theorem runDCE_singleton_unr_block :
    runDCE (Expr.block Option.none
      (ExprList.cons Expr.unreachable ExprList.nil) Typ.i32) =
      Expr.unreachable := by
  unfold runDCE
  simp [dceE, dceL, initSt, visitBlock, elength, isUnreachable, typeOf,
    simplifyToContentsWithPossibleTypeChange, hasBreakToOpt]

/-- **C8, counterexample.** For a `CallIndirect` with no operands and an
`Unreachable` target — a well-formed body — the first run leaves the operand
rule idle (no operands) and, the target being unreachable, wraps it in a fresh
`(block … (unreachable))` of the node's type.  The second run's `visitBlock`
sees a single-element block whose only child is unreachable and replaces the
block by that child, so running the pass twice produces a different AST than
running it once: the pass is not idempotent.  Neither run's trace involves
the type updater's retype, so the refutation does not depend on how
`maybe_update_type_to_unreachable` is modelled. -/
theorem dce_not_idempotent_cex :
    wfE (Expr.callIndirect ExprList.nil Expr.unreachable Typ.i32) [] = true ∧
    runDCE (Expr.callIndirect ExprList.nil Expr.unreachable Typ.i32) =
      Expr.block Option.none (ExprList.cons Expr.unreachable ExprList.nil)
        Typ.i32 ∧
    runDCE (runDCE (Expr.callIndirect ExprList.nil Expr.unreachable Typ.i32))
      = Expr.unreachable ∧
    runDCE (runDCE (Expr.callIndirect ExprList.nil Expr.unreachable Typ.i32))
      ≠ runDCE (Expr.callIndirect ExprList.nil Expr.unreachable Typ.i32) := by
  refine ⟨by decide, runDCE_callIndirect_unr, ?_, ?_⟩
  · rw [runDCE_callIndirect_unr, runDCE_singleton_unr_block]
  · rw [runDCE_callIndirect_unr, runDCE_singleton_unr_block]
    simp

/-- **C8 (amended).** The pass is not idempotent: applying DCE twice to a
well-formed function body can produce a strictly simpler AST than applying it
once.  The per-node rewrites (`CallIndirect`, `Break`, `Switch`, `Store`,
`Binary`, `Select`, the call family) build fresh blocks after the walk has
already passed their position, so a first application can leave behind a
single-element block whose only child is unreachable, which only the next
application's `visitBlock` collapses to its contents; the declared types of
such freshly built blocks are likewise only reconciled by the type updater on
a later application. -/
theorem dce_second_run_strictly_simplifies :
    ∃ body : Expr, wfE body [] = true ∧
      runDCE (runDCE body) ≠ runDCE body := by
  refine ⟨Expr.callIndirect ExprList.nil Expr.unreachable Typ.i32,
    by decide, ?_⟩
  rw [runDCE_callIndirect_unr, runDCE_singleton_unr_block]
  simp
